import Mathlib

/-!
INI parser (`parse.go`): shallow embedding and verified properties.

Go strings are modelled as lists of Unicode code points (`Str`); the input is
therefore assumed to be valid UTF-8.  Byte lengths, where the code depends on
them (the scanner's token limit, the `bytes` counter), are computed from the
UTF-8 width of each code point.

Go maps are reference values: `Section` values stored in `parser.sections`
are references to mutable map objects.  The embedding keeps an explicit heap
of map objects, so that `sec[key] = val` inside `addToSection` is an in-place
update that is visible through every name bound to the same object.
-/

namespace Ini

/-- Go `string`, as a list of code points. -/
abbrev Str := List Char

/-- Go `len(s)` for a string: its length in bytes (UTF-8). -/
def byteLen (s : Str) : Nat := (s.map Char.utf8Size).sum

/-! ## Library functions used by the parser -/

/-- Go `unicode.IsSpace`: the Unicode White_Space property. -/
def unicode.IsSpace (r : Char) : Bool :=
  let n := r.toNat
  (0x09 ≤ n && n ≤ 0x0D) || n == 0x20 || n == 0x85 || n == 0xA0 || n == 0x1680 ||
  (0x2000 ≤ n && n ≤ 0x200A) || n == 0x2028 || n == 0x2029 || n == 0x202F ||
  n == 0x205F || n == 0x3000

/-- Go `strings.TrimSpace`: removes leading and trailing white space. -/
def strings.TrimSpace (s : Str) : Str :=
  ((s.dropWhile unicode.IsSpace).reverse.dropWhile unicode.IsSpace).reverse

/-- The lowercase mappings of the code points above U+007F, as ranges
`(lo, hi, stride, to)`: the code points `lo`, `lo + stride`, ..., `hi` are
mapped to `to`, `to + stride`, ....  These are the simple lowercase mappings of
the Unicode Character Database (Unicode 15.0), which the `CaseRanges` table of
the Go library encodes; a code point in no range has no mapping. -/
def unicode.lowerRanges : List (Nat × Nat × Nat × Nat) :=
  [(0xC0, 0xD6, 1, 0xE0), (0xD8, 0xDE, 1, 0xF8), (0x100, 0x12E, 2, 0x101),
   (0x130, 0x130, 1, 0x69), (0x132, 0x136, 2, 0x133), (0x139, 0x147, 2, 0x13A),
   (0x14A, 0x176, 2, 0x14B), (0x178, 0x178, 1, 0xFF), (0x179, 0x17D, 2, 0x17A),
   (0x181, 0x181, 1, 0x253), (0x182, 0x184, 2, 0x183), (0x186, 0x186, 1, 0x254),
   (0x187, 0x187, 1, 0x188), (0x189, 0x18A, 1, 0x256), (0x18B, 0x18B, 1, 0x18C),
   (0x18E, 0x18E, 1, 0x1DD), (0x18F, 0x18F, 1, 0x259), (0x190, 0x190, 1, 0x25B),
   (0x191, 0x191, 1, 0x192), (0x193, 0x193, 1, 0x260), (0x194, 0x194, 1, 0x263),
   (0x196, 0x196, 1, 0x269), (0x197, 0x197, 1, 0x268), (0x198, 0x198, 1, 0x199),
   (0x19C, 0x19C, 1, 0x26F), (0x19D, 0x19D, 1, 0x272), (0x19F, 0x19F, 1, 0x275),
   (0x1A0, 0x1A4, 2, 0x1A1), (0x1A6, 0x1A6, 1, 0x280), (0x1A7, 0x1A7, 1, 0x1A8),
   (0x1A9, 0x1A9, 1, 0x283), (0x1AC, 0x1AC, 1, 0x1AD), (0x1AE, 0x1AE, 1, 0x288),
   (0x1AF, 0x1AF, 1, 0x1B0), (0x1B1, 0x1B2, 1, 0x28A), (0x1B3, 0x1B5, 2, 0x1B4),
   (0x1B7, 0x1B7, 1, 0x292), (0x1B8, 0x1B8, 1, 0x1B9), (0x1BC, 0x1BC, 1, 0x1BD),
   (0x1C4, 0x1C4, 1, 0x1C6), (0x1C5, 0x1C5, 1, 0x1C6), (0x1C7, 0x1C7, 1, 0x1C9),
   (0x1C8, 0x1C8, 1, 0x1C9), (0x1CA, 0x1CA, 1, 0x1CC), (0x1CB, 0x1DB, 2, 0x1CC),
   (0x1DE, 0x1EE, 2, 0x1DF), (0x1F1, 0x1F1, 1, 0x1F3), (0x1F2, 0x1F4, 2, 0x1F3),
   (0x1F6, 0x1F6, 1, 0x195), (0x1F7, 0x1F7, 1, 0x1BF), (0x1F8, 0x21E, 2, 0x1F9),
   (0x220, 0x220, 1, 0x19E), (0x222, 0x232, 2, 0x223), (0x23A, 0x23A, 1, 0x2C65),
   (0x23B, 0x23B, 1, 0x23C), (0x23D, 0x23D, 1, 0x19A), (0x23E, 0x23E, 1, 0x2C66),
   (0x241, 0x241, 1, 0x242), (0x243, 0x243, 1, 0x180), (0x244, 0x244, 1, 0x289),
   (0x245, 0x245, 1, 0x28C), (0x246, 0x24E, 2, 0x247), (0x370, 0x372, 2, 0x371),
   (0x376, 0x376, 1, 0x377), (0x37F, 0x37F, 1, 0x3F3), (0x386, 0x386, 1, 0x3AC),
   (0x388, 0x38A, 1, 0x3AD), (0x38C, 0x38C, 1, 0x3CC), (0x38E, 0x38F, 1, 0x3CD),
   (0x391, 0x3A1, 1, 0x3B1), (0x3A3, 0x3AB, 1, 0x3C3), (0x3CF, 0x3CF, 1, 0x3D7),
   (0x3D8, 0x3EE, 2, 0x3D9), (0x3F4, 0x3F4, 1, 0x3B8), (0x3F7, 0x3F7, 1, 0x3F8),
   (0x3F9, 0x3F9, 1, 0x3F2), (0x3FA, 0x3FA, 1, 0x3FB), (0x3FD, 0x3FF, 1, 0x37B),
   (0x400, 0x40F, 1, 0x450), (0x410, 0x42F, 1, 0x430), (0x460, 0x480, 2, 0x461),
   (0x48A, 0x4BE, 2, 0x48B), (0x4C0, 0x4C0, 1, 0x4CF), (0x4C1, 0x4CD, 2, 0x4C2),
   (0x4D0, 0x52E, 2, 0x4D1), (0x531, 0x556, 1, 0x561), (0x10A0, 0x10C5, 1, 0x2D00),
   (0x10C7, 0x10C7, 1, 0x2D27), (0x10CD, 0x10CD, 1, 0x2D2D), (0x13A0, 0x13EF, 1, 0xAB70),
   (0x13F0, 0x13F5, 1, 0x13F8), (0x1C90, 0x1CBA, 1, 0x10D0), (0x1CBD, 0x1CBF, 1, 0x10FD),
   (0x1E00, 0x1E94, 2, 0x1E01), (0x1E9E, 0x1E9E, 1, 0xDF), (0x1EA0, 0x1EFE, 2, 0x1EA1),
   (0x1F08, 0x1F0F, 1, 0x1F00), (0x1F18, 0x1F1D, 1, 0x1F10), (0x1F28, 0x1F2F, 1, 0x1F20),
   (0x1F38, 0x1F3F, 1, 0x1F30), (0x1F48, 0x1F4D, 1, 0x1F40), (0x1F59, 0x1F5F, 2, 0x1F51),
   (0x1F68, 0x1F6F, 1, 0x1F60), (0x1F88, 0x1F8F, 1, 0x1F80), (0x1F98, 0x1F9F, 1, 0x1F90),
   (0x1FA8, 0x1FAF, 1, 0x1FA0), (0x1FB8, 0x1FB9, 1, 0x1FB0), (0x1FBA, 0x1FBB, 1, 0x1F70),
   (0x1FBC, 0x1FBC, 1, 0x1FB3), (0x1FC8, 0x1FCB, 1, 0x1F72), (0x1FCC, 0x1FCC, 1, 0x1FC3),
   (0x1FD8, 0x1FD9, 1, 0x1FD0), (0x1FDA, 0x1FDB, 1, 0x1F76), (0x1FE8, 0x1FE9, 1, 0x1FE0),
   (0x1FEA, 0x1FEB, 1, 0x1F7A), (0x1FEC, 0x1FEC, 1, 0x1FE5), (0x1FF8, 0x1FF9, 1, 0x1F78),
   (0x1FFA, 0x1FFB, 1, 0x1F7C), (0x1FFC, 0x1FFC, 1, 0x1FF3), (0x2126, 0x2126, 1, 0x3C9),
   (0x212A, 0x212A, 1, 0x6B), (0x212B, 0x212B, 1, 0xE5), (0x2132, 0x2132, 1, 0x214E),
   (0x2160, 0x216F, 1, 0x2170), (0x2183, 0x2183, 1, 0x2184), (0x24B6, 0x24CF, 1, 0x24D0),
   (0x2C00, 0x2C2F, 1, 0x2C30), (0x2C60, 0x2C60, 1, 0x2C61), (0x2C62, 0x2C62, 1, 0x26B),
   (0x2C63, 0x2C63, 1, 0x1D7D), (0x2C64, 0x2C64, 1, 0x27D), (0x2C67, 0x2C6B, 2, 0x2C68),
   (0x2C6D, 0x2C6D, 1, 0x251), (0x2C6E, 0x2C6E, 1, 0x271), (0x2C6F, 0x2C6F, 1, 0x250),
   (0x2C70, 0x2C70, 1, 0x252), (0x2C72, 0x2C72, 1, 0x2C73), (0x2C75, 0x2C75, 1, 0x2C76),
   (0x2C7E, 0x2C7F, 1, 0x23F), (0x2C80, 0x2CE2, 2, 0x2C81), (0x2CEB, 0x2CED, 2, 0x2CEC),
   (0x2CF2, 0x2CF2, 1, 0x2CF3), (0xA640, 0xA66C, 2, 0xA641), (0xA680, 0xA69A, 2, 0xA681),
   (0xA722, 0xA72E, 2, 0xA723), (0xA732, 0xA76E, 2, 0xA733), (0xA779, 0xA77B, 2, 0xA77A),
   (0xA77D, 0xA77D, 1, 0x1D79), (0xA77E, 0xA786, 2, 0xA77F), (0xA78B, 0xA78B, 1, 0xA78C),
   (0xA78D, 0xA78D, 1, 0x265), (0xA790, 0xA792, 2, 0xA791), (0xA796, 0xA7A8, 2, 0xA797),
   (0xA7AA, 0xA7AA, 1, 0x266), (0xA7AB, 0xA7AB, 1, 0x25C), (0xA7AC, 0xA7AC, 1, 0x261),
   (0xA7AD, 0xA7AD, 1, 0x26C), (0xA7AE, 0xA7AE, 1, 0x26A), (0xA7B0, 0xA7B0, 1, 0x29E),
   (0xA7B1, 0xA7B1, 1, 0x287), (0xA7B2, 0xA7B2, 1, 0x29D), (0xA7B3, 0xA7B3, 1, 0xAB53),
   (0xA7B4, 0xA7C2, 2, 0xA7B5), (0xA7C4, 0xA7C4, 1, 0xA794), (0xA7C5, 0xA7C5, 1, 0x282),
   (0xA7C6, 0xA7C6, 1, 0x1D8E), (0xA7C7, 0xA7C9, 2, 0xA7C8), (0xA7D0, 0xA7D0, 1, 0xA7D1),
   (0xA7D6, 0xA7D8, 2, 0xA7D7), (0xA7F5, 0xA7F5, 1, 0xA7F6), (0xFF21, 0xFF3A, 1, 0xFF41),
   (0x10400, 0x10427, 1, 0x10428), (0x104B0, 0x104D3, 1, 0x104D8), (0x10570, 0x1057A, 1, 0x10597),
   (0x1057C, 0x1058A, 1, 0x105A3), (0x1058C, 0x10592, 1, 0x105B3), (0x10594, 0x10595, 1, 0x105BB),
   (0x10C80, 0x10CB2, 1, 0x10CC0), (0x118A0, 0x118BF, 1, 0x118C0), (0x16E40, 0x16E5F, 1, 0x16E60),
   (0x1E900, 0x1E921, 1, 0x1E922)]

/-- Go `unicode.ToLower`: `A`..`Z` are mapped to `a`..`z`, every other ASCII
code point to itself, and a code point above U+007F to its simple lowercase
mapping, or to itself when it has none. -/
def unicode.ToLower (r : Char) : Char :=
  if r.toNat ≤ 0x7F then
    if 0x41 ≤ r.toNat ∧ r.toNat ≤ 0x5A then Char.ofNat (r.toNat + 0x20) else r
  else
    match unicode.lowerRanges.find?
        (fun x => x.1 ≤ r.toNat && r.toNat ≤ x.2.1 && (r.toNat - x.1) % x.2.2.1 == 0) with
    | some x => Char.ofNat (x.2.2.2 + (r.toNat - x.1))
    | none => r

/-- Go `strings.ToLower`: every code point is mapped by `unicode.ToLower`. -/
def strings.ToLower (s : Str) : Str := s.map unicode.ToLower

/-- Default token limit of `bufio.Scanner` (`bufio.MaxScanTokenSize`). -/
def MaxScanTokenSize : Nat := 64 * 1024

/-- The sequence of raw lines `bufio.ScanLines` cuts the input into: the text
is split at every `\n`; the terminator is not part of the line; a final
unterminated piece is a line only when it is non-empty. -/
def scanLines : Str → List Str
  | [] => []
  | c :: cs =>
    if c = '\n' then [] :: scanLines cs
    else
      match scanLines cs with
      | [] => [[c]]
      | l :: ls => (c :: l) :: ls

/-- Go `dropCR` of `bufio`: drops one terminal `\r` from the line. -/
def dropCR (data : Str) : Str :=
  if data.getLast? = some '\r' then data.dropLast else data

/-! ## Regular expressions

Each pattern is anchored at both ends, so `FindStringSubmatch` has at most
one way to match; the functions return the capture groups.  In Go syntax `.`
does not match `\n`, a negated class does, and `$` matches at the end of the
text only. -/

/-- `sectionRegex = ^\[(.*)\]$`; returns group 1. -/
def sectionRegex (line : Str) : Option Str :=
  match line with
  | '[' :: rest =>
    if rest.getLast? = some ']' ∧ '\n' ∉ rest.dropLast then some rest.dropLast else none
  | _ => none

/-- `assignArrRegex = ^([^=\[\]]+)\[\][^=]*=(.*)$`; returns groups 1 and 2. -/
def assignArrRegex (line : Str) : Option (Str × Str) :=
  let plain : Char → Bool := fun c => c != '=' && c != '[' && c != ']'
  match line.dropWhile plain with
  | '[' :: ']' :: rest =>
    match rest.dropWhile (fun c => c != '=') with
    | _ :: val =>
      if line.takeWhile plain ≠ [] ∧ '\n' ∉ val then some (line.takeWhile plain, val) else none
    | [] => none
  | _ => none

/-- `assignRegex = ^([^=]+)=(.*)$`; returns groups 1 and 2. -/
def assignRegex (line : Str) : Option (Str × Str) :=
  match line.dropWhile (fun c => c != '=') with
  | _ :: val =>
    if line.takeWhile (fun c => c != '=') ≠ [] ∧ '\n' ∉ val then
      some (line.takeWhile (fun c => c != '='), val)
    else none
  | [] => none

/-- The character class `['"]`. -/
def isQuote (c : Char) : Bool := c == '\'' || c == '"'

/-- `quotesRegex = ^(['"])(.*)(['"])$`; returns groups 1, 2 and 3. -/
def quotesRegex (s : Str) : Option (Char × Str × Char) :=
  match s with
  | q :: rest =>
    match rest.getLast? with
    | some q' =>
      if isQuote q ∧ isQuote q' ∧ '\n' ∉ rest.dropLast then some (q, rest.dropLast, q') else none
    | none => none
  | [] => none

/-- Go `trimWithQuotes`. -/
def trimWithQuotes (inputVal : Str) : Str :=
  let ret := strings.TrimSpace inputVal
  match quotesRegex ret with
  | some (g1, g2, g3) => if g1 = g3 then g2 else ret
  | none => ret

/-! ## Maps and the parser state -/

/-- Go `map[string]V` as an association list; the first binding of a key is
the one in force. -/
abbrev Map (V : Type) := List (Str × V)

/-- Map lookup `m[k]` with the `ok` flag. -/
def Map.get? {V : Type} (m : Map V) (k : Str) : Option V :=
  match m with
  | [] => none
  | (k', v) :: t => if k' = k then some v else Map.get? t k

/-- Map assignment `m[k] = v`. -/
def Map.set {V : Type} (m : Map V) (k : Str) (v : V) : Map V :=
  match m with
  | [] => [(k, v)]
  | (k', v') :: t => if k' = k then (k, v) :: t else (k', v') :: Map.set t k v

/-- Contents of a map object of type `Section` (Go `map[string]string`). -/
abbrev SectionMap := Map Str

/-- Go `parser` (the unused `mapping` field is left out), together with the
heap holding the map objects its `sections` refer to: a Go `Section` value is
a reference to a map object, here the index of the object in `heap`. -/
structure parser where
  heap : List SectionMap
  sections : Map Nat
  NoDefSection : Bool
  DefSection : Str
  IgnoreCase : Bool

/-- The parser built by the package function `parse`: an empty `sections` map and
every other field at its zero value. -/
def parser.fresh : parser :=
  { heap := [], sections := [], NoDefSection := false, DefSection := [], IgnoreCase := false }

/-- A parser with IgnoreCase on whose Document holds the section `s` with the
pair `a = 1` (the state reached on the input `[s]`, `a = 1`). -/
def parser.folding : parser :=
  { heap := [[("a".toList, "1".toList)]], sections := [("s".toList, 0)],
    NoDefSection := false, DefSection := [], IgnoreCase := true }

/-- The map object a `Section` reference points to. -/
def parser.deref (p : parser) (sec : Nat) : SectionMap := p.heap.getD sec []

/-- The Document view: the contents of the section stored under `name`. -/
def parser.section? (p : parser) (name : Str) : Option SectionMap :=
  (p.sections.get? name).map p.deref

/-- The Document view: the value stored under section `name` and key `key`. -/
def parser.value? (p : parser) (name key : Str) : Option Str :=
  (p.section? name).bind (fun m => m.get? key)

/-- Go `parser.addToSection`: returns the `Section` reference and the parser
after the call (the heap may have been updated in place or extended). -/
def parser.addToSection (p : parser) (name key val : Str) : Nat × parser :=
  let name := if p.IgnoreCase then strings.ToLower name else name
  let key := if p.IgnoreCase then strings.ToLower key else key
  match p.sections.get? name with
  | some sec => (sec, { p with heap := p.heap.set sec ((p.deref sec).set key val) })
  | none => (p.heap.length, { p with heap := p.heap ++ [[(key, val)]] })

/-- The statement `p.sections[section] = p.addToSection(section, key, val)`. -/
def parser.store (p : parser) («section» key val : Str) : parser :=
  let r := p.addToSection «section» key val
  { r.2 with sections := r.2.sections.set «section» r.1 }

/-- Errors `parser.parse` can return: `errSyntax{Line, Source}` or the
scanner's `bufio.ErrTooLong`. -/
inductive error where
  | errSyntax (Line : Nat) (Source : Str)
  | ErrTooLong
  deriving DecidableEq, Repr

/-- Local variables of the loop in `parser.parse`, with the parser. -/
structure LoopState where
  p : parser
  «section» : Str
  lineNum : Nat
  bytes : Int

/-- The local variables of `parser.parse` before the first iteration:
`section := DefSection`, `lineNum := 0`, `bytes = -1`. -/
def parser.parse.init (DefSection : Str) (p : parser) : LoopState :=
  { p := p, «section» := DefSection, lineNum := 0, bytes := -1 }

/-- One iteration of the loop body of `parser.parse` on the token `text`
returned by `in.Text()`: the next loop state, or the error returned. -/
def parser.parse.body (st : LoopState) (text : Str) : Except error LoopState :=
  let bytes := st.bytes + 1 + (byteLen text : Int)
  let lineNum := st.lineNum + 1
  let line := strings.TrimSpace text
  let st := { st with bytes := bytes, lineNum := lineNum }
  if line.length = 0 then .ok st
  else if line.head? = some ';' ∨ line.head? = some '#' then .ok st
  else if (assignArrRegex line).isSome then .ok st
  else
    match assignRegex line with
    | some (key, val) =>
      .ok { st with p := st.p.store st.«section» (strings.TrimSpace key) (trimWithQuotes val) }
    | none =>
      match sectionRegex line with
      | some name => .ok { st with «section» := strings.TrimSpace name }
      | none => .error (error.errSyntax lineNum line)

/-- Result of `parser.parse`: the parser after the call, and the returned
`bytes` and `err`. -/
structure ParseResult where
  p : parser
  bytes : Int
  err : Option error

/-- The loop of `parser.parse` over the raw lines the scanner still has to
deliver.  `in.Scan()` fails with `bufio.ErrTooLong` on a raw line that does
not fit the token limit, and returns false without error at the end of the
input; in both cases the loop ends and `err = in.Err()` is returned. -/
def parser.parse.loop (st : LoopState) : List Str → ParseResult
  | [] => { p := st.p, bytes := if st.bytes < 0 then 0 else st.bytes, err := none }
  | raw :: rest =>
    if MaxScanTokenSize ≤ byteLen raw then
      { p := st.p, bytes := if st.bytes < 0 then 0 else st.bytes, err := some error.ErrTooLong }
    else
      match parser.parse.body st (dropCR raw) with
      | .ok st' => parser.parse.loop st' rest
      | .error e =>
        { p := st.p, bytes := st.bytes + 1 + (byteLen (dropCR raw) : Int), err := some e }

/-- Go `parser.parse` on a scanner over `data`.  `DefSection` is the package
constant of that name, which is declared outside `parse.go`. -/
def parser.parse (DefSection : Str) (p : parser) (data : Str) : ParseResult :=
  parser.parse.loop (parser.parse.init DefSection p) (scanLines data)

/-- Go package function `parse(data)`: a fresh parser run over `data`. -/
def parse (DefSection : Str) (data : Str) : ParseResult :=
  parser.parse DefSection parser.fresh data

/-! ## Vocabulary of the specification -/

/-- What the loop does with a line, in the priority order of the line
classifier: blank and comment lines are skipped, then the array pattern, the
scalar pattern and the header pattern are tried in this order. -/
inductive LineKind where
  | skipped
  | array
  | assign (key val : Str)
  | header (name : Str)
  | invalid (source : Str)
  deriving DecidableEq, Repr

/-- The kind of a line of the input, with the payload the loop extracts. -/
def classify (raw : Str) : LineKind :=
  let line := strings.TrimSpace raw
  if line = [] then .skipped
  else if line.head? = some ';' ∨ line.head? = some '#' then .skipped
  else if (assignArrRegex line).isSome then .array
  else
    match assignRegex line with
    | some (key, val) => .assign (strings.TrimSpace key) (trimWithQuotes val)
    | none =>
      match sectionRegex line with
      | some name => .header (strings.TrimSpace name)
      | none => .invalid line

/-- A scalar-assignment line, with its trimmed key and quote-stripped value. -/
def scalarAssignment? (raw : Str) : Option (Str × Str) :=
  match classify raw with
  | .assign key val => some (key, val)
  | _ => none

/-- A section-header line, with its trimmed name. -/
def header? (raw : Str) : Option Str :=
  match classify raw with
  | .header name => some name
  | _ => none

/-- An array-assignment line. -/
def isArrayLine (raw : Str) : Bool :=
  match classify raw with
  | .array => true
  | _ => false

/-- An unrecognised line: trimmed, non-empty, not a comment, matching none of
the array, scalar-assignment or section-header patterns. -/
def unrecognised (raw : Str) : Bool :=
  match classify raw with
  | .invalid _ => true
  | _ => false

/-- A raw line the scanner can deliver: it fits the token limit. -/
def fitsToken (raw : Str) : Bool := decide (byteLen raw < MaxScanTokenSize)

/-- The current section at line index `i` (0-based): the trimmed name of the
nearest preceding header, or `DefSection` when there is none. -/
def currentSection (DefSection : Str) (lines : List Str) (i : Nat) : Str :=
  ((lines.take i).reverse.findSome? header?).getD DefSection

/-- The value of the last scalar-assignment line whose trimmed key is `k` and
whose current section is `s`, if there is such a line. -/
def lastAssigned (DefSection : Str) (lines : List Str) (s k : Str) : Option Str :=
  (List.range lines.length).reverse.findSome? fun i =>
    match lines[i]?.bind scalarAssignment? with
    | some (k', v) => if k' = k ∧ currentSection DefSection lines i = s then some v else none
    | none => none

/-! ## Auxiliary notions for the proofs -/

/-- Every section name refers to a map object of the heap, and no two names
refer to the same object. -/
def parser.WF (p : parser) : Prop :=
  (∀ n r, p.sections.get? n = some r → r < p.heap.length) ∧
  (∀ n₁ n₂ r, p.sections.get? n₁ = some r → p.sections.get? n₂ = some r → n₁ = n₂)

/-- The loop state after the loop has gone through the given raw lines, or
the error that stopped it. -/
def parser.parse.run (st : LoopState) : List Str → Except error LoopState
  | [] => .ok st
  | raw :: rest =>
    if MaxScanTokenSize ≤ byteLen raw then .error error.ErrTooLong
    else
      match parser.parse.body st (dropCR raw) with
      | .ok st' => parser.parse.run st' rest
      | .error e => .error e

/-- The loop state after the counters `bytes` and `lineNum` have been advanced
for the token `text`. -/
def parser.parse.tick (st : LoopState) (text : Str) : LoopState :=
  { st with bytes := st.bytes + 1 + (byteLen text : Int), lineNum := st.lineNum + 1 }

/-- Invariant of the loop with `IgnoreCase` off, after the raw lines `done`:
the Document holds, for every section and key, the last value assigned, and
the local variables agree with the lines read. -/
def parser.parse.Inv (DefSection : Str) (done : List Str) (st : LoopState) : Prop :=
  st.p.IgnoreCase = false ∧ st.p.WF ∧
  st.«section» = currentSection DefSection done done.length ∧
  st.lineNum = done.length ∧
  (∀ s k, st.p.value? s k = lastAssigned DefSection done s k) ∧
  (∀ s m, st.p.section? s = some m → m ≠ [])

/-- The parser with its `NoDefSection` field set to `b`. -/
def parser.withNoDefSection (p : parser) (b : Bool) : parser :=
  { p with NoDefSection := b }

/-- A blank or comment line: empty after trimming, or with `;` or `#` as its
first non-whitespace character. -/
def isBlankOrComment (raw : Str) : Bool :=
  match raw.dropWhile unicode.IsSpace with
  | [] => true
  | c :: _ => c == ';' || c == '#'

/-- What holds of a stored key: it is non-empty, contains no `=`, has no
leading or trailing whitespace, does not begin with `;` or `#`, and contains no
line break. -/
def cleanKey (k : Str) : Prop :=
  k ≠ [] ∧ '=' ∉ k ∧
  (∀ c, k.head? = some c → unicode.IsSpace c = false) ∧
  (∀ c, k.getLast? = some c → unicode.IsSpace c = false) ∧
  k.head? ≠ some ';' ∧ k.head? ≠ some '#' ∧ '\n' ∉ k

/-- Every entry of the Document has a clean key and a value without a line
break. -/
def parser.Clean (p : parser) : Prop :=
  ∀ s k v, p.value? s k = some v → cleanKey k ∧ '\n' ∉ v

/-- The input with every LF line ending replaced by CRLF. -/
def toCRLF : Str → Str
  | [] => []
  | c :: cs => if c = '\n' then '\r' :: '\n' :: toCRLF cs else c :: toCRLF cs

/-- The line `l'` is the line `l` with spaces or tabs added in front of it and
behind it (possibly none). -/
def padded (l l' : Str) : Prop :=
  ∃ ws₁ ws₂, (∀ c ∈ ws₁, c = ' ' ∨ c = '\t') ∧ (∀ c ∈ ws₂, c = ' ' ∨ c = '\t') ∧
    l' = ws₁ ++ l ++ ws₂

/-- What `reflect` reports of the target `v` handed to `Decode`: a value that
is not of pointer kind (`rv.Kind() != reflect.Ptr`, which includes the nil
interface), a nil pointer (`rv.IsNil()`), or a pointer to a value.  `typ` is
the text `reflect.TypeOf(v)` is printed as. -/
inductive Target (α : Type) where
  | nonPointer (typ : Str)
  | nilPointer (typ : Str)
  | pointer (typ : Str) (pointee : α)

/-- The errors `Decode` can return: its two `fmt.Errorf` errors for an invalid
target, the error of `parse`, and the errors of `json.Marshal` and
`json.Unmarshal`. -/
inductive DecodeError where
  | nonPointer (typ : Str)
  | nilPointer (typ : Str)
  | parse (e : error)
  | marshal (msg : Str)
  | unmarshal (msg : Str)
  deriving DecidableEq

/-- Go `Decode(blob, v)`: the error returned and the target after the call.
`Marshal` and `Unmarshal` stand for `json.Marshal` on `p.sections` and
`json.Unmarshal` into the pointee; `Unmarshal` returns its error and the
pointee as it has left it. -/
def Decode {α : Type} (DefSection : Str) (Marshal : parser → Except Str Str)
    (Unmarshal : Str → α → Option Str × α) (blob : Str) (v : Target α) :
    Option DecodeError × Target α :=
  match v with
  | .nonPointer typ => (some (.nonPointer typ), v)
  | .nilPointer typ => (some (.nilPointer typ), v)
  | .pointer typ pointee =>
    match (parse DefSection blob).err with
    | some e => (some (.parse e), v)
    | none =>
      match Marshal (parse DefSection blob).p with
      | .error msg => (some (.marshal msg), v)
      | .ok bs =>
        match Unmarshal bs pointee with
        | (some msg, pointee') => (some (.unmarshal msg), .pointer typ pointee')
        | (none, pointee') => (none, .pointer typ pointee')

/-! ## Strings -/

theorem dropWhile_pad {P : Char → Bool} (ws : Str) (a : Char) (t : Str)
    (hws : ∀ c ∈ ws, P c = true) (ha : P a = false) :
    (ws ++ a :: t).dropWhile P = a :: t := by
  induction ws with
  | nil => simp [List.dropWhile_cons, ha]
  | cons c cs ih =>
    have hc : P c = true := hws c (List.mem_cons_self _ _)
    simp only [List.cons_append, List.dropWhile_cons, hc, if_true]
    exact ih (fun x hx => hws x (List.mem_cons_of_mem _ hx))

theorem TrimSpace_pad (ws₁ ws₂ mid : Str) (a b : Char)
    (h₁ : ∀ c ∈ ws₁, unicode.IsSpace c = true) (h₂ : ∀ c ∈ ws₂, unicode.IsSpace c = true)
    (ha : unicode.IsSpace a = false) (hb : unicode.IsSpace b = false) :
    strings.TrimSpace (ws₁ ++ a :: mid ++ [b] ++ ws₂) = a :: mid ++ [b] := by
  unfold strings.TrimSpace
  have e1 : (ws₁ ++ a :: mid ++ [b] ++ ws₂).dropWhile unicode.IsSpace = a :: (mid ++ [b] ++ ws₂) := by
    have := dropWhile_pad (P := unicode.IsSpace) ws₁ a (mid ++ [b] ++ ws₂) h₁ ha
    simpa using this
  rw [e1]
  have e2 : (a :: (mid ++ [b] ++ ws₂)).reverse = ws₂.reverse ++ b :: (mid.reverse ++ [a]) := by
    simp
  rw [e2, dropWhile_pad (P := unicode.IsSpace) ws₂.reverse b (mid.reverse ++ [a])
    (fun c hc => h₂ c (List.mem_reverse.mp hc)) hb]
  simp

theorem TrimSpace_concat_space (l : Str) (c : Char) (hc : unicode.IsSpace c = true) :
    strings.TrimSpace (l ++ [c]) = strings.TrimSpace l := by
  unfold strings.TrimSpace
  rw [List.dropWhile_append]
  by_cases h : (l.dropWhile unicode.IsSpace).isEmpty = true
  · have h' : l.dropWhile unicode.IsSpace = [] := by simpa using h
    simp [h', List.dropWhile_cons, hc]
  · simp only [h, if_false, Bool.false_eq_true]
    rw [List.reverse_append]
    simp [List.dropWhile_cons, hc]

theorem IsSpace_cr : unicode.IsSpace '\r' = true := by decide

theorem TrimSpace_dropCR (raw : Str) : strings.TrimSpace (dropCR raw) = strings.TrimSpace raw := by
  unfold dropCR
  split
  · next h =>
    obtain ⟨ys, rfl⟩ := List.getLast?_eq_some_iff.mp h
    rw [List.dropLast_concat, TrimSpace_concat_space ys '\r' IsSpace_cr]
  · rfl

theorem quotesRegex_pair (q q' : Char) (s : Str) (hq : isQuote q = true) (hq' : isQuote q' = true)
    (hs : '\n' ∉ s) : quotesRegex (q :: s ++ [q']) = some (q, s, q') := by
  simp [quotesRegex, List.getLast?_concat, List.dropLast_concat, hq, hq', hs]

theorem quotesRegex_some {s : Str} {g1 g3 : Char} {g2 : Str}
    (h : quotesRegex s = some (g1, g2, g3)) :
    s = g1 :: g2 ++ [g3] ∧ isQuote g1 = true ∧ isQuote g3 = true ∧ '\n' ∉ g2 := by
  unfold quotesRegex at h
  cases s with
  | nil => simp at h
  | cons q rest =>
    simp only at h
    split at h
    · next q' hlast =>
      split at h
      · next hc =>
        simp only [Option.some.injEq, Prod.mk.injEq] at h
        obtain ⟨rfl, rfl, rfl⟩ := h
        refine ⟨?_, hc.1, hc.2.1, hc.2.2⟩
        have := List.dropLast_append_getLast? (l := rest) q' (by simp [hlast])
        simp [this]
      · simp at h
    · simp at h

theorem isQuote_iff (q : Char) : isQuote q = true ↔ (q = '\'' ∨ q = '"') := by
  simp [isQuote]

theorem isQuote_not_space (q : Char) (h : isQuote q = true) : unicode.IsSpace q = false := by
  rcases (isQuote_iff q).mp h with rfl | rfl <;> decide

/-! ## Maps and the store operation -/

theorem Map.get?_set {V : Type} (m : Map V) (k k' : Str) (v : V) :
    (m.set k v).get? k' = if k' = k then some v else m.get? k' := by
  induction m with
  | nil =>
    by_cases h : k = k'
    · subst h; simp [Map.set, Map.get?]
    · have h' : ¬ k' = k := fun e => h e.symm
      simp [Map.set, Map.get?, h, h']
  | cons e t ih =>
    obtain ⟨a, b⟩ := e
    by_cases h : a = k
    · subst h
      by_cases h' : a = k'
      · subst h'; simp [Map.set, Map.get?]
      · have h'' : ¬ k' = a := fun e => h' e.symm
        simp [Map.set, Map.get?, h', h'']
    · by_cases h' : a = k'
      · subst h'
        simp [Map.set, Map.get?, h]
      · simp [Map.set, Map.get?, h, h', ih]

theorem getD_set_heap (h : List SectionMap) (r r' : Nat) (m : SectionMap) :
    (h.set r m).getD r' [] = if r' = r ∧ r < h.length then m else h.getD r' [] := by
  simp only [List.getD_eq_getElem?_getD, List.getElem?_set]
  by_cases e : r = r'
  · subst e
    by_cases h2 : r < h.length
    · simp [h2]
    · have h3 : h[r]? = none := List.getElem?_eq_none (by omega)
      simp [h2, h3]
  · have e' : ¬ r' = r := fun x => e x.symm
    simp [e, e']

theorem getD_push_heap (h : List SectionMap) (r' : Nat) (m : SectionMap) :
    (h ++ [m]).getD r' [] = if r' = h.length then m else h.getD r' [] := by
  simp only [List.getD_eq_getElem?_getD, List.getElem?_append]
  by_cases e : r' < h.length
  · have e' : ¬ r' = h.length := by omega
    simp [e, e']
  · by_cases h2 : r' = h.length
    · subst h2; simp
    · have h3 : r' - h.length ≠ 0 := by omega
      have h5 : h[r']? = none := List.getElem?_eq_none (by omega)
      obtain ⟨j, hj⟩ := Nat.exists_eq_succ_of_ne_zero h3
      simp [e, h2, hj, h5]

/-- When the section name is not changed by the case folding, the store
rebinds it to the section extended by the pair (under the folded key), and
leaves every other section as it is. -/
theorem section?_store_fold (p : parser) (s k v s' : Str) (hwf : p.WF)
    (hs : (if p.IgnoreCase = true then strings.ToLower s else s) = s) :
    (p.store s k v).section? s' =
      if s' = s then
        some (((p.section? s).getD []).set
          (if p.IgnoreCase = true then strings.ToLower k else k) v)
      else p.section? s' := by
  unfold parser.store parser.addToSection parser.section?
  simp only [hs]
  generalize (if p.IgnoreCase = true then strings.ToLower k else k) = k'
  cases hget : p.sections.get? s with
  | some r =>
    have hr : r < p.heap.length := hwf.1 s r hget
    simp only [Map.get?_set]
    by_cases hs : s' = s
    · subst hs
      simp only [if_true, Option.map_some', hget, Option.getD_some, parser.deref]
      rw [getD_set_heap]
      simp [hr]
    · simp only [hs, if_false]
      cases hget' : p.sections.get? s' with
      | none => simp
      | some r' =>
        have hne : ¬ r' = r := fun e => hs (hwf.2 s' s r' hget' (e ▸ hget))
        simp only [Option.map_some', parser.deref]
        rw [getD_set_heap]
        simp [hne]
  | none =>
    simp only [Map.get?_set]
    by_cases hs : s' = s
    · subst hs
      simp only [if_true, Option.map_some', Option.map_none', Option.getD_none, parser.deref]
      rw [getD_push_heap]
      simp [Map.set]
    · simp only [hs, if_false]
      cases hget' : p.sections.get? s' with
      | none => simp
      | some r' =>
        have hlt : r' < p.heap.length := hwf.1 s' r' hget'
        have hne : ¬ r' = p.heap.length := by omega
        simp only [Option.map_some', parser.deref]
        rw [getD_push_heap]
        simp [hne]

/-- With `IgnoreCase` off, the store rebinds the section name to the section
extended by the pair, and leaves every other section as it is. -/
theorem section?_store (p : parser) (s k v s' : Str) (hic : p.IgnoreCase = false)
    (hwf : p.WF) :
    (p.store s k v).section? s' =
      if s' = s then some (((p.section? s).getD []).set k v) else p.section? s' := by
  have h := section?_store_fold p s k v s' hwf (by simp [hic])
  simpa [hic] using h

theorem WF_single (m : SectionMap) (n d : Str) (a c : Bool) :
    ({ heap := [m], sections := [(n, 0)], NoDefSection := a, DefSection := d,
       IgnoreCase := c } : parser).WF := by
  refine ⟨?_, ?_⟩
  · intro n' r h
    simp only [Map.get?] at h
    by_cases e : n = n'
    · simp only [e, if_true, Option.some.injEq] at h
      subst h; simp
    · simp only [e, if_false] at h
      exact absurd h (by simp)
  · intro n₁ n₂ r h₁ h₂
    simp only [Map.get?] at h₁ h₂
    by_cases e₁ : n = n₁
    · by_cases e₂ : n = n₂
      · rw [← e₁, ← e₂]
      · simp only [e₂, if_false] at h₂
        exact absurd h₂ (by simp)
    · simp only [e₁, if_false] at h₁
      exact absurd h₁ (by simp)

theorem folding_WF : parser.folding.WF :=
  WF_single _ _ _ _ _

theorem folding_reached :
    (parser.parse "DEFAULT".toList { parser.fresh with IgnoreCase := true }
      "[s]\na = 1".toList).p = parser.folding := by
  rfl

theorem value?_store (p : parser) (s k v s' k' : Str) (hic : p.IgnoreCase = false)
    (hwf : p.WF) :
    (p.store s k v).value? s' k' =
      if s' = s ∧ k' = k then some v else p.value? s' k' := by
  unfold parser.value?
  rw [section?_store p s k v s' hic hwf]
  by_cases hs : s' = s
  · subst hs
    simp only [if_true, Option.some_bind, Map.get?_set, true_and]
    by_cases hk : k' = k
    · simp [hk]
    · simp only [hk, if_false]
      cases p.section? s' <;> simp [Map.get?]
  · simp [hs]

theorem store_IgnoreCase (p : parser) (s k v : Str) :
    (p.store s k v).IgnoreCase = p.IgnoreCase := by
  unfold parser.store parser.addToSection
  simp only []
  split <;> rfl

theorem store_WF (p : parser) (s k v : Str) (hic : p.IgnoreCase = false) (hwf : p.WF) :
    (p.store s k v).WF := by
  unfold parser.store parser.addToSection
  simp only [hic, Bool.false_eq_true, if_false]
  cases hget : p.sections.get? s with
  | some r =>
    refine ⟨?_, ?_⟩
    · intro n r' h
      simp only [Map.get?_set] at h
      simp only [List.length_set]
      by_cases hn : n = s
      · simp only [hn, if_true, Option.some.injEq] at h
        subst h
        exact hwf.1 s r hget
      · simp only [hn, if_false] at h
        exact hwf.1 n r' h
    · intro n₁ n₂ r' h₁ h₂
      simp only [Map.get?_set] at h₁ h₂
      have e₁ : p.sections.get? n₁ = some r' := by
        by_cases hn : n₁ = s
        · simp only [hn, if_true, Option.some.injEq] at h₁
          subst h₁; subst hn; exact hget
        · simpa [hn] using h₁
      have e₂ : p.sections.get? n₂ = some r' := by
        by_cases hn : n₂ = s
        · simp only [hn, if_true, Option.some.injEq] at h₂
          subst h₂; subst hn; exact hget
        · simpa [hn] using h₂
      exact hwf.2 n₁ n₂ r' e₁ e₂
  | none =>
    refine ⟨?_, ?_⟩
    · intro n r' h
      simp only [Map.get?_set] at h
      simp only [List.length_append, List.length_singleton]
      by_cases hn : n = s
      · simp only [hn, if_true, Option.some.injEq] at h
        omega
      · simp only [hn, if_false] at h
        have := hwf.1 n r' h
        omega
    · intro n₁ n₂ r' h₁ h₂
      simp only [Map.get?_set] at h₁ h₂
      by_cases hn₁ : n₁ = s
      · by_cases hn₂ : n₂ = s
        · rw [hn₁, hn₂]
        · simp only [hn₁, if_true, Option.some.injEq] at h₁
          simp only [hn₂, if_false] at h₂
          have := hwf.1 n₂ r' h₂
          omega
      · by_cases hn₂ : n₂ = s
        · simp only [hn₂, if_true, Option.some.injEq] at h₂
          simp only [hn₁, if_false] at h₁
          have := hwf.1 n₁ r' h₁
          omega
        · simp only [hn₁, if_false] at h₁
          simp only [hn₂, if_false] at h₂
          exact hwf.2 n₁ n₂ r' h₁ h₂

theorem fresh_WF : parser.fresh.WF := by
  refine ⟨?_, ?_⟩ <;> intro n <;> simp [parser.fresh, Map.get?]

/-! ## The loop body and the line classifier -/

theorem body_eq_classify (st : LoopState) (text : Str) :
    parser.parse.body st text =
      match classify text with
      | .skipped => .ok (parser.parse.tick st text)
      | .array => .ok (parser.parse.tick st text)
      | .assign key val =>
        .ok { parser.parse.tick st text with p := st.p.store st.«section» key val }
      | .header name => .ok { parser.parse.tick st text with «section» := name }
      | .invalid source => .error (error.errSyntax (st.lineNum + 1) source) := by
  unfold parser.parse.body classify parser.parse.tick
  simp only [List.length_eq_zero]
  by_cases h1 : strings.TrimSpace text = []
  · simp [h1]
  · simp only [h1, if_false]
    by_cases h2 : (strings.TrimSpace text).head? = some ';' ∨
        (strings.TrimSpace text).head? = some '#'
    · simp [h2]
    · simp only [h2, if_false]
      by_cases h3 : (assignArrRegex (strings.TrimSpace text)).isSome = true
      · simp [h3]
      · simp only [h3, if_false, Bool.false_eq_true]
        cases h4 : assignRegex (strings.TrimSpace text) with
        | some kv => rfl
        | none =>
          cases h5 : sectionRegex (strings.TrimSpace text) with
          | some name => rfl
          | none => rfl

theorem classify_dropCR (raw : Str) : classify (dropCR raw) = classify raw := by
  unfold classify
  rw [TrimSpace_dropCR]

/-! ## The loop -/

theorem run_append (st : LoopState) (pre post : List Str) :
    parser.parse.run st (pre ++ post) =
      match parser.parse.run st pre with
      | .ok st' => parser.parse.run st' post
      | .error e => .error e := by
  induction pre generalizing st with
  | nil => rfl
  | cons raw rest ih =>
    simp only [List.cons_append, parser.parse.run]
    by_cases h : MaxScanTokenSize ≤ byteLen raw
    · simp [h]
    · simp only [h, if_false]
      cases hb : parser.parse.body st (dropCR raw) with
      | ok st' => exact ih st'
      | error e => rfl

theorem loop_of_run_ok (st st' : LoopState) (ls : List Str)
    (h : parser.parse.run st ls = .ok st') :
    (parser.parse.loop st ls).p = st'.p ∧ (parser.parse.loop st ls).err = none := by
  induction ls generalizing st with
  | nil =>
    simp only [parser.parse.run, Except.ok.injEq] at h
    subst h
    simp [parser.parse.loop]
  | cons raw rest ih =>
    simp only [parser.parse.run] at h
    by_cases hlen : MaxScanTokenSize ≤ byteLen raw
    · simp [hlen] at h
    · simp only [hlen, if_false] at h
      cases hb : parser.parse.body st (dropCR raw) with
      | ok st₁ =>
        rw [hb] at h
        simp only [parser.parse.loop, hlen, if_false, hb]
        exact ih st₁ h
      | error e => rw [hb] at h; simp at h

theorem run_of_loop_ok (st : LoopState) (ls : List Str)
    (h : (parser.parse.loop st ls).err = none) :
    ∃ st', parser.parse.run st ls = .ok st' := by
  induction ls generalizing st with
  | nil => exact ⟨st, rfl⟩
  | cons raw rest ih =>
    simp only [parser.parse.loop] at h
    by_cases hlen : MaxScanTokenSize ≤ byteLen raw
    · simp [hlen] at h
    · simp only [hlen, if_false] at h
      cases hb : parser.parse.body st (dropCR raw) with
      | ok st₁ =>
        rw [hb] at h
        obtain ⟨st', hst'⟩ := ih st₁ h
        exact ⟨st', by simp [parser.parse.run, hlen, hb, hst']⟩
      | error e => rw [hb] at h; simp at h

theorem loop_append (st st' : LoopState) (pre post : List Str)
    (h : parser.parse.run st pre = .ok st') :
    parser.parse.loop st (pre ++ post) = parser.parse.loop st' post := by
  induction pre generalizing st with
  | nil =>
    simp only [parser.parse.run, Except.ok.injEq] at h
    subst h; rfl
  | cons raw rest ih =>
    simp only [parser.parse.run] at h
    by_cases hlen : MaxScanTokenSize ≤ byteLen raw
    · simp [hlen] at h
    · simp only [hlen, if_false] at h
      cases hb : parser.parse.body st (dropCR raw) with
      | ok st₁ =>
        rw [hb] at h
        simp only [List.cons_append, parser.parse.loop, hlen, if_false, hb]
        exact ih st₁ h
      | error e => rw [hb] at h; simp at h

/-! ## The specification functions along a growing input -/

theorem findSome?_congr_mem {α β : Type} (f g : α → Option β) (l : List α)
    (h : ∀ a ∈ l, f a = g a) : l.findSome? f = l.findSome? g := by
  induction l with
  | nil => rfl
  | cons a t ih =>
    simp only [List.findSome?_cons, h a (List.mem_cons_self _ _)]
    rw [ih (fun x hx => h x (List.mem_cons_of_mem _ hx))]

theorem currentSection_append (D : Str) (pre post : List Str) (i : Nat)
    (hi : i ≤ pre.length) :
    currentSection D (pre ++ post) i = currentSection D pre i := by
  unfold currentSection
  rw [List.take_append_of_le_length hi]

theorem currentSection_snoc (D : Str) (pre : List Str) (raw : Str) :
    currentSection D (pre ++ [raw]) (pre ++ [raw]).length =
      (header? raw).getD (currentSection D pre pre.length) := by
  unfold currentSection
  simp only [List.take_length, List.reverse_append, List.reverse_cons, List.reverse_nil,
    List.nil_append, List.singleton_append, List.findSome?_cons]
  cases header? raw <;> simp

theorem lastAssigned_snoc (D : Str) (pre : List Str) (raw : Str) (s k : Str) :
    lastAssigned D (pre ++ [raw]) s k =
      match scalarAssignment? raw with
      | some (k', v) =>
        if k' = k ∧ currentSection D pre pre.length = s then some v
        else lastAssigned D pre s k
      | none => lastAssigned D pre s k := by
  unfold lastAssigned
  have hlen : (pre ++ [raw]).length = pre.length + 1 := by simp
  rw [hlen, List.range_succ, List.reverse_append]
  simp only [List.reverse_cons, List.reverse_nil, List.nil_append, List.singleton_append,
    List.findSome?_cons]
  have hget : (pre ++ [raw])[pre.length]? = some raw := by simp
  have hcur : currentSection D (pre ++ [raw]) pre.length = currentSection D pre pre.length :=
    currentSection_append D pre [raw] pre.length (le_refl _)
  have htail : ((List.range pre.length).reverse.findSome? fun i =>
        match (pre ++ [raw])[i]?.bind scalarAssignment? with
        | some (k', v) =>
          if k' = k ∧ currentSection D (pre ++ [raw]) i = s then some v else none
        | none => none) =
      ((List.range pre.length).reverse.findSome? fun i =>
        match pre[i]?.bind scalarAssignment? with
        | some (k', v) => if k' = k ∧ currentSection D pre i = s then some v else none
        | none => none) := by
    apply findSome?_congr_mem
    intro i hi
    have hi' : i < pre.length := by simpa using hi
    rw [List.getElem?_append_left hi', currentSection_append D pre [raw] i (le_of_lt hi')]
  rw [htail, hget, hcur]
  simp only [Option.some_bind]
  cases hsa : scalarAssignment? raw with
  | none => rfl
  | some kv =>
    obtain ⟨k', v⟩ := kv
    by_cases hc : k' = k ∧ currentSection D pre pre.length = s
    · simp [hc]
    · simp [hc]

/-! ## The loop invariant -/

theorem Inv_init (D : Str) (p : parser) (hic : p.IgnoreCase = false) (hwf : p.WF)
    (hempty : p.sections = []) :
    parser.parse.Inv D [] (parser.parse.init D p) := by
  refine ⟨hic, hwf, ?_, rfl, ?_, ?_⟩
  · simp [parser.parse.init, currentSection]
  · intro s k
    simp [parser.parse.init, parser.value?, parser.section?, hempty, Map.get?, lastAssigned]
  · intro s m h
    simp [parser.parse.init, parser.section?, hempty, Map.get?] at h

theorem Map.set_ne_nil {V : Type} (m : Map V) (k : Str) (v : V) : m.set k v ≠ [] := by
  cases m with
  | nil => simp [Map.set]
  | cons e t =>
    obtain ⟨a, b⟩ := e
    by_cases h : a = k <;> simp [Map.set, h]

theorem Inv_step (D : Str) (pre : List Str) (raw : Str) (st st' : LoopState)
    (hinv : parser.parse.Inv D pre st)
    (hb : parser.parse.body st (dropCR raw) = .ok st') :
    parser.parse.Inv D (pre ++ [raw]) st' := by
  obtain ⟨hic, hwf, hsec, hnum, hval, hne⟩ := hinv
  rw [body_eq_classify, classify_dropCR] at hb
  have hlen : (pre ++ [raw]).length = pre.length + 1 := by simp
  unfold parser.parse.Inv
  rw [currentSection_snoc]
  simp only [lastAssigned_snoc, hlen]
  unfold header? scalarAssignment?
  cases hc : classify raw with
  | skipped =>
    simp only [hc, Except.ok.injEq] at hb
    subst hb
    exact ⟨hic, hwf, by simpa [parser.parse.tick] using hsec,
      by simp [parser.parse.tick, hnum], by simpa [parser.parse.tick] using hval,
      by simpa [parser.parse.tick] using hne⟩
  | array =>
    simp only [hc, Except.ok.injEq] at hb
    subst hb
    exact ⟨hic, hwf, by simpa [parser.parse.tick] using hsec,
      by simp [parser.parse.tick, hnum], by simpa [parser.parse.tick] using hval,
      by simpa [parser.parse.tick] using hne⟩
  | header name =>
    simp only [hc, Except.ok.injEq] at hb
    subst hb
    exact ⟨hic, hwf, by simp [parser.parse.tick],
      by simp [parser.parse.tick, hnum], by simpa [parser.parse.tick] using hval,
      by simpa [parser.parse.tick] using hne⟩
  | invalid src => simp [hc] at hb
  | assign key val =>
    simp only [hc, Except.ok.injEq] at hb
    subst hb
    refine ⟨?_, ?_, by simpa [parser.parse.tick] using hsec,
      by simp [parser.parse.tick, hnum], ?_, ?_⟩
    · simpa [parser.parse.tick, store_IgnoreCase] using hic
    · simpa [parser.parse.tick] using store_WF st.p st.«section» key val hic hwf
    · intro s k
      simp only [parser.parse.tick]
      rw [value?_store st.p st.«section» key val s k hic hwf, hval s k, ← hsec]
      by_cases h1 : key = k
      · by_cases h2 : st.«section» = s
        · subst h1; subst h2; simp
        · have h2' : ¬ s = st.«section» := fun e => h2 e.symm
          simp [h2, h2']
      · have h1' : ¬ k = key := fun e => h1 e.symm
        simp [h1, h1']
    · intro s m hm
      simp only [parser.parse.tick] at hm
      rw [section?_store st.p st.«section» key val s hic hwf] at hm
      by_cases hs : s = st.«section»
      · simp only [hs, if_true, Option.some.injEq] at hm
        subst hm
        exact Map.set_ne_nil _ _ _
      · simp only [hs, if_false] at hm
        exact hne s m hm

theorem Inv_run (D : Str) (pre post : List Str) (st st' : LoopState)
    (hinv : parser.parse.Inv D pre st)
    (hrun : parser.parse.run st post = .ok st') :
    parser.parse.Inv D (pre ++ post) st' := by
  induction post generalizing pre st with
  | nil =>
    simp only [parser.parse.run, Except.ok.injEq] at hrun
    subst hrun
    simpa using hinv
  | cons raw rest ih =>
    simp only [parser.parse.run] at hrun
    by_cases hlen : MaxScanTokenSize ≤ byteLen raw
    · simp [hlen] at hrun
    · simp only [hlen, if_false] at hrun
      cases hb : parser.parse.body st (dropCR raw) with
      | ok st₁ =>
        rw [hb] at hrun
        have := ih (pre ++ [raw]) st₁ (Inv_step D pre raw st st₁ hinv hb) hrun
        simpa using this
      | error e => rw [hb] at hrun; simp at hrun

/-! ## Reading `lastAssigned` -/

theorem findSome?_reverse_range_some {β : Type} (f : Nat → Option β) (n : Nat) (v : β) :
    (List.range n).reverse.findSome? f = some v ↔
      ∃ i, i < n ∧ f i = some v ∧ ∀ j, i < j → j < n → f j = none := by
  induction n with
  | zero => simp
  | succ n ih =>
    rw [List.range_succ, List.reverse_append]
    simp only [List.reverse_cons, List.reverse_nil, List.nil_append, List.singleton_append,
      List.findSome?_cons]
    cases hfn : f n with
    | some b =>
      simp only [Option.some.injEq]
      constructor
      · rintro rfl
        exact ⟨n, Nat.lt_succ_self n, hfn, fun j h1 h2 => absurd h2 (by omega)⟩
      · rintro ⟨i, hi, hfi, hlater⟩
        by_cases hin : i = n
        · subst hin; rw [hfn] at hfi; exact Option.some.inj hfi
        · have := hlater n (by omega) (Nat.lt_succ_self n)
          rw [hfn] at this; simp at this
    | none =>
      simp only []
      rw [ih]
      constructor
      · rintro ⟨i, hi, hfi, hlater⟩
        refine ⟨i, by omega, hfi, fun j h1 h2 => ?_⟩
        by_cases hjn : j = n
        · subst hjn; exact hfn
        · exact hlater j h1 (by omega)
      · rintro ⟨i, hi, hfi, hlater⟩
        have hin : i ≠ n := by
          rintro rfl
          rw [hfn] at hfi; simp at hfi
        exact ⟨i, by omega, hfi, fun j h1 h2 => hlater j h1 (by omega)⟩

theorem findSome?_reverse_range_none {β : Type} (f : Nat → Option β) (n : Nat) :
    (List.range n).reverse.findSome? f = none ↔ ∀ i, i < n → f i = none := by
  simp [List.findSome?_eq_none_iff]

/-- Line `i` is a scalar assignment of `v` to key `k` while `s` is current. -/
theorem assigned_iff (D : Str) (lines : List Str) (s k v : Str) (i : Nat) :
    (match lines[i]?.bind scalarAssignment? with
      | some (k', v') => if k' = k ∧ currentSection D lines i = s then some v' else none
      | none => none) = some v ↔
    (lines[i]?.bind scalarAssignment? = some (k, v) ∧ currentSection D lines i = s) := by
  cases h : lines[i]?.bind scalarAssignment? with
  | none => simp
  | some kv =>
    obtain ⟨k', v'⟩ := kv
    by_cases hc : k' = k ∧ currentSection D lines i = s
    · obtain ⟨rfl, hs⟩ := hc
      simp [hs]
    · simp only [hc, if_false, Option.some.injEq, Prod.mk.injEq]
      constructor
      · intro h'; simp at h'
      · rintro ⟨⟨rfl, rfl⟩, hs⟩
        exact absurd ⟨rfl, hs⟩ hc

theorem not_assigned_iff (D : Str) (lines : List Str) (s k : Str) (i : Nat) :
    (match lines[i]?.bind scalarAssignment? with
      | some (k', v') => if k' = k ∧ currentSection D lines i = s then some v' else none
      | none => none) = none ↔
    ¬ ∃ v, (lines[i]?.bind scalarAssignment? = some (k, v) ∧ currentSection D lines i = s) := by
  constructor
  · rintro h ⟨v, hv⟩
    rw [((assigned_iff D lines s k v i).mpr hv)] at h
    simp at h
  · intro h
    cases hm : (match lines[i]?.bind scalarAssignment? with
      | some (k', v') => if k' = k ∧ currentSection D lines i = s then some v' else none
      | none => none) with
    | none => rfl
    | some v => exact absurd ⟨v, (assigned_iff D lines s k v i).mp hm⟩ h

theorem lastAssigned_eq_some_iff (D : Str) (lines : List Str) (s k v : Str) :
    lastAssigned D lines s k = some v ↔
      ∃ i, i < lines.length ∧
        (lines[i]?.bind scalarAssignment? = some (k, v) ∧ currentSection D lines i = s) ∧
        ∀ j, i < j → j < lines.length →
          ¬ ∃ v', (lines[j]?.bind scalarAssignment? = some (k, v') ∧
            currentSection D lines j = s) := by
  unfold lastAssigned
  rw [findSome?_reverse_range_some]
  constructor
  · rintro ⟨i, hi, hfi, hlater⟩
    exact ⟨i, hi, (assigned_iff D lines s k v i).mp hfi,
      fun j h1 h2 => (not_assigned_iff D lines s k j).mp (hlater j h1 h2)⟩
  · rintro ⟨i, hi, hfi, hlater⟩
    exact ⟨i, hi, (assigned_iff D lines s k v i).mpr hfi,
      fun j h1 h2 => (not_assigned_iff D lines s k j).mpr (hlater j h1 h2)⟩

theorem lastAssigned_eq_none_iff (D : Str) (lines : List Str) (s k : Str) :
    lastAssigned D lines s k = none ↔
      ¬ ∃ i v, lines[i]?.bind scalarAssignment? = some (k, v) ∧
        currentSection D lines i = s := by
  unfold lastAssigned
  rw [findSome?_reverse_range_none]
  constructor
  · rintro h ⟨i, v, hv⟩
    have hi : i < lines.length := by
      by_contra hge
      have : lines[i]? = none := List.getElem?_eq_none (by omega)
      rw [this] at hv
      simp at hv
    exact (not_assigned_iff D lines s k i).mp (h i hi) ⟨v, hv⟩
  · intro h i _
    exact (not_assigned_iff D lines s k i).mpr (fun ⟨v, hv⟩ => h ⟨i, v, hv⟩)

/-- The invariant holds at the end of every successful `parse`. -/
theorem Inv_parse (D data : Str) (h : (parse D data).err = none) :
    ∃ st, parser.parse.Inv D (scanLines data) st ∧ (parse D data).p = st.p := by
  unfold parse parser.parse at h ⊢
  obtain ⟨st, hst⟩ := run_of_loop_ok _ _ h
  refine ⟨st, ?_, (loop_of_run_ok _ _ _ hst).1⟩
  have := Inv_run D [] (scanLines data) _ st
    (Inv_init D parser.fresh rfl fresh_WF rfl) hst
  simpa using this

/-! ## Syntax errors and the token limit -/

theorem classify_invalid_source (raw src : Str) (h : classify raw = .invalid src) :
    src = strings.TrimSpace raw := by
  unfold classify at h
  simp only at h
  split at h
  · simp at h
  · split at h
    · simp at h
    · split at h
      · simp at h
      · split at h
        · simp at h
        · split at h
          · simp at h
          · simpa using h.symm

theorem body_lineNum (st st' : LoopState) (text : Str)
    (h : parser.parse.body st text = .ok st') : st'.lineNum = st.lineNum + 1 := by
  rw [body_eq_classify] at h
  cases hc : classify text <;> simp only [hc, Except.ok.injEq] at h
  all_goals first
    | (subst h; rfl)
    | simp at h

theorem body_ok_of_recognised (st : LoopState) (raw : Str) (h : unrecognised raw = false) :
    ∃ st', parser.parse.body st (dropCR raw) = .ok st' := by
  rw [body_eq_classify, classify_dropCR]
  unfold unrecognised at h
  cases hc : classify raw <;> simp only [hc] at h ⊢
  · exact ⟨_, rfl⟩
  · exact ⟨_, rfl⟩
  · exact ⟨_, rfl⟩
  · exact ⟨_, rfl⟩
  · simp at h

theorem fitsToken_iff (raw : Str) : fitsToken raw = true ↔ ¬ MaxScanTokenSize ≤ byteLen raw := by
  simp [fitsToken]

theorem run_ok_of_recognised (st : LoopState) (pre : List Str)
    (hpre : ∀ x ∈ pre, fitsToken x = true ∧ unrecognised x = false) :
    ∃ st', parser.parse.run st pre = .ok st' ∧ st'.lineNum = st.lineNum + pre.length := by
  induction pre generalizing st with
  | nil => exact ⟨st, rfl, rfl⟩
  | cons raw rest ih =>
    obtain ⟨hfit, hrec⟩ := hpre raw (List.mem_cons_self _ _)
    obtain ⟨st₁, hst₁⟩ := body_ok_of_recognised st raw hrec
    obtain ⟨st', hrun, hnum⟩ := ih st₁ (fun x hx => hpre x (List.mem_cons_of_mem _ hx))
    refine ⟨st', ?_, ?_⟩
    · simp [parser.parse.run, (fitsToken_iff raw).mp hfit, hst₁, hrun]
    · rw [hnum, body_lineNum st st₁ _ hst₁, List.length_cons]; omega

theorem loop_unrecognised (st : LoopState) (raw : Str) (post : List Str)
    (hfit : fitsToken raw = true) (hbad : unrecognised raw = true) :
    parser.parse.loop st (raw :: post) =
      { p := st.p, bytes := st.bytes + 1 + (byteLen (dropCR raw) : Int),
        err := some (error.errSyntax (st.lineNum + 1) (strings.TrimSpace raw)) } := by
  have hb : parser.parse.body st (dropCR raw) =
      .error (error.errSyntax (st.lineNum + 1) (strings.TrimSpace raw)) := by
    rw [body_eq_classify, classify_dropCR]
    unfold unrecognised at hbad
    cases hc : classify raw <;> simp only [hc] at hbad ⊢
    all_goals first
      | (exfalso; simp at hbad)
      | skip
    rw [classify_invalid_source raw _ hc]
  simp [parser.parse.loop, (fitsToken_iff raw).mp hfit, hb]

theorem loop_too_long (st : LoopState) (raw : Str) (post : List Str)
    (hlong : fitsToken raw = false) :
    (parser.parse.loop st (raw :: post)).err = some error.ErrTooLong ∧
    (parser.parse.loop st (raw :: post)).p = st.p := by
  have h : MaxScanTokenSize ≤ byteLen raw := by
    by_contra hc
    rw [(fitsToken_iff raw).mpr hc] at hlong
    simp at hlong
  simp [parser.parse.loop, h]

theorem byteLen_replicate_a (n : Nat) : byteLen (List.replicate n 'a') = n := by
  induction n with
  | zero => rfl
  | succ n ih =>
    have h1 : Char.utf8Size 'a' = 1 := by decide
    unfold byteLen at ih ⊢
    simp only [List.replicate_succ, List.map_cons, List.sum_cons, ih, h1]
    omega

theorem scanLines_replicate_a (n : Nat) :
    scanLines (List.replicate (n + 1) 'a') = [List.replicate (n + 1) 'a'] := by
  induction n with
  | zero => decide
  | succ n ih =>
    have hne : ¬ ('a' = '\n') := by decide
    rw [List.replicate_succ, scanLines]
    simp only [hne, if_false, ih]

theorem TrimSpace_replicate_a (n : Nat) :
    strings.TrimSpace (List.replicate n 'a') = List.replicate n 'a' := by
  have hsp : unicode.IsSpace 'a' = false := by decide
  have hd : ∀ m, (List.replicate m 'a').dropWhile unicode.IsSpace = List.replicate m 'a' := by
    intro m
    cases m with
    | zero => rfl
    | succ m => simp [List.replicate_succ, List.dropWhile_cons, hsp]
  unfold strings.TrimSpace
  rw [hd, List.reverse_replicate, hd, List.reverse_replicate]

theorem classify_replicate_a (n : Nat) :
    classify (List.replicate (n + 1) 'a') = .invalid (List.replicate (n + 1) 'a') := by
  have h1 : (List.replicate (n + 1) 'a').dropWhile
      (fun c => c != '=' && c != '[' && c != ']') = [] := by
    rw [List.dropWhile_eq_nil_iff]
    intro x hx
    rw [List.eq_of_mem_replicate hx]
    decide
  have h2 : (List.replicate (n + 1) 'a').dropWhile (fun c => c != '=') = [] := by
    rw [List.dropWhile_eq_nil_iff]
    intro x hx
    rw [List.eq_of_mem_replicate hx]
    decide
  have h3 : assignArrRegex (List.replicate (n + 1) 'a') = none := by
    unfold assignArrRegex
    simp only [h1]
  have h4 : assignRegex (List.replicate (n + 1) 'a') = none := by
    unfold assignRegex
    simp only [h2]
  have h5 : sectionRegex (List.replicate (n + 1) 'a') = none := by
    rw [List.replicate_succ]
    unfold sectionRegex
    split
    · next heq =>
      have : 'a' = '[' := (List.cons.inj heq).1
      exact absurd this (by decide)
    · rfl
  unfold classify
  simp only [TrimSpace_replicate_a, h3, h4, h5]
  simp [List.replicate_succ]

theorem long_line_not_reported (D : Str) (n : Nat) (hpos : 0 < n)
    (hlong : MaxScanTokenSize ≤ n) :
    scanLines (List.replicate n 'a') = [List.replicate n 'a'] ∧
    unrecognised (List.replicate n 'a') = true ∧
    (parse D (List.replicate n 'a')).err = some error.ErrTooLong ∧
    (parse D (List.replicate n 'a')).err ≠
      some (error.errSyntax 1 (strings.TrimSpace (List.replicate n 'a'))) := by
  obtain ⟨m, rfl⟩ := Nat.exists_eq_succ_of_ne_zero (Nat.pos_iff_ne_zero.mp hpos)
  have hs := scanLines_replicate_a m
  have hc := classify_replicate_a m
  have hfit : fitsToken (List.replicate (m + 1) 'a') = false := by
    unfold fitsToken
    rw [byteLen_replicate_a]
    exact decide_eq_false (by omega)
  have herr : (parse D (List.replicate (m + 1) 'a')).err = some error.ErrTooLong := by
    unfold parse parser.parse
    rw [hs]
    exact (loop_too_long _ _ _ hfit).1
  refine ⟨hs, ?_, herr, ?_⟩
  · unfold unrecognised
    rw [hc]
  · rw [herr]
    intro h
    injection h with h
    cases h

/-- An input made of one scalar-assignment line yields a Document that maps
`DefSection` and the key to the value. -/
theorem parse_single_assignment (D data raw k v : Str) (hlines : scanLines data = [raw])
    (hfit : fitsToken raw = true) (hasg : scalarAssignment? raw = some (k, v)) :
    (parse D data).p.value? D k = some v := by
  have hrec : unrecognised raw = false := by
    unfold scalarAssignment? at hasg
    unfold unrecognised
    cases hc : classify raw <;> simp [hc] at hasg ⊢
  have hpre : ∀ x ∈ [raw], fitsToken x = true ∧ unrecognised x = false := by
    intro x hx
    rw [List.mem_singleton.mp hx]
    exact ⟨hfit, hrec⟩
  obtain ⟨st, hrun, _⟩ := run_ok_of_recognised (parser.parse.init D parser.fresh) [raw] hpre
  have herr : (parse D data).err = none := by
    unfold parse parser.parse
    rw [hlines]
    exact (loop_of_run_ok _ _ _ hrun).2
  obtain ⟨st', hinv, hp⟩ := Inv_parse D data herr
  rw [hp, hinv.2.2.2.2.1 D k, hlines]
  have := lastAssigned_snoc D [] raw D k
  simp only [List.nil_append] at this
  rw [this, hasg]
  simp [currentSection]

/-- After a successful `parse` every section name is bound to a map object of
its own, and IgnoreCase is off. -/
theorem parse_ok_WF (D data : Str) (h : (parse D data).err = none) :
    (parse D data).p.IgnoreCase = false ∧ (parse D data).p.WF := by
  obtain ⟨st, hinv, hp⟩ := Inv_parse D data h
  rw [hp]
  exact ⟨hinv.1, hinv.2.1⟩

/-! ## Shapes of the lines the patterns match -/

theorem takeWhile_pad {P : Char → Bool} (a : Str) (c : Char) (t : Str)
    (ha : ∀ x ∈ a, P x = true) (hc : P c = false) :
    (a ++ c :: t).takeWhile P = a := by
  induction a with
  | nil => simp [List.takeWhile_cons, hc]
  | cons x xs ih =>
    have hx : P x = true := ha x (List.mem_cons_self _ _)
    simp only [List.cons_append, List.takeWhile_cons, hx, if_true]
    rw [ih (fun y hy => ha y (List.mem_cons_of_mem _ hy))]

theorem dropWhile_eq_cons {P : Char → Bool} {l : Str} {c : Char} {t : Str}
    (h : l.dropWhile P = c :: t) : P c = false ∧ c ∈ l := by
  induction l with
  | nil => simp at h
  | cons x xs ih =>
    rw [List.dropWhile_cons] at h
    by_cases hx : P x = true
    · simp only [hx, if_true] at h
      exact ⟨(ih h).1, List.mem_cons_of_mem _ (ih h).2⟩
    · simp only [hx, if_false] at h
      obtain ⟨rfl, _⟩ := List.cons.inj h
      exact ⟨by simpa using hx, List.mem_cons_self _ _⟩

theorem mem_of_mem_dropWhile {P : Char → Bool} {l : Str} {c : Char}
    (h : c ∈ l.dropWhile P) : c ∈ l :=
  (List.dropWhile_suffix P).subset h

theorem ne_eq_char (c : Char) : (c != '=') = true ↔ c ≠ '=' := by simp

theorem assignRegex_split (a b : Str) (ha : '=' ∉ a) :
    assignRegex (a ++ '=' :: b) = if a ≠ [] ∧ '\n' ∉ b then some (a, b) else none := by
  have hall : ∀ x ∈ a, (fun c : Char => c != '=') x = true := by
    intro x hx
    have : x ≠ '=' := fun e => ha (e ▸ hx)
    simpa using this
  have hc : (fun c : Char => c != '=') '=' = false := by decide
  unfold assignRegex
  rw [dropWhile_pad a '=' b hall hc, takeWhile_pad a '=' b hall hc]

theorem assignRegex_no_eq (line : Str) (h : '=' ∉ line) : assignRegex line = none := by
  have hd : line.dropWhile (fun c => c != '=') = [] := by
    rw [List.dropWhile_eq_nil_iff]
    intro x hx
    have : x ≠ '=' := fun e => h (e ▸ hx)
    simpa using this
  unfold assignRegex
  simp only [hd]

theorem assignArrRegex_no_eq (line : Str) (h : '=' ∉ line) : assignArrRegex line = none := by
  unfold assignArrRegex
  simp only []
  split
  · next rest heq =>
    have hsub : ∀ x ∈ rest, x ∈ line := by
      intro x hx
      apply mem_of_mem_dropWhile (P := fun c => c != '=' && c != '[' && c != ']')
      rw [heq]
      exact List.mem_cons_of_mem _ (List.mem_cons_of_mem _ hx)
    split
    · next c val heq2 =>
      obtain ⟨hc, hmem⟩ := dropWhile_eq_cons heq2
      have hce : c = '=' := by simpa using hc
      exact absurd (hce ▸ hsub c hmem) h
    · rfl
  · rfl

theorem assignArrRegex_bracket_first (t : Str) : assignArrRegex ('[' :: t) = none := by
  have hc : (fun c : Char => c != '=' && c != '[' && c != ']') '[' = false := by decide
  unfold assignArrRegex
  simp only [List.dropWhile_cons, List.takeWhile_cons, hc, Bool.false_eq_true, if_false]
  split
  · split
    · simp
    · rfl
  · rfl

theorem sectionRegex_bracket (name : Str) :
    sectionRegex ('[' :: name ++ [']']) = if '\n' ∉ name then some name else none := by
  have h : '[' :: name ++ [']'] = '[' :: (name ++ [']']) := rfl
  rw [h]
  unfold sectionRegex
  simp only [List.getLast?_concat, List.dropLast_concat, true_and]

theorem classify_bracket (raw name : Str) (hshape : strings.TrimSpace raw = '[' :: name ++ [']'])
    (hnl : '\n' ∉ name) (heq : '=' ∉ name) :
    classify raw = .header (strings.TrimSpace name) := by
  have hnoeq : '=' ∉ ('[' :: name ++ [']']) := by
    intro hmem
    simp only [List.cons_append, List.mem_cons, List.mem_append, List.mem_singleton] at hmem
    rcases hmem with h | h | h
    · exact absurd h (by decide)
    · exact heq h
    · exact absurd h (by decide)
  unfold classify
  simp only [hshape, assignArrRegex_no_eq _ hnoeq, assignRegex_no_eq _ hnoeq,
    sectionRegex_bracket, hnl]
  simp

theorem classify_assign_inv (raw k v : Str) (h : classify raw = .assign k v) :
    ∃ k₀ v₀, assignRegex (strings.TrimSpace raw) = some (k₀, v₀) ∧
      k = strings.TrimSpace k₀ ∧ v = trimWithQuotes v₀ := by
  unfold classify at h
  simp only at h
  split at h
  · simp at h
  · split at h
    · simp at h
    · split at h
      · simp at h
      · split at h
        · next key val hreg =>
          simp only [LineKind.assign.injEq] at h
          exact ⟨key, val, hreg, h.1.symm, h.2.symm⟩
        · split at h <;> simp at h

/-! ## Header-free stretches of the input -/

theorem findSome?_header_none (ls : List Str) (h : ∀ x ∈ ls, header? x = none) :
    ls.findSome? header? = none := by
  rw [List.findSome?_eq_none_iff]
  exact h

theorem currentSection_no_header (D : Str) (pre mid : List Str)
    (h : ∀ x ∈ mid, header? x = none) :
    currentSection D (pre ++ mid) (pre ++ mid).length = currentSection D pre pre.length := by
  unfold currentSection
  simp only [List.take_length, List.reverse_append, List.findSome?_append]
  rw [findSome?_header_none mid.reverse (fun x hx => h x (List.mem_reverse.mp hx))]
  simp

theorem scalarAssignment?_recognised (raw k v : Str) (h : scalarAssignment? raw = some (k, v)) :
    unrecognised raw = false ∧ classify raw = .assign k v := by
  unfold scalarAssignment? at h
  unfold unrecognised
  cases hc : classify raw <;> simp only [hc] at h ⊢ <;> simp at h
  exact ⟨trivial, by rw [h.1, h.2]⟩

/-! ## Entries are never removed -/

theorem body_keeps (st st₁ : LoopState) (text : Str) (hic : st.p.IgnoreCase = false)
    (hwf : st.p.WF) (hb : parser.parse.body st text = .ok st₁) :
    st₁.p.IgnoreCase = false ∧ st₁.p.WF ∧
    ∀ s k, (st.p.value? s k).isSome = true → (st₁.p.value? s k).isSome = true := by
  rw [body_eq_classify] at hb
  cases hc : classify text with
  | skipped =>
    simp only [hc, Except.ok.injEq] at hb
    subst hb
    exact ⟨hic, hwf, fun s k h => h⟩
  | array =>
    simp only [hc, Except.ok.injEq] at hb
    subst hb
    exact ⟨hic, hwf, fun s k h => h⟩
  | header name =>
    simp only [hc, Except.ok.injEq] at hb
    subst hb
    exact ⟨hic, hwf, fun s k h => h⟩
  | invalid src => simp [hc] at hb
  | assign key val =>
    simp only [hc, Except.ok.injEq] at hb
    subst hb
    refine ⟨?_, ?_, ?_⟩
    · simpa [parser.parse.tick, store_IgnoreCase] using hic
    · simpa [parser.parse.tick] using store_WF st.p st.«section» key val hic hwf
    · intro s k h
      simp only [parser.parse.tick]
      rw [value?_store st.p st.«section» key val s k hic hwf]
      by_cases hcond : s = st.«section» ∧ k = key
      · simp [hcond]
      · simpa [hcond] using h

theorem loop_keeps (st : LoopState) (ls : List Str) (hic : st.p.IgnoreCase = false)
    (hwf : st.p.WF) (s k : Str) (h : (st.p.value? s k).isSome = true) :
    ((parser.parse.loop st ls).p.value? s k).isSome = true := by
  induction ls generalizing st with
  | nil => simpa [parser.parse.loop] using h
  | cons raw rest ih =>
    simp only [parser.parse.loop]
    by_cases hlen : MaxScanTokenSize ≤ byteLen raw
    · simpa [hlen] using h
    · simp only [hlen, if_false]
      cases hb : parser.parse.body st (dropCR raw) with
      | ok st₁ =>
        obtain ⟨hic₁, hwf₁, hkeep⟩ := body_keeps st st₁ _ hic hwf hb
        exact ih st₁ hic₁ hwf₁ (hkeep s k h)
      | error e => simpa using h

/-! ## Lines that leave the parser untouched -/

theorem scanLines_no_newline (data : Str) : ∀ l ∈ scanLines data, '\n' ∉ l := by
  induction data with
  | nil => intro l hl; simp [scanLines] at hl
  | cons c cs ih =>
    intro l hl
    unfold scanLines at hl
    by_cases hc : c = '\n'
    · simp only [hc, if_true, List.mem_cons] at hl
      rcases hl with rfl | hl
      · simp
      · exact ih l hl
    · simp only [hc, if_false] at hl
      cases hsc : scanLines cs with
      | nil =>
        rw [hsc] at hl
        simp only [List.mem_singleton] at hl
        subst hl
        simpa using fun e => hc e.symm
      | cons l₀ ls =>
        rw [hsc] at hl
        simp only [List.mem_cons] at hl
        have hl₀ : '\n' ∉ l₀ := ih l₀ (by rw [hsc]; exact List.mem_cons_self _ _)
        rcases hl with rfl | hl
        · intro hmem
          rcases List.mem_cons.mp hmem with e | e
          · exact hc e.symm
          · exact hl₀ e
        · exact ih l (by rw [hsc]; exact List.mem_cons_of_mem _ hl)

theorem scanLines_cons_line (l rest : Str) (hl : '\n' ∉ l) :
    scanLines (l ++ '\n' :: rest) = l :: scanLines rest := by
  induction l with
  | nil => simp [scanLines]
  | cons c cs ih =>
    have hc : ¬ c = '\n' := fun e => hl (e ▸ List.mem_cons_self _ _)
    have hcs : '\n' ∉ cs := fun e => hl (List.mem_cons_of_mem _ e)
    rw [List.cons_append, scanLines]
    simp only [hc, if_false, ih hcs]

theorem TrimSpace_array_line (key v : Str) (hns : key.dropWhile unicode.IsSpace ≠ []) :
    strings.TrimSpace (key ++ '[' :: ']' :: ' ' :: '=' :: ' ' :: v) =
      key.dropWhile unicode.IsSpace ++ '[' :: ']' :: ' ' :: '=' ::
        ((' ' :: v).reverse.dropWhile unicode.IsSpace).reverse := by
  have hemp : (key.dropWhile unicode.IsSpace).isEmpty = false := by
    cases h : key.dropWhile unicode.IsSpace with
    | nil => exact absurd h hns
    | cons _ _ => rfl
  have heqsp : unicode.IsSpace '=' = false := by decide
  unfold strings.TrimSpace
  rw [List.dropWhile_append]
  simp only [hemp, Bool.false_eq_true, if_false]
  have hrev : (key.dropWhile unicode.IsSpace ++ '[' :: ']' :: ' ' :: '=' :: ' ' :: v).reverse =
      (' ' :: v).reverse ++ '=' :: ' ' :: ']' :: '[' :: (key.dropWhile unicode.IsSpace).reverse := by
    simp
  rw [hrev, List.dropWhile_append]
  by_cases hR : ((' ' :: v).reverse.dropWhile unicode.IsSpace).isEmpty = true
  · have hR' : (' ' :: v).reverse.dropWhile unicode.IsSpace = [] := by simpa using hR
    simp only [hR, if_true, List.dropWhile_cons, heqsp, Bool.false_eq_true, if_false, hR']
    simp
  · simp only [hR, if_false, Bool.false_eq_true]
    simp

theorem classify_array_line (key v : Str)
    (hkey : ∀ c ∈ key, c ≠ '=' ∧ c ≠ '[' ∧ c ≠ ']')
    (hns : ∃ c ∈ key, unicode.IsSpace c = false) (hv : '\n' ∉ v) :
    classify (key ++ '[' :: ']' :: ' ' :: '=' :: ' ' :: v) = .array ∨
    classify (key ++ '[' :: ']' :: ' ' :: '=' :: ' ' :: v) = .skipped := by
  have hne : key.dropWhile unicode.IsSpace ≠ [] := by
    intro h
    obtain ⟨c, hc, hsp⟩ := hns
    have := (List.dropWhile_eq_nil_iff.mp h) c hc
    rw [hsp] at this
    simp at this
  have hplain : ∀ x ∈ key.dropWhile unicode.IsSpace,
      (fun c : Char => c != '=' && c != '[' && c != ']') x = true := by
    intro x hx
    obtain ⟨h1, h2, h3⟩ := hkey x (mem_of_mem_dropWhile hx)
    simp [h1, h2, h3]
  have hbr : (fun c : Char => c != '=' && c != '[' && c != ']') '[' = false := by decide
  have hW : '\n' ∉ ((' ' :: v).reverse.dropWhile unicode.IsSpace).reverse := by
    intro hmem
    have h1 := mem_of_mem_dropWhile (List.mem_reverse.mp hmem)
    rcases List.mem_cons.mp (List.mem_reverse.mp h1) with e | e
    · exact absurd e (by decide)
    · exact hv e
  have harr : (assignArrRegex (key.dropWhile unicode.IsSpace ++ '[' :: ']' :: ' ' :: '=' ::
      ((' ' :: v).reverse.dropWhile unicode.IsSpace).reverse)).isSome = true := by
    unfold assignArrRegex
    simp only [dropWhile_pad _ '[' _ hplain hbr, takeWhile_pad _ '[' _ hplain hbr]
    have hd : (' ' :: '=' :: ((' ' :: v).reverse.dropWhile unicode.IsSpace).reverse).dropWhile
        (fun c => c != '=') =
        '=' :: ((' ' :: v).reverse.dropWhile unicode.IsSpace).reverse := by
      have e1 : ((' ' : Char) != '=') = true := by decide
      have e2 : (('=' : Char) != '=') = false := by decide
      simp only [List.dropWhile_cons, e1, e2, if_true, Bool.false_eq_true, if_false]
    simp only [hd]
    rw [if_pos ⟨hne, hW⟩]
    rfl
  unfold classify
  simp only [TrimSpace_array_line key v hne]
  generalize key.dropWhile unicode.IsSpace ++ '[' :: ']' :: ' ' :: '=' ::
      ((' ' :: v).reverse.dropWhile unicode.IsSpace).reverse = L at harr ⊢
  by_cases h1 : L = []
  · right
    simp only [h1, if_true]
  · by_cases h2 : L.head? = some ';' ∨ L.head? = some '#'
    · right
      simp only [h1, h2, if_true, if_false]
    · left
      simp only [h1, h2, harr, if_true, if_false]

theorem body_discarded (st : LoopState) (raw : Str)
    (h : classify raw = .array ∨ classify raw = .skipped) :
    parser.parse.body st (dropCR raw) = .ok (parser.parse.tick st (dropCR raw)) := by
  rw [body_eq_classify, classify_dropCR]
  rcases h with h | h <;> rw [h]

theorem body_congr (st₁ st₂ : LoopState) (text : Str) (hp : st₁.p = st₂.p)
    (hs : st₁.«section» = st₂.«section») :
    (∀ a, parser.parse.body st₁ text = .ok a →
      ∃ b, parser.parse.body st₂ text = .ok b ∧ a.p = b.p ∧ a.«section» = b.«section») ∧
    (∀ e, parser.parse.body st₁ text = .error e →
      ∃ e', parser.parse.body st₂ text = .error e') := by
  rw [body_eq_classify, body_eq_classify]
  cases hc : classify text with
  | skipped =>
    refine ⟨fun a ha => ⟨_, rfl, ?_, ?_⟩, fun e he => by simp at he⟩
    · simp only [Except.ok.injEq] at ha; subst ha; exact hp
    · simp only [Except.ok.injEq] at ha; subst ha; exact hs
  | array =>
    refine ⟨fun a ha => ⟨_, rfl, ?_, ?_⟩, fun e he => by simp at he⟩
    · simp only [Except.ok.injEq] at ha; subst ha; exact hp
    · simp only [Except.ok.injEq] at ha; subst ha; exact hs
  | header name =>
    refine ⟨fun a ha => ⟨_, rfl, ?_, ?_⟩, fun e he => by simp at he⟩
    · simp only [Except.ok.injEq] at ha; subst ha; exact hp
    · simp only [Except.ok.injEq] at ha; subst ha; rfl
  | assign key val =>
    refine ⟨fun a ha => ⟨_, rfl, ?_, ?_⟩, fun e he => by simp at he⟩
    · simp only [Except.ok.injEq] at ha; subst ha
      simp only [parser.parse.tick]
      rw [hp, hs]
    · simp only [Except.ok.injEq] at ha; subst ha; exact hs
  | invalid src =>
    exact ⟨fun a ha => by simp at ha, fun e _ => ⟨_, rfl⟩⟩

theorem loop_congr (st₁ st₂ : LoopState) (ls : List Str) (hp : st₁.p = st₂.p)
    (hs : st₁.«section» = st₂.«section») :
    (parser.parse.loop st₁ ls).p = (parser.parse.loop st₂ ls).p ∧
    ((parser.parse.loop st₁ ls).err = none ↔ (parser.parse.loop st₂ ls).err = none) := by
  induction ls generalizing st₁ st₂ with
  | nil => simp [parser.parse.loop, hp]
  | cons raw rest ih =>
    simp only [parser.parse.loop]
    by_cases hlen : MaxScanTokenSize ≤ byteLen raw
    · simp [hlen, hp]
    · simp only [hlen, if_false]
      obtain ⟨hok, herr⟩ := body_congr st₁ st₂ (dropCR raw) hp hs
      cases hb : parser.parse.body st₁ (dropCR raw) with
      | ok a =>
        obtain ⟨b, hb₂, hpab, hsab⟩ := hok a hb
        rw [hb₂]
        exact ih a b hpab hsab
      | error e =>
        obtain ⟨e', hb₂⟩ := herr e hb
        rw [hb₂]
        simp [hp]

theorem loop_delete_line (st₁ st₂ : LoopState) (pre post : List Str) (line : Str)
    (hp : st₁.p = st₂.p) (hs : st₁.«section» = st₂.«section»)
    (hfit : fitsToken line = true)
    (hdisc : classify line = .array ∨ classify line = .skipped) :
    (parser.parse.loop st₁ (pre ++ line :: post)).p = (parser.parse.loop st₂ (pre ++ post)).p ∧
    ((parser.parse.loop st₁ (pre ++ line :: post)).err = none ↔
      (parser.parse.loop st₂ (pre ++ post)).err = none) := by
  induction pre generalizing st₁ st₂ with
  | nil =>
    simp only [List.nil_append]
    rw [parser.parse.loop]
    simp only [(fitsToken_iff line).mp hfit, if_false, body_discarded st₁ line hdisc]
    exact loop_congr _ st₂ post hp hs
  | cons raw rest ih =>
    simp only [List.cons_append, parser.parse.loop]
    by_cases hlen : MaxScanTokenSize ≤ byteLen raw
    · simp [hlen, hp]
    · simp only [hlen, if_false]
      obtain ⟨hok, herr⟩ := body_congr st₁ st₂ (dropCR raw) hp hs
      cases hb : parser.parse.body st₁ (dropCR raw) with
      | ok a =>
        obtain ⟨b, hb₂, hpab, hsab⟩ := hok a hb
        rw [hb₂]
        exact ih a b hpab hsab
      | error e =>
        obtain ⟨e', hb₂⟩ := herr e hb
        rw [hb₂]
        simp [hp]

theorem byteLen_append (a b : Str) : byteLen (a ++ b) = byteLen a + byteLen b := by
  simp [byteLen]

/-- An array-assignment line that does not fit the token limit stops the
scan: the lines after it are not read. -/
theorem long_array_line_stops (D : Str) (n : Nat) (hn : MaxScanTokenSize ≤ n) (rest : Str) :
    (parse D ((['k', '[', ']', ' ', '=', ' '] ++ List.replicate n 'a') ++ '\n' :: rest)).err
      = some error.ErrTooLong ∧
    (parse D ((['k', '[', ']', ' ', '=', ' '] ++ List.replicate n 'a') ++ '\n' :: rest)).p
      = parser.fresh := by
  have hnl : '\n' ∉ (['k', '[', ']', ' ', '=', ' '] ++ List.replicate n 'a') := by
    intro hmem
    rcases List.mem_append.mp hmem with h | h
    · revert h; decide
    · exact absurd (List.eq_of_mem_replicate h) (by decide)
  have hfit : fitsToken (['k', '[', ']', ' ', '=', ' '] ++ List.replicate n 'a') = false := by
    unfold fitsToken
    rw [byteLen_append, byteLen_replicate_a]
    exact decide_eq_false (by omega)
  unfold parse parser.parse
  rw [scanLines_cons_line _ rest hnl]
  exact loop_too_long _ _ _ hfit

/-! ## Properties of the parser -/

/-- C1: with IgnoreCase off (the parser built by `parse`), for every input on
which `parse` succeeds, the Document maps section `s` and key `k` to `v`
exactly when the last scalar-assignment line with trimmed key `k` and current
section `s` has the quote-stripped value `v`, and it has no entry for `(s, k)`
when there is no such line; a key assigned twice keeps only the last value. -/
theorem parse_holds_last_assignment (D data : Str) (h : (parse D data).err = none)
    (s k : Str) :
    (parse D data).p.value? s k = lastAssigned D (scanLines data) s k ∧
    (∀ v, (parse D data).p.value? s k = some v ↔
      ∃ i, i < (scanLines data).length ∧
        ((scanLines data)[i]?.bind scalarAssignment? = some (k, v) ∧
          currentSection D (scanLines data) i = s) ∧
        ∀ j, i < j → j < (scanLines data).length →
          ¬ ∃ v', ((scanLines data)[j]?.bind scalarAssignment? = some (k, v') ∧
            currentSection D (scanLines data) j = s)) ∧
    ((parse D data).p.value? s k = none ↔
      ¬ ∃ i v, (scanLines data)[i]?.bind scalarAssignment? = some (k, v) ∧
        currentSection D (scanLines data) i = s) := by
  obtain ⟨st, hinv, hp⟩ := Inv_parse D data h
  have hval := hinv.2.2.2.2.1 s k
  rw [hp, hval]
  exact ⟨rfl, fun v => lastAssigned_eq_some_iff D _ s k v, lastAssigned_eq_none_iff D _ s k⟩

/-- Instance of C1: in `a = 1`, `[s]`, `a = 2`, `a = '3'` the key `a` of section
`s` holds the value of the last assignment. -/
theorem parse_holds_last_assignment_witness :
    (parse "DEFAULT".toList "a = 1\n[s]\na = 2\na = '3'".toList).err = none ∧
    (parse "DEFAULT".toList "a = 1\n[s]\na = 2\na = '3'".toList).p.value?
        "s".toList "a".toList =
      lastAssigned "DEFAULT".toList (scanLines "a = 1\n[s]\na = 2\na = '3'".toList)
        "s".toList "a".toList ∧
    (parse "DEFAULT".toList "a = 1\n[s]\na = 2\na = '3'".toList).p.value?
        "s".toList "a".toList = some "3".toList :=
  ⟨by decide,
   (parse_holds_last_assignment "DEFAULT".toList "a = 1\n[s]\na = 2\na = '3'".toList
      (by decide) "s".toList "a".toList).1,
   by decide⟩

/-- C9: sections are created lazily.  For every input that parses
successfully, a section name is present in the Document if and only if some
scalar assignment was written while it was the current section; a name that
only occurs in headers without assignments has no entry; and every section of
the Document holds at least one key. -/
theorem sections_created_lazily (D data : Str) (h : (parse D data).err = none) :
    (∀ s, ((parse D data).p.section? s).isSome = true ↔
      ∃ i k v, (scanLines data)[i]?.bind scalarAssignment? = some (k, v) ∧
        currentSection D (scanLines data) i = s) ∧
    (∀ s, (¬ ∃ i k v, (scanLines data)[i]?.bind scalarAssignment? = some (k, v) ∧
        currentSection D (scanLines data) i = s) →
      (parse D data).p.section? s = none ∧ (parse D data).p.sections.get? s = none) ∧
    (∀ s m, (parse D data).p.section? s = some m → ∃ k v, m.get? k = some v) := by
  obtain ⟨st, hinv, hp⟩ := Inv_parse D data h
  obtain ⟨_, _, _, _, hval, hne⟩ := hinv
  rw [hp]
  have hkey : ∀ s m, st.p.section? s = some m → ∃ k v, m.get? k = some v := by
    intro s m hm
    have hm' := hne s m hm
    cases m with
    | nil => exact absurd rfl hm'
    | cons e t =>
      obtain ⟨a, b⟩ := e
      exact ⟨a, b, by simp [Map.get?]⟩
  have hiff : ∀ s, (st.p.section? s).isSome = true ↔
      ∃ i k v, (scanLines data)[i]?.bind scalarAssignment? = some (k, v) ∧
        currentSection D (scanLines data) i = s := by
    intro s
    constructor
    · intro hs
      obtain ⟨m, hm⟩ := Option.isSome_iff_exists.mp hs
      obtain ⟨k, v, hkv⟩ := hkey s m hm
      have hv : st.p.value? s k = some v := by
        simp [parser.value?, hm, hkv]
      rw [hval s k] at hv
      obtain ⟨i, _, hi, _⟩ := (lastAssigned_eq_some_iff D _ s k v).mp hv
      exact ⟨i, k, v, hi⟩
    · rintro ⟨i, k, v, hi⟩
      have hsome : lastAssigned D (scanLines data) s k ≠ none := by
        intro hnone
        exact (lastAssigned_eq_none_iff D _ s k).mp hnone ⟨i, v, hi⟩
      rw [← hval s k] at hsome
      cases hsec : st.p.section? s with
      | none => simp [parser.value?, hsec] at hsome
      | some m => rfl
  refine ⟨hiff, ?_, hkey⟩
  intro s hno
  have hnone : st.p.section? s = none := by
    cases hsec : st.p.section? s with
    | none => rfl
    | some m =>
      have := (hiff s).mp (by simp [hsec])
      exact absurd this hno
  refine ⟨hnone, ?_⟩
  cases hg : st.p.sections.get? s with
  | none => rfl
  | some r => simp [parser.section?, hg] at hnone

/-- Instance of C9: in `[empty]`, `[s]`, `a = 1` the header `[empty]` leaves no
entry and the section `s` is present. -/
theorem sections_created_lazily_witness :
    (parse "DEFAULT".toList "[empty]\n[s]\na = 1".toList).err = none ∧
    (((parse "DEFAULT".toList "[empty]\n[s]\na = 1".toList).p.section? "s".toList).isSome
        = true ↔
      ∃ i k v, (scanLines "[empty]\n[s]\na = 1".toList)[i]?.bind scalarAssignment?
          = some (k, v) ∧
        currentSection "DEFAULT".toList (scanLines "[empty]\n[s]\na = 1".toList) i
          = "s".toList) ∧
    (parse "DEFAULT".toList "[empty]\n[s]\na = 1".toList).p.section? "empty".toList = none :=
  ⟨by decide,
   (sections_created_lazily "DEFAULT".toList "[empty]\n[s]\na = 1".toList (by decide)).1
     "s".toList,
   by decide⟩

/-- C2 fails as stated: a single line of `MaxScanTokenSize` (65536) letters
`a` is an unrecognised line, yet `parse` returns the scanner's
`bufio.ErrTooLong`, not an `errSyntax` for line 1. -/
theorem unrecognised_long_line_not_reported :
    scanLines (List.replicate MaxScanTokenSize 'a') = [List.replicate MaxScanTokenSize 'a'] ∧
    unrecognised (List.replicate MaxScanTokenSize 'a') = true ∧
    (parse "DEFAULT".toList (List.replicate MaxScanTokenSize 'a')).err =
      some error.ErrTooLong ∧
    (parse "DEFAULT".toList (List.replicate MaxScanTokenSize 'a')).err ≠
      some (error.errSyntax 1 (strings.TrimSpace (List.replicate MaxScanTokenSize 'a'))) :=
  long_line_not_reported "DEFAULT".toList MaxScanTokenSize (by decide) (le_refl _)

/-- C2, amended: when every line up to and including the first unrecognised
line fits the scanner's token limit, `parser.parse` fails with an `errSyntax`
whose Line is the 1-based number of that line, counting every line of the
input, and whose Source is that line with surrounding whitespace removed; the
lines after it are not examined, so the result does not depend on them. -/
theorem first_unrecognised_line_is_reported (D : Str) (p : parser) (data : Str)
    (pre post : List Str) (raw : Str)
    (hlines : scanLines data = pre ++ raw :: post)
    (hpre : ∀ x ∈ pre, fitsToken x = true ∧ unrecognised x = false)
    (hfit : fitsToken raw = true) (hbad : unrecognised raw = true) :
    (parser.parse D p data).err =
      some (error.errSyntax (pre.length + 1) (strings.TrimSpace raw)) ∧
    ∀ data' post', scanLines data' = pre ++ raw :: post' →
      parser.parse D p data' = parser.parse D p data := by
  obtain ⟨st, hrun, hnum⟩ := run_ok_of_recognised (parser.parse.init D p) pre hpre
  have key : ∀ d q, scanLines d = pre ++ raw :: q →
      parser.parse D p d =
        { p := st.p, bytes := st.bytes + 1 + (byteLen (dropCR raw) : Int),
          err := some (error.errSyntax (st.lineNum + 1) (strings.TrimSpace raw)) } := by
    intro d q hd
    unfold parser.parse
    rw [hd, loop_append _ st pre (raw :: q) hrun, loop_unrecognised st raw q hfit hbad]
  refine ⟨?_, ?_⟩
  · rw [key data post hlines, hnum]
    simp [parser.parse.init]
  · intro data' post' h'
    rw [key data' post' h', key data post hlines]

/-- Instance of the amended C2: in `a = 1`, blank, `; c`, `t[] = x`, `oops`,
`b = 2` the error is reported for line 5. -/
theorem first_unrecognised_line_is_reported_witness :
    (parser.parse "DEFAULT".toList parser.fresh
        "a = 1\n\n; c\nt[] = x\n  oops \nb = 2".toList).err =
      some (error.errSyntax 5 "oops".toList) :=
  (first_unrecognised_line_is_reported "DEFAULT".toList parser.fresh
    "a = 1\n\n; c\nt[] = x\n  oops \nb = 2".toList
    ["a = 1".toList, [], "; c".toList, "t[] = x".toList] ["b = 2".toList] "  oops ".toList
    (by decide) (by decide) (by decide) (by decide)).1

/-- C6: for every string `s` without a line break and each quote character
`q` among `'` and `"`, `trimWithQuotes` applied to `q + s + q` with any amount
of whitespace around it returns exactly `s`: one surrounding pair of identical
quotes is removed and the inside is kept verbatim.  So `key = "hello"` and
`key = 'hello'` both yield the value `hello`. -/
theorem trimWithQuotes_strips_matching_pair (q : Char) (s ws₁ ws₂ : Str)
    (hq : q = '\'' ∨ q = '"') (hs : '\n' ∉ s)
    (h₁ : ∀ c ∈ ws₁, unicode.IsSpace c = true) (h₂ : ∀ c ∈ ws₂, unicode.IsSpace c = true) :
    trimWithQuotes (ws₁ ++ q :: s ++ [q] ++ ws₂) = s ∧
    (∀ D, (parse D "key = \"hello\"".toList).p.value? D "key".toList = some "hello".toList ∧
      (parse D "key = 'hello'".toList).p.value? D "key".toList = some "hello".toList) := by
  have hqq : isQuote q = true := (isQuote_iff q).mpr hq
  have hsp : unicode.IsSpace q = false := isQuote_not_space q hqq
  refine ⟨?_, fun D => ⟨?_, ?_⟩⟩
  · unfold trimWithQuotes
    simp only [TrimSpace_pad ws₁ ws₂ s q q h₁ h₂ hsp hsp, quotesRegex_pair q q s hqq hqq hs,
      if_true]
  · exact parse_single_assignment D _ "key = \"hello\"".toList _ _ (by decide) (by decide)
      (by decide)
  · exact parse_single_assignment D _ "key = 'hello'".toList _ _ (by decide) (by decide)
      (by decide)

/-- Instance of C6: the inside of the pair, here with inner whitespace and an
inner quote character, is kept verbatim. -/
theorem trimWithQuotes_strips_matching_pair_witness :
    trimWithQuotes (" \t".toList ++ '"' :: " it's ".toList ++ ['"'] ++ "  ".toList) =
      " it's ".toList :=
  (trimWithQuotes_strips_matching_pair '"' " it's ".toList " \t".toList "  ".toList
    (Or.inr rfl) (by decide) (by decide) (by decide)).1

/-- C7: for every value whose whitespace-trimmed form is not `q + s + q` for
a single quote character `q` among `'` and `"`, `trimWithQuotes` returns the
whitespace-trimmed value unchanged, quote characters included.  So
`key = "hello'` yields the value `"hello'`. -/
theorem trimWithQuotes_keeps_unmatched (v : Str)
    (h : ¬ ∃ q s, (q = '\'' ∨ q = '"') ∧ strings.TrimSpace v = q :: s ++ [q]) :
    trimWithQuotes v = strings.TrimSpace v ∧
    (∀ D, (parse D "key = \"hello'".toList).p.value? D "key".toList =
      some "\"hello'".toList) := by
  refine ⟨?_, fun D => ?_⟩
  · unfold trimWithQuotes
    simp only []
    cases hr : quotesRegex (strings.TrimSpace v) with
    | none => rfl
    | some g =>
      obtain ⟨g1, g2, g3⟩ := g
      obtain ⟨heq, hg1, _, _⟩ := quotesRegex_some hr
      by_cases h13 : g1 = g3
      · subst h13
        exact absurd ⟨g1, g2, (isQuote_iff g1).mp hg1, heq⟩ h
      · simp [h13]
  · exact parse_single_assignment D _ "key = \"hello'".toList _ _ (by decide) (by decide)
      (by decide)

/-- Instance of C7: a value that opens with `"` and closes with `'` keeps both
quote characters. -/
theorem trimWithQuotes_keeps_unmatched_witness :
    trimWithQuotes " \"hello' ".toList = strings.TrimSpace " \"hello' ".toList :=
  (trimWithQuotes_keeps_unmatched " \"hello' ".toList (by
    have ht : strings.TrimSpace " \"hello' ".toList = "\"hello'".toList := by decide
    rw [ht]
    rintro ⟨q, s, _, heq⟩
    have h1 := congrArg List.head? heq
    have h2 := congrArg List.getLast? heq
    simp only [List.cons_append, List.head?_cons] at h1
    rw [show q :: s ++ [q] = (q :: s) ++ [q] from rfl, List.getLast?_concat] at h2
    have e1 : q = '"' := by
      have : "\"hello'".toList.head? = some '"' := by decide
      rw [this] at h1
      exact (Option.some.inj h1).symm
    have e2 : q = '\'' := by
      have : "\"hello'".toList.getLast? = some '\'' := by decide
      rw [this] at h2
      exact (Option.some.inj h2).symm
    rw [e1] at e2
    exact absurd e2 (by decide))).1

/-- C10 fails as stated: with IgnoreCase on, storing the key `K` in the existing
section `s` does not map `K` to the value; the pair is stored under the
lower-cased key `k`. -/
theorem store_folds_key_counterexample :
    (parser.parse "DEFAULT".toList { parser.fresh with IgnoreCase := true }
        "[s]\na = 1".toList).p.section? "s".toList = some [("a".toList, "1".toList)] ∧
    ((parser.parse "DEFAULT".toList { parser.fresh with IgnoreCase := true }
        "[s]\na = 1".toList).p.store "s".toList "K".toList "v".toList).value?
        "s".toList "K".toList = none ∧
    ((parser.parse "DEFAULT".toList { parser.fresh with IgnoreCase := true }
        "[s]\na = 1".toList).p.store "s".toList "K".toList "v".toList).value?
        "s".toList "k".toList = some "v".toList := by
  decide

/-- C10, amended: on a parser in which every section name is bound to a map
object of its own, and for a `name` that the case folding leaves unchanged
(always so with IgnoreCase off), `addToSection(name, key, val)` followed by the
write-back gives, for the key lower-cased when IgnoreCase is on: when the
section exists, the same map object with the key mapped to `val` and every
other key unchanged; when it does not, a new section holding exactly that
pair; in both cases every other section is unchanged. -/
theorem store_extends_section (p : parser) (name key val : Str)
    (hname : p.IgnoreCase = true → strings.ToLower name = name) (hwf : p.WF) :
    (∀ m, p.section? name = some m →
      (p.store name key val).sections.get? name = p.sections.get? name ∧
      ∃ m', (p.store name key val).section? name = some m' ∧
        m'.get? (if p.IgnoreCase = true then strings.ToLower key else key) = some val ∧
        ∀ k, k ≠ (if p.IgnoreCase = true then strings.ToLower key else key) →
          m'.get? k = m.get? k) ∧
    (p.section? name = none →
      ∃ m', (p.store name key val).section? name = some m' ∧
        ∀ k, m'.get? k =
          if k = (if p.IgnoreCase = true then strings.ToLower key else key) then some val
          else none) ∧
    (∀ other, other ≠ name → (p.store name key val).section? other = p.section? other) := by
  have hs : (if p.IgnoreCase = true then strings.ToLower name else name) = name := by
    by_cases h : p.IgnoreCase = true
    · simp [h, hname h]
    · simp [h]
  refine ⟨?_, ?_, ?_⟩
  · intro m hm
    refine ⟨?_, m.set (if p.IgnoreCase = true then strings.ToLower key else key) val,
      ?_, ?_, ?_⟩
    · cases hget : p.sections.get? name with
      | none => simp [parser.section?, hget] at hm
      | some r =>
        simp [parser.store, parser.addToSection, hs, hget, Map.get?_set]
    · rw [section?_store_fold p name key val name hwf hs, hm]
      simp
    · simp [Map.get?_set]
    · intro k hk
      simp [Map.get?_set, hk]
  · intro hnone
    refine ⟨[(if p.IgnoreCase = true then strings.ToLower key else key, val)], ?_, ?_⟩
    · rw [section?_store_fold p name key val name hwf hs, hnone]
      simp [Map.set]
    · intro k
      by_cases hk : k = (if p.IgnoreCase = true then strings.ToLower key else key)
      · rw [if_pos hk, hk]; simp [Map.get?]
      · have hk' : ¬ (if p.IgnoreCase = true then strings.ToLower key else key) = k :=
          fun e => hk e.symm
        rw [if_neg hk]
        simp [Map.get?, hk']
  · intro other hother
    rw [section?_store_fold p name key val other hwf hs]
    simp [hother]

/-- Instance of the amended C10 with IgnoreCase on: storing the key `K` into
the existing section `s` extends that section by the key `k`. -/
theorem store_extends_section_witness :
    (parser.folding.store
        "s".toList "K".toList "v".toList).sections.get? "s".toList = some 0 ∧
    ∃ m', (parser.folding.store
        "s".toList "K".toList "v".toList).section? "s".toList = some m' ∧
      m'.get? "k".toList = some "v".toList ∧
      ∀ k, k ≠ "k".toList → m'.get? k = Map.get? [("a".toList, "1".toList)] k :=
  (store_extends_section
    parser.folding
    "s".toList "K".toList "v".toList (fun _ => by decide)
    folding_WF).1
    [("a".toList, "1".toList)] (by decide)

/-- C5: every line handled as a scalar assignment is split at its first `=`:
the key handed to the store is the text before that `=` with surrounding
whitespace trimmed (quote characters kept), the value is `trimWithQuotes` of
everything after that `=`, and in the states `parse` reaches (IgnoreCase off)
the Document then maps the current section and that key to that value.  So a
value may contain `=`, and a quoted key keeps its quotes. -/
theorem scalar_assignment_splits_at_first_eq (st : LoopState) (text a b : Str)
    (hsplit : strings.TrimSpace text = a ++ '=' :: b) (ha : '=' ∉ a)
    (hasg : (scalarAssignment? text).isSome = true) :
    scalarAssignment? text = some (strings.TrimSpace a, trimWithQuotes b) ∧
    parser.parse.body st text =
      .ok { parser.parse.tick st text with
            p := st.p.store st.«section» (strings.TrimSpace a) (trimWithQuotes b) } ∧
    (∀ D pre, parser.parse.run (parser.parse.init D parser.fresh) pre = .ok st →
      (st.p.store st.«section» (strings.TrimSpace a) (trimWithQuotes b)).value?
        st.«section» (strings.TrimSpace a) = some (trimWithQuotes b)) ∧
    (∀ D, (parse D "k = a=b".toList).p.value? D "k".toList = some "a=b".toList ∧
      (parse D "\"k\" = v".toList).p.value? D "\"k\"".toList = some "v".toList) := by
  obtain ⟨kv, hkv⟩ := Option.isSome_iff_exists.mp hasg
  obtain ⟨k, v⟩ := kv
  obtain ⟨_, hc⟩ := scalarAssignment?_recognised text k v hkv
  obtain ⟨k₀, v₀, hreg, hk, hv⟩ := classify_assign_inv text k v hc
  rw [hsplit, assignRegex_split a b ha] at hreg
  have hab : k₀ = a ∧ v₀ = b := by
    by_cases hcond : a ≠ [] ∧ '\n' ∉ b
    · rw [if_pos hcond] at hreg
      simp only [Option.some.injEq, Prod.mk.injEq] at hreg
      exact ⟨hreg.1.symm, hreg.2.symm⟩
    · simp [hcond] at hreg
  obtain ⟨rfl, rfl⟩ := hab
  subst hk hv
  refine ⟨hkv, ?_, ?_, fun D => ⟨?_, ?_⟩⟩
  · rw [body_eq_classify, hc]
  · intro D pre hrun
    have hinv := Inv_run D [] pre _ st (Inv_init D parser.fresh rfl fresh_WF rfl) hrun
    rw [value?_store st.p _ _ _ _ _ hinv.1 hinv.2.1]
    simp
  · exact parse_single_assignment D _ "k = a=b".toList _ _ (by decide) (by decide) (by decide)
  · exact parse_single_assignment D _ "\"k\" = v".toList _ _ (by decide) (by decide)
      (by decide)

/-- Instance of C5: the line ` 'k' = x = "y" ` is split at its first `=`. -/
theorem scalar_assignment_splits_at_first_eq_witness :
    scalarAssignment? " 'k' = x = \"y\" ".toList =
      some (strings.TrimSpace "'k' ".toList, trimWithQuotes " x = \"y\"".toList) :=
  (scalar_assignment_splits_at_first_eq (parser.parse.init "DEFAULT".toList parser.fresh)
    " 'k' = x = \"y\" ".toList "'k' ".toList " x = \"y\"".toList
    (by decide) (by decide) (by decide)).1

theorem body_section_no_header (st st' : LoopState) (raw : Str) (hh : header? raw = none)
    (h : parser.parse.body st (dropCR raw) = .ok st') : st'.«section» = st.«section» := by
  rw [body_eq_classify, classify_dropCR] at h
  unfold header? at hh
  cases hc : classify raw with
  | skipped => rw [hc] at h; simp only [Except.ok.injEq] at h; subst h; rfl
  | array => rw [hc] at h; simp only [Except.ok.injEq] at h; subst h; rfl
  | assign key val => rw [hc] at h; simp only [Except.ok.injEq] at h; subst h; rfl
  | header nm => rw [hc] at hh; simp at hh
  | invalid src => rw [hc] at h; simp at h

theorem run_section_no_header (st st' : LoopState) (mid : List Str)
    (hmid : ∀ x ∈ mid, header? x = none)
    (h : parser.parse.run st mid = .ok st') : st'.«section» = st.«section» := by
  induction mid generalizing st with
  | nil =>
    simp only [parser.parse.run, Except.ok.injEq] at h
    subst h; rfl
  | cons raw rest ih =>
    simp only [parser.parse.run] at h
    by_cases hlen : MaxScanTokenSize ≤ byteLen raw
    · simp [hlen] at h
    · simp only [hlen, if_false] at h
      cases hb : parser.parse.body st (dropCR raw) with
      | ok st₁ =>
        rw [hb] at h
        rw [ih st₁ (fun x hx => hmid x (List.mem_cons_of_mem _ hx)) h]
        exact body_section_no_header st st₁ raw (hmid raw (List.mem_cons_self _ _)) hb
      | error e => rw [hb] at h; simp at h

theorem long_header_line (D : Str) (n : Nat) (hn : MaxScanTokenSize ≤ n) (rest : Str) :
    ('\n' ∉ List.replicate n 'a' ∧ '=' ∉ List.replicate n 'a') ∧
    strings.TrimSpace ('[' :: List.replicate n 'a' ++ [']']) =
      '[' :: List.replicate n 'a' ++ [']'] ∧
    (parse D (('[' :: List.replicate n 'a' ++ [']']) ++ '\n' :: rest)).err =
      some error.ErrTooLong ∧
    (parse D (('[' :: List.replicate n 'a' ++ [']']) ++ '\n' :: rest)).p = parser.fresh := by
  have hnl : '\n' ∉ List.replicate n 'a' :=
    fun h => absurd (List.eq_of_mem_replicate h) (by decide)
  have heq : '=' ∉ List.replicate n 'a' :=
    fun h => absurd (List.eq_of_mem_replicate h) (by decide)
  have hline : '\n' ∉ ('[' :: List.replicate n 'a' ++ [']']) := by
    intro hmem
    rcases List.mem_cons.mp hmem with h | h
    · exact absurd h (by decide)
    · rcases List.mem_append.mp h with h | h
      · exact hnl h
      · exact absurd (List.mem_singleton.mp h) (by decide)
  have hlong : fitsToken ('[' :: List.replicate n 'a' ++ [']']) = false := by
    unfold fitsToken
    have h1 : byteLen ('[' :: List.replicate n 'a' ++ [']']) = 1 + (n + 1) := by
      have h0 := byteLen_append (List.replicate n 'a') [']']
      rw [byteLen_replicate_a n] at h0
      have h2 : byteLen [']'] = 1 := by decide
      rw [h2] at h0
      have hsz : Char.utf8Size '[' = 1 := by decide
      unfold byteLen at h0 ⊢
      simp only [List.cons_append, List.map_cons, List.sum_cons, h0, hsz]
    rw [h1]
    exact decide_eq_false (by omega)
  have hs := scanLines_cons_line _ rest hline
  have hl := loop_too_long (parser.parse.init D parser.fresh) _ (scanLines rest) hlong
  refine ⟨⟨hnl, heq⟩, ?_, ?_, ?_⟩
  · have h := TrimSpace_pad [] [] (List.replicate n 'a') '[' ']'
      (fun c hc => absurd hc (List.not_mem_nil c)) (fun c hc => absurd hc (List.not_mem_nil c))
      (by decide) (by decide)
    simpa using h
  · unfold parse parser.parse
    rw [hs]
    exact hl.1
  · unfold parse parser.parse
    rw [hs]
    exact hl.2

/-- C3 fails as stated.  The line `[a=b]` is `[` + name + `]` for the name
`a=b`, but it is handled as a scalar assignment of `b]` to the key `[a`: it
writes into the Document and leaves the current section as it was.  In the
input `zzz`, `[s]`, `a = 1` the scan stops with a syntax error at line 1, before
the header `[s]`: the assignment following the header is not stored.  A header
line that exceeds the scanner's token limit stops the scan with
`bufio.ErrTooLong`. -/
theorem bracket_line_with_eq_is_assignment :
    (strings.TrimSpace "[a=b]".toList = '[' :: "a=b".toList ++ [']'] ∧
      header? "[a=b]".toList = none ∧
      (parse "DEFAULT".toList "[a=b]".toList).p.value? "DEFAULT".toList "[a".toList =
        some "b]".toList ∧
      (parse "DEFAULT".toList "[a=b]\nk = v".toList).p.value? "a=b".toList "k".toList = none ∧
      (parse "DEFAULT".toList "[a=b]\nk = v".toList).p.value? "DEFAULT".toList "k".toList =
        some "v".toList) ∧
    (scanLines "zzz\n[s]\na = 1".toList = ["zzz".toList, "[s]".toList, "a = 1".toList] ∧
      strings.TrimSpace "[s]".toList = '[' :: "s".toList ++ [']'] ∧
      scalarAssignment? "a = 1".toList = some ("a".toList, "1".toList) ∧
      (parse "DEFAULT".toList "zzz\n[s]\na = 1".toList).err =
        some (error.errSyntax 1 "zzz".toList) ∧
      (parse "DEFAULT".toList "zzz\n[s]\na = 1".toList).p.section? "s".toList = none ∧
      (parse "DEFAULT".toList "zzz\n[s]\na = 1".toList).p.value? "s".toList "a".toList =
        none) ∧
    (('\n' ∉ List.replicate MaxScanTokenSize 'a' ∧ '=' ∉ List.replicate MaxScanTokenSize 'a') ∧
      strings.TrimSpace ('[' :: List.replicate MaxScanTokenSize 'a' ++ [']']) =
        '[' :: List.replicate MaxScanTokenSize 'a' ++ [']'] ∧
      (parse "DEFAULT".toList
        (('[' :: List.replicate MaxScanTokenSize 'a' ++ [']']) ++ '\n' :: "k = v".toList)).err =
          some error.ErrTooLong ∧
      (parse "DEFAULT".toList
        (('[' :: List.replicate MaxScanTokenSize 'a' ++ [']']) ++ '\n' :: "k = v".toList)).p =
          parser.fresh) := by
  exact ⟨by decide, by decide,
    long_header_line "DEFAULT".toList MaxScanTokenSize (le_refl _) "k = v".toList⟩

/-- C3, amended: for every name without a line break and without `=`, a line
that after trimming is `[` + name + `]` is a section header, and the loop body
on it raises no error, leaves the parser (the Document) untouched and sets the
current section to the trimmed name.  When the scan reaches such a line (every
line before it fits the token limit and is not unrecognised, and the line
itself fits), the parse up to and including it raises no error, writes nothing
into the Document and makes the trimmed name the current section.  A scalar
assignment following it with no header in between that the scan reaches (no
other line before it is unrecognised or exceeds the token limit, and the line
itself fits) is made with that section current and is stored under that
section name when it is processed, and the Document returned at the end still
has an entry for its key under that section name.  For every parser, whatever
its flags, the statement executed for that assignment is the store of its pair
under the trimmed name. -/
theorem header_sets_current_section (name : Str) (hnl : '\n' ∉ name) (heq : '=' ∉ name) :
    (∀ st text, strings.TrimSpace text = '[' :: name ++ [']'] →
      header? text = some (strings.TrimSpace name) ∧
      parser.parse.body st text =
        .ok { parser.parse.tick st text with «section» := strings.TrimSpace name }) ∧
    (∀ D p data pre hdr post,
      strings.TrimSpace hdr = '[' :: name ++ [']'] →
      scanLines data = pre ++ hdr :: post →
      (∀ x ∈ pre, fitsToken x = true ∧ unrecognised x = false) →
      fitsToken hdr = true →
      ∃ st, parser.parse.run (parser.parse.init D p) pre = .ok st ∧
        parser.parse.run (parser.parse.init D p) (pre ++ [hdr]) =
          .ok { parser.parse.tick st (dropCR hdr) with «section» := strings.TrimSpace name } ∧
        (parser.parse.loop (parser.parse.init D p) (pre ++ [hdr])).err = none ∧
        (parser.parse.loop (parser.parse.init D p) (pre ++ [hdr])).p =
          (parser.parse.loop (parser.parse.init D p) pre).p ∧
        currentSection D (scanLines data) (pre.length + 1) = strings.TrimSpace name) ∧
    (∀ D data pre hdr mid asg post k v,
      strings.TrimSpace hdr = '[' :: name ++ [']'] →
      scanLines data = pre ++ hdr :: (mid ++ asg :: post) →
      (∀ x ∈ mid, header? x = none) →
      scalarAssignment? asg = some (k, v) →
      (∀ x ∈ pre ++ mid, fitsToken x = true ∧ unrecognised x = false) →
      fitsToken hdr = true →
      fitsToken asg = true →
      currentSection D (scanLines data) (pre.length + 1 + mid.length) =
        strings.TrimSpace name ∧
      (parser.parse.loop (parser.parse.init D parser.fresh)
        (pre ++ hdr :: (mid ++ [asg]))).p.value? (strings.TrimSpace name) k = some v ∧
      ((parse D data).p.value? (strings.TrimSpace name) k).isSome = true) ∧
    (∀ D p pre hdr mid asg k v,
      strings.TrimSpace hdr = '[' :: name ++ [']'] →
      (∀ x ∈ mid, header? x = none) →
      scalarAssignment? asg = some (k, v) →
      (∀ x ∈ pre ++ mid, fitsToken x = true ∧ unrecognised x = false) →
      fitsToken hdr = true →
      fitsToken asg = true →
      ∃ st, parser.parse.run (parser.parse.init D p) (pre ++ hdr :: mid) = .ok st ∧
        st.«section» = strings.TrimSpace name ∧
        parser.parse.run (parser.parse.init D p) (pre ++ hdr :: (mid ++ [asg])) =
          .ok { parser.parse.tick st (dropCR asg) with
                p := st.p.store (strings.TrimSpace name) k v }) := by
  have hbody : ∀ (st : LoopState) (text : Str),
      strings.TrimSpace text = '[' :: name ++ [']'] →
      header? text = some (strings.TrimSpace name) ∧
      parser.parse.body st text =
        .ok { parser.parse.tick st text with «section» := strings.TrimSpace name } := by
    intro st text hshape
    have hc := classify_bracket text name hshape hnl heq
    refine ⟨by simp [header?, hc], ?_⟩
    rw [body_eq_classify, hc]
  have hrecog : ∀ hdr : Str, strings.TrimSpace hdr = '[' :: name ++ [']'] →
      unrecognised hdr = false := by
    intro hdr hshape
    have hc := classify_bracket hdr name hshape hnl heq
    simp [unrecognised, hc]
  refine ⟨hbody, ?_, ?_, ?_⟩
  · intro D p data pre hdr post hshape hlines hreach hfit
    obtain ⟨st, hrun, _⟩ := run_ok_of_recognised (parser.parse.init D p) pre hreach
    have hshape' : strings.TrimSpace (dropCR hdr) = '[' :: name ++ [']'] := by
      rw [TrimSpace_dropCR]; exact hshape
    have hb := (hbody st (dropCR hdr) hshape').2
    have hrun' : parser.parse.run (parser.parse.init D p) (pre ++ [hdr]) =
        .ok { parser.parse.tick st (dropCR hdr) with «section» := strings.TrimSpace name } := by
      rw [run_append, hrun]
      simp [parser.parse.run, (fitsToken_iff hdr).mp hfit, hb]
    have hl := loop_of_run_ok _ _ _ hrun'
    have hl0 := loop_of_run_ok _ _ _ hrun
    refine ⟨st, hrun, hrun', hl.2, ?_, ?_⟩
    · rw [hl.1, hl0.1]
      rfl
    · have hsplit : scanLines data = (pre ++ [hdr]) ++ post := by rw [hlines]; simp
      have hlen : (pre ++ [hdr]).length = pre.length + 1 := by simp
      rw [hsplit, ← hlen, currentSection_append D _ post _ (le_refl _), currentSection_snoc,
        (hbody st hdr hshape).1]
      rfl
  · intro D data pre hdr mid asg post k v hshape hlines hmid hasg hreach hfit hfita
    have hh : header? hdr = some (strings.TrimSpace name) :=
      (hbody (parser.parse.init D parser.fresh) hdr hshape).1
    have hl : scanLines data = (((pre ++ [hdr]) ++ mid) ++ [asg]) ++ post := by
      rw [hlines]; simp
    have hlen : ((pre ++ [hdr]) ++ mid).length = pre.length + 1 + mid.length := by
      simp only [List.length_append, List.length_singleton]
    have hcur : currentSection D ((pre ++ [hdr]) ++ mid) ((pre ++ [hdr]) ++ mid).length =
        strings.TrimSpace name := by
      rw [currentSection_no_header D (pre ++ [hdr]) mid hmid, currentSection_snoc, hh]
      rfl
    have hall : ∀ x ∈ ((pre ++ [hdr]) ++ mid) ++ [asg],
        fitsToken x = true ∧ unrecognised x = false := by
      intro x hx
      rcases List.mem_append.mp hx with h | h
      · rcases List.mem_append.mp h with h | h
        · rcases List.mem_append.mp h with h | h
          · exact hreach x (List.mem_append_left _ h)
          · rw [List.mem_singleton.mp h]
            exact ⟨hfit, hrecog hdr hshape⟩
        · exact hreach x (List.mem_append_right _ h)
      · rw [List.mem_singleton.mp h]
        exact ⟨hfita, (scalarAssignment?_recognised asg k v hasg).1⟩
    obtain ⟨st, hrun, _⟩ := run_ok_of_recognised (parser.parse.init D parser.fresh)
      (((pre ++ [hdr]) ++ mid) ++ [asg]) hall
    have hinv := Inv_run D [] (((pre ++ [hdr]) ++ mid) ++ [asg]) _ st
      (Inv_init D parser.fresh rfl fresh_WF rfl) hrun
    simp only [List.nil_append] at hinv
    have hval : st.p.value? (strings.TrimSpace name) k = some v := by
      rw [hinv.2.2.2.2.1, lastAssigned_snoc, hasg]
      simp only []
      rw [if_pos ⟨trivial, hcur⟩]
    have hassoc : pre ++ hdr :: (mid ++ [asg]) = ((pre ++ [hdr]) ++ mid) ++ [asg] := by simp
    refine ⟨?_, ?_, ?_⟩
    · rw [hl, ← hlen, List.append_assoc ((pre ++ [hdr]) ++ mid) [asg] post,
        currentSection_append D _ ([asg] ++ post) _ (le_refl _)]
      exact hcur
    · rw [hassoc, (loop_of_run_ok _ _ _ hrun).1]
      exact hval
    · unfold parse parser.parse
      rw [hl, loop_append _ st _ post hrun]
      exact loop_keeps st post hinv.1 hinv.2.1 (strings.TrimSpace name) k (by simp [hval])
  · intro D p pre hdr mid asg k v hshape hmid hasg hreach hfit hfita
    obtain ⟨st₀, hrun₀, _⟩ := run_ok_of_recognised (parser.parse.init D p) pre
      (fun x hx => hreach x (List.mem_append_left _ hx))
    have hshape' : strings.TrimSpace (dropCR hdr) = '[' :: name ++ [']'] := by
      rw [TrimSpace_dropCR]; exact hshape
    have hb := (hbody st₀ (dropCR hdr) hshape').2
    have hrun₁ : parser.parse.run (parser.parse.init D p) (pre ++ [hdr]) =
        .ok { parser.parse.tick st₀ (dropCR hdr) with «section» := strings.TrimSpace name } := by
      rw [run_append, hrun₀]
      simp [parser.parse.run, (fitsToken_iff hdr).mp hfit, hb]
    obtain ⟨st, hrun₂, _⟩ := run_ok_of_recognised
      { parser.parse.tick st₀ (dropCR hdr) with «section» := strings.TrimSpace name } mid
      (fun x hx => hreach x (List.mem_append_right _ hx))
    have hsec : st.«section» = strings.TrimSpace name :=
      run_section_no_header _ st mid hmid hrun₂
    have hrun : parser.parse.run (parser.parse.init D p) (pre ++ hdr :: mid) = .ok st := by
      have e : pre ++ hdr :: mid = (pre ++ [hdr]) ++ mid := by simp
      rw [e, run_append, hrun₁]
      exact hrun₂
    have hba : parser.parse.body st (dropCR asg) =
        .ok { parser.parse.tick st (dropCR asg) with
              p := st.p.store (strings.TrimSpace name) k v } := by
      rw [body_eq_classify, classify_dropCR, (scalarAssignment?_recognised asg k v hasg).2, hsec]
    refine ⟨st, hrun, hsec, ?_⟩
    have e : pre ++ hdr :: (mid ++ [asg]) = (pre ++ hdr :: mid) ++ [asg] := by simp
    rw [e, run_append, hrun]
    simp [parser.parse.run, (fitsToken_iff asg).mp hfita, hba]

/-- Instance of the amended C3: in `a = 1`, ` [ web ] `, `; c`, `port = 80`,
`x = y` the assignment `port = 80` is stored under the section `web`. -/
theorem header_sets_current_section_witness :
    (parser.parse.loop (parser.parse.init "DEFAULT".toList parser.fresh)
        (["a = 1".toList] ++ " [ web ] ".toList ::
          (["; c".toList] ++ ["port = 80".toList]))).p.value?
      (strings.TrimSpace " web ".toList) "port".toList = some "80".toList ∧
    ((parse "DEFAULT".toList "a = 1\n [ web ] \n; c\nport = 80\nx = y".toList).p.value?
      (strings.TrimSpace " web ".toList) "port".toList).isSome = true :=
  ((header_sets_current_section " web ".toList (by decide) (by decide)).2.2.1
    "DEFAULT".toList "a = 1\n [ web ] \n; c\nport = 80\nx = y".toList
    ["a = 1".toList] " [ web ] ".toList ["; c".toList] "port = 80".toList ["x = y".toList]
    "port".toList "80".toList (by decide) (by decide) (by decide) (by decide)
    (by decide) (by decide) (by decide)).2

/-- C8 fails as stated: in the input `zzz`, `a = 1`, `[s]` the scalar
assignment `a = 1` appears before the first section header, but the parse
stops at line 1 and the Document holds no entry under the default section. -/
theorem assignment_after_error_not_stored :
    scanLines "zzz\na = 1\n[s]".toList = ["zzz".toList, "a = 1".toList, "[s]".toList] ∧
    header? "zzz".toList = none ∧
    scalarAssignment? "a = 1".toList = some ("a".toList, "1".toList) ∧
    header? "[s]".toList = some "s".toList ∧
    (parse "DEFAULT".toList "zzz\na = 1\n[s]".toList).err =
      some (error.errSyntax 1 "zzz".toList) ∧
    (parse "DEFAULT".toList "zzz\na = 1\n[s]".toList).p.value?
      "DEFAULT".toList "a".toList = none ∧
    (parse "DEFAULT".toList "zzz\na = 1\n[s]".toList).p.section? "DEFAULT".toList = none := by
  decide

/-- C8, amended: for every input, parsing starts with the current section
equal to `DefSection`, which stays current until the first header; every
scalar assignment before the first section header that the scan reaches (no
earlier line is unrecognised or exceeds the token limit, and the line itself
fits) is stored under `DefSection` when it is processed, and the Document
returned at the end still has an entry for its key under `DefSection`. -/
theorem assignments_before_first_header (D data : Str) (pre post : List Str)
    (asg k v : Str)
    (hlines : scanLines data = pre ++ asg :: post)
    (hnohdr : ∀ x ∈ pre, header? x = none)
    (hasg : scalarAssignment? asg = some (k, v))
    (hreach : ∀ x ∈ pre, fitsToken x = true ∧ unrecognised x = false)
    (hfit : fitsToken asg = true) :
    (parser.parse.init D parser.fresh).«section» = D ∧
    currentSection D (scanLines data) pre.length = D ∧
    (parser.parse.loop (parser.parse.init D parser.fresh) (pre ++ [asg])).p.value? D k
      = some v ∧
    ((parse D data).p.value? D k).isSome = true := by
  have hcur : currentSection D pre pre.length = D := by
    have := currentSection_no_header D [] pre hnohdr
    simpa [currentSection] using this
  have hall : ∀ x ∈ pre ++ [asg], fitsToken x = true ∧ unrecognised x = false := by
    intro x hx
    rcases List.mem_append.mp hx with h | h
    · exact hreach x h
    · rw [List.mem_singleton.mp h]
      exact ⟨hfit, (scalarAssignment?_recognised asg k v hasg).1⟩
  obtain ⟨st, hrun, _⟩ := run_ok_of_recognised (parser.parse.init D parser.fresh)
    (pre ++ [asg]) hall
  have hinv := Inv_run D [] (pre ++ [asg]) _ st (Inv_init D parser.fresh rfl fresh_WF rfl) hrun
  simp only [List.nil_append] at hinv
  have hval : st.p.value? D k = some v := by
    rw [hinv.2.2.2.2.1, lastAssigned_snoc, hasg]
    simp only []
    rw [if_pos ⟨trivial, hcur⟩]
  refine ⟨rfl, ?_, ?_, ?_⟩
  · rw [hlines, currentSection_append D pre (asg :: post) pre.length (le_refl _)]
    exact hcur
  · rw [(loop_of_run_ok _ _ _ hrun).1]
    exact hval
  · have hsplit : scanLines data = (pre ++ [asg]) ++ post := by rw [hlines]; simp
    unfold parse parser.parse
    rw [hsplit, loop_append _ st (pre ++ [asg]) post hrun]
    exact loop_keeps st post hinv.1 hinv.2.1 D k (by simp [hval])

/-- Instance of the amended C8: in `; c`, `a = 1`, `[s]`, `b = 2` the
assignment `a = 1` is stored under the default section. -/
theorem assignments_before_first_header_witness :
    (parser.parse.loop (parser.parse.init "DEFAULT".toList parser.fresh)
        (["; c".toList] ++ ["a = 1".toList])).p.value? "DEFAULT".toList "a".toList
      = some "1".toList ∧
    ((parse "DEFAULT".toList "; c\na = 1\n[s]\nb = 2".toList).p.value?
        "DEFAULT".toList "a".toList).isSome = true :=
  (assignments_before_first_header "DEFAULT".toList "; c\na = 1\n[s]\nb = 2".toList
    ["; c".toList] ["[s]".toList, "b = 2".toList] "a = 1".toList "a".toList "1".toList
    (by decide) (by decide) (by decide) (by decide) (by decide)).2.2

/-- C4 fails as stated.  The key `a]` is non-empty and has no `=`, but the line
`a][] = 1` is stored as a scalar assignment to the key `a][]`; so is the line
` [] = 1` of the blank key, under the key `[]`; and an array line that
exceeds the scanner's token limit stops the parse with `bufio.ErrTooLong`, so
that the assignment `b = 1` after it is lost, while it is stored when the line
is deleted. -/
theorem array_syntax_not_always_discarded :
    ((parse "DEFAULT".toList "a][] = 1".toList).p.value? "DEFAULT".toList "a][]".toList =
        some "1".toList ∧
      (parse "DEFAULT".toList []).p.value? "DEFAULT".toList "a][]".toList = none) ∧
    (parse "DEFAULT".toList " [] = 1".toList).p.value? "DEFAULT".toList "[]".toList =
      some "1".toList ∧
    ((parse "DEFAULT".toList
        ((['k', '[', ']', ' ', '=', ' '] ++ List.replicate MaxScanTokenSize 'a') ++
          '\n' :: "b = 1".toList)).err = some error.ErrTooLong ∧
      (parse "DEFAULT".toList
        ((['k', '[', ']', ' ', '=', ' '] ++ List.replicate MaxScanTokenSize 'a') ++
          '\n' :: "b = 1".toList)).p.value? "DEFAULT".toList "b".toList = none ∧
      (parse "DEFAULT".toList "b = 1".toList).p.value? "DEFAULT".toList "b".toList =
        some "1".toList) := by
  refine ⟨by decide, by decide, ?_, ?_, by decide⟩
  · exact (long_array_line_stops "DEFAULT".toList MaxScanTokenSize (le_refl _)
      "b = 1".toList).1
  · rw [(long_array_line_stops "DEFAULT".toList MaxScanTokenSize (le_refl _)
      "b = 1".toList).2]
    rfl

/-- C4, amended: for every key that has a non-whitespace character and none
of `=`, `[`, `]`, and every value `v`, a line `key[] = v` that fits the
scanner's token limit is discarded: it is neither a scalar assignment nor an
error, and parsing an input that contains the line yields the same parser
state (the same Document) as parsing the input with that line deleted, and
succeeds exactly when the latter does. -/
theorem array_line_is_discarded (D : Str) (p : parser) (key v data data' : Str)
    (pre post : List Str)
    (hkey : ∀ c ∈ key, c ≠ '=' ∧ c ≠ '[' ∧ c ≠ ']')
    (hns : ∃ c ∈ key, unicode.IsSpace c = false)
    (hfit : fitsToken (key ++ '[' :: ']' :: ' ' :: '=' :: ' ' :: v) = true)
    (hlines : scanLines data = pre ++ (key ++ '[' :: ']' :: ' ' :: '=' :: ' ' :: v) :: post)
    (hlines' : scanLines data' = pre ++ post) :
    scalarAssignment? (key ++ '[' :: ']' :: ' ' :: '=' :: ' ' :: v) = none ∧
    unrecognised (key ++ '[' :: ']' :: ' ' :: '=' :: ' ' :: v) = false ∧
    (parser.parse D p data).p = (parser.parse D p data').p ∧
    ((parser.parse D p data).err = none ↔ (parser.parse D p data').err = none) := by
  have hnl : '\n' ∉ v := by
    have hline := scanLines_no_newline data (key ++ '[' :: ']' :: ' ' :: '=' :: ' ' :: v)
      (by rw [hlines]; simp)
    intro hmem
    exact hline (by simp [hmem])
  have hdisc := classify_array_line key v hkey hns hnl
  refine ⟨?_, ?_, ?_⟩
  · unfold scalarAssignment?
    rcases hdisc with h | h <;> rw [h]
  · unfold unrecognised
    rcases hdisc with h | h <;> rw [h]
  · unfold parser.parse
    rw [hlines, hlines']
    exact loop_delete_line _ _ pre post _ rfl rfl hfit hdisc

/-- Instance of the amended C4: deleting `tags[] = a` from `[s]`, `tags[] = a`,
`b = 1` does not change the parser state. -/
theorem array_line_is_discarded_witness :
    (parser.parse "DEFAULT".toList parser.fresh "[s]\ntags[] = a\nb = 1".toList).p =
      (parser.parse "DEFAULT".toList parser.fresh "[s]\nb = 1".toList).p :=
  (array_line_is_discarded "DEFAULT".toList parser.fresh "tags".toList "a".toList
    "[s]\ntags[] = a\nb = 1".toList "[s]\nb = 1".toList ["[s]".toList] ["b = 1".toList]
    (by decide) ⟨'t', by decide, by decide⟩ (by decide) (by decide) (by decide)).2.2.1

/-! ## The flags of the parser -/

theorem store_withNoDefSection (p : parser) (b : Bool) (s k v : Str) :
    (p.withNoDefSection b).store s k v = (p.store s k v).withNoDefSection b := by
  unfold parser.store parser.addToSection parser.withNoDefSection parser.deref
  simp only []
  cases p.sections.get? (if p.IgnoreCase = true then strings.ToLower s else s) <;> rfl

theorem body_withNoDefSection (st : LoopState) (b : Bool) (text : Str) :
    parser.parse.body { st with p := st.p.withNoDefSection b } text =
      match parser.parse.body st text with
      | .ok st' => .ok { st' with p := st'.p.withNoDefSection b }
      | .error e => .error e := by
  rw [body_eq_classify, body_eq_classify]
  cases classify text with
  | skipped => rfl
  | array => rfl
  | header name => rfl
  | invalid src => rfl
  | assign key val =>
    simp only [parser.parse.tick, store_withNoDefSection]

theorem loop_withNoDefSection (st : LoopState) (b : Bool) (ls : List Str) :
    parser.parse.loop { st with p := st.p.withNoDefSection b } ls =
      { p := (parser.parse.loop st ls).p.withNoDefSection b,
        bytes := (parser.parse.loop st ls).bytes,
        err := (parser.parse.loop st ls).err } := by
  induction ls generalizing st with
  | nil => rfl
  | cons raw rest ih =>
    simp only [parser.parse.loop]
    by_cases hlen : MaxScanTokenSize ≤ byteLen raw
    · simp only [hlen, if_true]
    · simp only [hlen, if_false]
      rw [body_withNoDefSection]
      cases hb : parser.parse.body st (dropCR raw) with
      | ok st' => exact ih st'
      | error e => rfl

/-- C17: the `NoDefSection` flag is stored but has no behavioural effect: for
every input and every setting of the other fields, parsing with `NoDefSection`
true and with `NoDefSection` false returns the same Document (the same
sections, map objects and lookups), the same error and the same byte count;
the two parsers returned differ in the stored flag only. -/
theorem NoDefSection_has_no_effect (D : Str) (p : parser) (data : Str) :
    (parser.parse D (p.withNoDefSection true) data).err =
      (parser.parse D (p.withNoDefSection false) data).err ∧
    (parser.parse D (p.withNoDefSection true) data).bytes =
      (parser.parse D (p.withNoDefSection false) data).bytes ∧
    (parser.parse D (p.withNoDefSection true) data).p.sections =
      (parser.parse D (p.withNoDefSection false) data).p.sections ∧
    (parser.parse D (p.withNoDefSection true) data).p.heap =
      (parser.parse D (p.withNoDefSection false) data).p.heap ∧
    (∀ s k, (parser.parse D (p.withNoDefSection true) data).p.value? s k =
      (parser.parse D (p.withNoDefSection false) data).p.value? s k) ∧
    (parser.parse D (p.withNoDefSection true) data).p =
      ((parser.parse D (p.withNoDefSection false) data).p).withNoDefSection true := by
  have h : ∀ b, parser.parse D (p.withNoDefSection b) data =
      { p := (parser.parse D p data).p.withNoDefSection b,
        bytes := (parser.parse D p data).bytes,
        err := (parser.parse D p data).err } := by
    intro b
    unfold parser.parse
    exact loop_withNoDefSection (parser.parse.init D p) b (scanLines data)
  rw [h true, h false]
  exact ⟨rfl, rfl, rfl, rfl, fun _ _ => rfl, rfl⟩

/-! ## Blank and comment lines -/

theorem TrimSpace_of_dropWhile_nil (raw : Str) (h : raw.dropWhile unicode.IsSpace = []) :
    strings.TrimSpace raw = [] := by
  unfold strings.TrimSpace
  rw [h]
  rfl

theorem TrimSpace_of_dropWhile_cons (raw : Str) (c : Char) (t : Str)
    (h : raw.dropWhile unicode.IsSpace = c :: t) :
    strings.TrimSpace raw = c :: (t.reverse.dropWhile unicode.IsSpace).reverse := by
  have hc : unicode.IsSpace c = false := (dropWhile_eq_cons h).1
  unfold strings.TrimSpace
  rw [h, List.reverse_cons, List.dropWhile_append]
  by_cases he : (t.reverse.dropWhile unicode.IsSpace).isEmpty = true
  · have he' : t.reverse.dropWhile unicode.IsSpace = [] := by simpa using he
    simp [he', List.dropWhile_cons, hc]
  · simp only [he, if_false, Bool.false_eq_true]
    simp

theorem classify_skipped_iff (raw : Str) :
    classify raw = .skipped ↔ isBlankOrComment raw = true := by
  unfold isBlankOrComment
  cases hd : raw.dropWhile unicode.IsSpace with
  | nil =>
    simp only [iff_true]
    unfold classify
    simp [TrimSpace_of_dropWhile_nil raw hd]
  | cons c t =>
    have ht := TrimSpace_of_dropWhile_cons raw c t hd
    unfold classify
    simp only [ht, List.head?_cons, Option.some.injEq]
    by_cases hc : c = ';' ∨ c = '#'
    · simp [hc]
    · have hc' : (c == ';' || c == '#') = false := by
        simpa using hc
      simp only [hc, if_false, hc']
      constructor
      · intro h
        split at h
        · next hnil => simp at hnil
        · split at h
          · simp at h
          · split at h
            · simp at h
            · split at h <;> simp at h
      · intro h; simp at h

theorem loop_filter_skipped (st₁ st₂ : LoopState) (ls : List Str) (hp : st₁.p = st₂.p)
    (hs : st₁.«section» = st₂.«section»)
    (hfit : ∀ l ∈ ls, isBlankOrComment l = true → fitsToken l = true) :
    (parser.parse.loop st₁ ls).p =
      (parser.parse.loop st₂ (ls.filter (fun l => !isBlankOrComment l))).p ∧
    ((parser.parse.loop st₁ ls).err = none ↔
      (parser.parse.loop st₂ (ls.filter (fun l => !isBlankOrComment l))).err = none) := by
  induction ls generalizing st₁ st₂ with
  | nil => simp [parser.parse.loop, hp]
  | cons raw rest ih =>
    have hrest : ∀ l ∈ rest, isBlankOrComment l = true → fitsToken l = true :=
      fun l hl => hfit l (List.mem_cons_of_mem _ hl)
    by_cases hbc : isBlankOrComment raw = true
    · have hfr := hfit raw (List.mem_cons_self _ _) hbc
      have hsk : classify raw = .array ∨ classify raw = .skipped :=
        Or.inr ((classify_skipped_iff raw).mpr hbc)
      simp only [List.filter_cons, hbc, Bool.not_true, Bool.false_eq_true, if_false]
      rw [parser.parse.loop]
      simp only [(fitsToken_iff raw).mp hfr, if_false, body_discarded st₁ raw hsk]
      exact ih _ st₂ hp hs hrest
    · simp only [List.filter_cons, hbc, Bool.not_false, if_true, parser.parse.loop]
      by_cases hlen : MaxScanTokenSize ≤ byteLen raw
      · simp [hlen, hp]
      · simp only [hlen, if_false]
        obtain ⟨hok, herr⟩ := body_congr st₁ st₂ (dropCR raw) hp hs
        cases hb : parser.parse.body st₁ (dropCR raw) with
        | ok a =>
          obtain ⟨b, hb₂, hpab, hsab⟩ := hok a hb
          rw [hb₂]
          exact ih a b hpab hsab hrest
        | error e =>
          obtain ⟨e', hb₂⟩ := herr e hb
          rw [hb₂]
          simp [hp]

/-- A first line that does not fit the token limit stops the scan before
anything is read. -/
theorem long_first_line_stops (D : Str) (p : parser) (l rest : Str) (hnl : '\n' ∉ l)
    (hlong : fitsToken l = false) :
    (parser.parse D p (l ++ '\n' :: rest)).err = some error.ErrTooLong ∧
    (parser.parse D p (l ++ '\n' :: rest)).p = p := by
  unfold parser.parse
  rw [scanLines_cons_line l rest hnl]
  exact loop_too_long _ _ _ hlong

theorem long_comment_line (n : Nat) (hn : MaxScanTokenSize ≤ n) :
    '\n' ∉ (';' :: List.replicate n 'a') ∧
    fitsToken (';' :: List.replicate n 'a') = false ∧
    isBlankOrComment (';' :: List.replicate n 'a') = true := by
  refine ⟨?_, ?_, ?_⟩
  · intro hmem
    rcases List.mem_cons.mp hmem with h | h
    · exact absurd h (by decide)
    · exact absurd (List.eq_of_mem_replicate h) (by decide)
  · unfold fitsToken
    have h1 : byteLen (';' :: List.replicate n 'a') = 1 + n := by
      have h0 := byteLen_replicate_a n
      have hsz : Char.utf8Size ';' = 1 := by decide
      unfold byteLen at h0 ⊢
      simp only [List.map_cons, List.sum_cons, h0, hsz]
    rw [h1]
    exact decide_eq_false (by omega)
  · have hsp : unicode.IsSpace ';' = false := by decide
    unfold isBlankOrComment
    simp only [List.dropWhile_cons, hsp, Bool.false_eq_true, if_false]
    decide

/-- C11 fails as stated: a comment line of more than 65536 bytes is not
skipped, it stops the scan with `bufio.ErrTooLong`; the assignment `b = 1` after
it is lost and the parse fails, while with the comment deleted the parse
succeeds and stores it. -/
theorem long_comment_line_not_skipped :
    isBlankOrComment (';' :: List.replicate MaxScanTokenSize 'a') = true ∧
    (parse "DEFAULT".toList
      ((';' :: List.replicate MaxScanTokenSize 'a') ++ '\n' :: "b = 1".toList)).err =
        some error.ErrTooLong ∧
    (parse "DEFAULT".toList
      ((';' :: List.replicate MaxScanTokenSize 'a') ++ '\n' :: "b = 1".toList)).p.value?
        "DEFAULT".toList "b".toList = none ∧
    (parse "DEFAULT".toList "b = 1".toList).err = none ∧
    (parse "DEFAULT".toList "b = 1".toList).p.value? "DEFAULT".toList "b".toList =
      some "1".toList := by
  obtain ⟨h1, h2, h3⟩ := long_comment_line MaxScanTokenSize (le_refl _)
  have h := long_first_line_stops "DEFAULT".toList parser.fresh _ "b = 1".toList h1 h2
  refine ⟨h3, h.1, ?_, by decide, by decide⟩
  unfold parse
  rw [h.2]
  rfl

/-- C11, amended: a line that is empty after trimming, or whose first
non-whitespace character is `;` or `#`, and that fits the scanner's token
limit, is skipped whatever else it contains: the loop only advances its
counters.  When every such line of the input fits the limit, deleting all of
them leaves the parser state (the Document) unchanged and does not change
whether parse succeeds or fails. -/
theorem blank_and_comment_lines_are_skipped (D : Str) (p : parser) (data data' : Str)
    (hfit : ∀ l ∈ scanLines data, isBlankOrComment l = true → fitsToken l = true)
    (hdel : scanLines data' = (scanLines data).filter (fun l => !isBlankOrComment l)) :
    (∀ st raw, isBlankOrComment raw = true →
      parser.parse.body st (dropCR raw) = .ok (parser.parse.tick st (dropCR raw))) ∧
    (parser.parse D p data).p = (parser.parse D p data').p ∧
    ((parser.parse D p data).err = none ↔ (parser.parse D p data').err = none) := by
  refine ⟨?_, ?_⟩
  · intro st raw hbc
    exact body_discarded st raw (Or.inr ((classify_skipped_iff raw).mpr hbc))
  · unfold parser.parse
    rw [hdel]
    exact loop_filter_skipped _ _ _ rfl rfl hfit

/-- Instance of the amended C11: deleting the blank line and the two comment
lines of an input, one of which looks like a header and one like garbage,
leaves the parser state unchanged. -/
theorem blank_and_comment_lines_are_skipped_witness :
    (parser.parse "DEFAULT".toList parser.fresh
        "; [x]\na = 1\n\n  # zzz\n[s]\nb = 2".toList).p =
      (parser.parse "DEFAULT".toList parser.fresh "a = 1\n[s]\nb = 2".toList).p :=
  (blank_and_comment_lines_are_skipped "DEFAULT".toList parser.fresh
    "; [x]\na = 1\n\n  # zzz\n[s]\nb = 2".toList "a = 1\n[s]\nb = 2".toList
    (by decide) (by decide)).2.1

/-! ## Which lines are rejected -/

theorem mem_TrimSpace {c : Char} {x : Str} (h : c ∈ strings.TrimSpace x) : c ∈ x := by
  unfold strings.TrimSpace at h
  exact mem_of_mem_dropWhile (List.mem_reverse.mp (mem_of_mem_dropWhile (List.mem_reverse.mp h)))

theorem assignRegex_head_eq (t : Str) : assignRegex ('=' :: t) = none := by
  have hc : (fun c : Char => c != '=') '=' = false := by decide
  unfold assignRegex
  simp only [List.dropWhile_cons, List.takeWhile_cons, hc, Bool.false_eq_true, if_false]
  simp

theorem assignArrRegex_head_eq (t : Str) : assignArrRegex ('=' :: t) = none := by
  have hc : (fun c : Char => c != '=' && c != '[' && c != ']') '=' = false := by decide
  unfold assignArrRegex
  simp only [List.dropWhile_cons, hc, Bool.false_eq_true, if_false]
  split
  · next rest heq =>
    have := (List.cons.inj heq).1
    exact absurd this (by decide)
  · rfl

theorem assignRegex_eq_none_iff (L : Str) (hnl : '\n' ∉ L) :
    assignRegex L = none ↔ ('=' ∉ L ∨ L.head? = some '=') := by
  constructor
  · intro h
    by_contra hcon
    push_neg at hcon
    obtain ⟨hmem, hhead⟩ := hcon
    obtain ⟨a, b, hL, ha⟩ := List.eq_append_cons_of_mem hmem
    have hane : a ≠ [] := by
      rintro rfl
      rw [hL] at hhead
      simp at hhead
    have hb : '\n' ∉ b := fun hm => hnl (by rw [hL]; simp [hm])
    rw [hL, assignRegex_split a b ha, if_pos ⟨hane, hb⟩] at h
    simp at h
  · rintro (h | h)
    · exact assignRegex_no_eq L h
    · cases L with
      | nil => simp at h
      | cons c t =>
        simp only [List.head?_cons, Option.some.injEq] at h
        subst h
        exact assignRegex_head_eq t

theorem assignArrRegex_none_of_assignRegex_none (L : Str) (hnl : '\n' ∉ L)
    (h : assignRegex L = none) : assignArrRegex L = none := by
  rcases (assignRegex_eq_none_iff L hnl).mp h with h | h
  · exact assignArrRegex_no_eq L h
  · cases L with
    | nil => simp at h
    | cons c t =>
      simp only [List.head?_cons, Option.some.injEq] at h
      subst h
      exact assignArrRegex_head_eq t

theorem sectionRegex_eq_some_iff (L : Str) (hnl : '\n' ∉ L) :
    (sectionRegex L).isSome = true ↔ ∃ name, L = '[' :: name ++ [']'] := by
  constructor
  · intro h
    unfold sectionRegex at h
    split at h
    · next rest =>
      split at h
      · next hc =>
        obtain ⟨ys, hys⟩ := List.getLast?_eq_some_iff.mp hc.1
        exact ⟨ys, by rw [hys]; rfl⟩
      · simp at h
    · simp at h
  · rintro ⟨name, rfl⟩
    have hname : '\n' ∉ name := fun hm => hnl (by simp [hm])
    rw [sectionRegex_bracket, if_pos hname]
    rfl

theorem unrecognised_iff (raw : Str) (hnl : '\n' ∉ raw)
    (hne : strings.TrimSpace raw ≠ [])
    (hc1 : (strings.TrimSpace raw).head? ≠ some ';')
    (hc2 : (strings.TrimSpace raw).head? ≠ some '#') :
    unrecognised raw = true ↔
      (('=' ∉ strings.TrimSpace raw ∨ (strings.TrimSpace raw).head? = some '=') ∧
        ¬ ∃ name, strings.TrimSpace raw = '[' :: name ++ [']']) := by
  have hL : '\n' ∉ strings.TrimSpace raw := fun h => hnl (mem_TrimSpace h)
  have hcom : ¬ ((strings.TrimSpace raw).head? = some ';' ∨
      (strings.TrimSpace raw).head? = some '#') := by
    rintro (h | h)
    · exact hc1 h
    · exact hc2 h
  rw [← assignRegex_eq_none_iff _ hL, ← sectionRegex_eq_some_iff _ hL]
  unfold unrecognised classify
  simp only [hne, hcom, if_false]
  cases ha : assignRegex (strings.TrimSpace raw) with
  | some kv =>
    by_cases harr : (assignArrRegex (strings.TrimSpace raw)).isSome = true
    · simp [harr]
    · simp [harr]
  | none =>
    have harr := assignArrRegex_none_of_assignRegex_none _ hL ha
    simp only [harr, Option.isSome_none, Bool.false_eq_true, if_false, true_and]
    cases hs : sectionRegex (strings.TrimSpace raw) with
    | some name => simp
    | none => simp

theorem run_ok_inv (st st' : LoopState) (ls : List Str)
    (h : parser.parse.run st ls = .ok st') :
    ∀ l ∈ ls, fitsToken l = true ∧ unrecognised l = false := by
  induction ls generalizing st with
  | nil => intro l hl; simp at hl
  | cons raw rest ih =>
    simp only [parser.parse.run] at h
    by_cases hlen : MaxScanTokenSize ≤ byteLen raw
    · simp [hlen] at h
    · simp only [hlen, if_false] at h
      cases hb : parser.parse.body st (dropCR raw) with
      | error e => rw [hb] at h; simp at h
      | ok st₁ =>
        rw [hb] at h
        have hrec : unrecognised raw = false := by
          rw [body_eq_classify, classify_dropCR] at hb
          unfold unrecognised
          cases hc : classify raw <;> simp [hc] at hb ⊢
        intro l hl
        rcases List.mem_cons.mp hl with rfl | hl
        · exact ⟨(fitsToken_iff _).mpr hlen, hrec⟩
        · exact ih st₁ h l hl

theorem loop_ok_iff (st : LoopState) (ls : List Str) :
    (parser.parse.loop st ls).err = none ↔
      ∀ l ∈ ls, fitsToken l = true ∧ unrecognised l = false := by
  constructor
  · intro h
    obtain ⟨st', hst'⟩ := run_of_loop_ok st ls h
    exact run_ok_inv st st' ls hst'
  · intro h
    obtain ⟨st', hst', _⟩ := run_ok_of_recognised st ls h
    exact (loop_of_run_ok st st' ls hst').2

theorem loop_err_cause (st : LoopState) (ls : List Str) :
    ((parser.parse.loop st ls).err = some error.ErrTooLong →
      ∃ l ∈ ls, fitsToken l = false) ∧
    (∀ n src, (parser.parse.loop st ls).err = some (error.errSyntax n src) →
      ∃ l ∈ ls, unrecognised l = true ∧ src = strings.TrimSpace l) := by
  induction ls generalizing st with
  | nil => simp [parser.parse.loop]
  | cons raw rest ih =>
    simp only [parser.parse.loop]
    by_cases hlen : MaxScanTokenSize ≤ byteLen raw
    · simp only [hlen, if_true]
      refine ⟨fun _ => ⟨raw, List.mem_cons_self _ _, ?_⟩, fun n src h => by simp at h⟩
      unfold fitsToken
      exact decide_eq_false (by omega)
    · simp only [hlen, if_false]
      cases hb : parser.parse.body st (dropCR raw) with
      | ok st₁ =>
        obtain ⟨h1, h2⟩ := ih st₁
        refine ⟨fun h => ?_, fun n src h => ?_⟩
        · obtain ⟨l, hl, hf⟩ := h1 h
          exact ⟨l, List.mem_cons_of_mem _ hl, hf⟩
        · obtain ⟨l, hl, hf⟩ := h2 n src h
          exact ⟨l, List.mem_cons_of_mem _ hl, hf⟩
      | error e =>
        rw [body_eq_classify, classify_dropCR] at hb
        cases hc : classify raw <;> simp only [hc] at hb <;> try simp at hb
        subst hb
        refine ⟨fun h => by simp at h, fun n src h => ?_⟩
        simp only [Option.some.injEq, error.errSyntax.injEq] at h
        refine ⟨raw, List.mem_cons_self _ _, by simp [unrecognised, hc], ?_⟩
        rw [← h.2]
        exact classify_invalid_source raw _ hc

theorem long_array_line_recognised (n : Nat) :
    unrecognised (['k', '[', ']', ' ', '=', ' '] ++ List.replicate n 'a') = false := by
  have hv : '\n' ∉ List.replicate n 'a' :=
    fun h => absurd (List.eq_of_mem_replicate h) (by decide)
  have h := classify_array_line ['k'] (List.replicate n 'a') (by decide)
    ⟨'k', by decide, by decide⟩ hv
  have hshape : (['k'] ++ '[' :: ']' :: ' ' :: '=' :: ' ' :: List.replicate n 'a') =
      (['k', '[', ']', ' ', '=', ' '] ++ List.replicate n 'a') := rfl
  rw [hshape] at h
  unfold unrecognised
  rcases h with h | h <;> rw [h]

/-- C12 fails as stated: the one-line input `k[] = aaa…` with 65536 letters
`a` has no rejected line (its line is an array assignment), and yet parse
fails, with `bufio.ErrTooLong`. -/
theorem no_rejected_line_yet_failure :
    scanLines ((['k', '[', ']', ' ', '=', ' '] ++ List.replicate MaxScanTokenSize 'a') ++
        '\n' :: []) =
      [['k', '[', ']', ' ', '=', ' '] ++ List.replicate MaxScanTokenSize 'a'] ∧
    unrecognised (['k', '[', ']', ' ', '=', ' '] ++ List.replicate MaxScanTokenSize 'a')
      = false ∧
    (parse "DEFAULT".toList
      ((['k', '[', ']', ' ', '=', ' '] ++ List.replicate MaxScanTokenSize 'a') ++
        '\n' :: [])).err = some error.ErrTooLong := by
  refine ⟨?_, long_array_line_recognised _,
    (long_array_line_stops "DEFAULT".toList MaxScanTokenSize (le_refl _) []).1⟩
  have hnl : '\n' ∉ (['k', '[', ']', ' ', '=', ' '] ++ List.replicate MaxScanTokenSize 'a') := by
    intro hmem
    rcases List.mem_append.mp hmem with h | h
    · revert h; decide
    · exact absurd (List.eq_of_mem_replicate h) (by decide)
  rw [scanLines_cons_line _ [] hnl]
  rfl

/-- C12, amended: a trimmed, non-empty line not starting with `;` or `#` is
rejected (it is none of an array assignment, a scalar assignment or a section
header) exactly when it (contains no `=` or begins with `=`) and is not of the
form `[` ... `]`; parse succeeds on an input exactly when none of its lines is
rejected and every line fits the scanner's token limit. -/
theorem rejected_lines_and_success (D : Str) (p : parser) (data : Str) :
    (∀ raw, '\n' ∉ raw → strings.TrimSpace raw ≠ [] →
      (strings.TrimSpace raw).head? ≠ some ';' →
      (strings.TrimSpace raw).head? ≠ some '#' →
      (unrecognised raw = true ↔
        (('=' ∉ strings.TrimSpace raw ∨ (strings.TrimSpace raw).head? = some '=') ∧
          ¬ ∃ name, strings.TrimSpace raw = '[' :: name ++ [']']))) ∧
    (∀ raw, unrecognised raw = true ↔
      (isBlankOrComment raw = false ∧ isArrayLine raw = false ∧
        scalarAssignment? raw = none ∧ header? raw = none)) ∧
    ((parser.parse D p data).err = none ↔
      ∀ l ∈ scanLines data, fitsToken l = true ∧ unrecognised l = false) := by
  refine ⟨unrecognised_iff, ?_, ?_⟩
  · intro raw
    have hsk := classify_skipped_iff raw
    unfold unrecognised isArrayLine scalarAssignment? header?
    cases hc : classify raw with
    | skipped =>
      have := hsk.mp hc
      simp [this]
    | array =>
      simp
    | assign k v => simp
    | header name => simp
    | invalid src =>
      have hbc : isBlankOrComment raw = false := by
        cases hb : isBlankOrComment raw with
        | false => rfl
        | true =>
          have := hsk.mpr hb
          rw [hc] at this
          simp at this
      simp [hbc]
  · unfold parser.parse
    exact loop_ok_iff _ _

/-- Instance of the amended C12: the line `=x` begins with `=` and is rejected. -/
theorem rejected_lines_and_success_witness :
    unrecognised "=x".toList = true ↔
      (('=' ∉ strings.TrimSpace "=x".toList ∨
          (strings.TrimSpace "=x".toList).head? = some '=') ∧
        ¬ ∃ name, strings.TrimSpace "=x".toList = '[' :: name ++ [']']) :=
  (rejected_lines_and_success "DEFAULT".toList parser.fresh "=x".toList).1 "=x".toList
    (by decide) (by decide) (by decide) (by decide)

theorem long_comment_line_recognised (n : Nat) :
    unrecognised (';' :: List.replicate n 'a') = false := by
  have hsp : unicode.IsSpace ';' = false := by decide
  have hbc : isBlankOrComment (';' :: List.replicate n 'a') = true := by
    unfold isBlankOrComment
    simp only [List.dropWhile_cons, hsp, Bool.false_eq_true, if_false]
    decide
  unfold unrecognised
  rw [(classify_skipped_iff _).mpr hbc]

/-- C15 fails as stated: the one-line input `;aaa…` with 65536 letters `a`
consists of a valid (comment) line, yet parse fails, and the error is the
scanner's `bufio.ErrTooLong`, not a syntax error: there is a line-length
limit. -/
theorem valid_long_line_fails :
    scanLines ((';' :: List.replicate MaxScanTokenSize 'a') ++ '\n' :: []) =
      [';' :: List.replicate MaxScanTokenSize 'a'] ∧
    unrecognised (';' :: List.replicate MaxScanTokenSize 'a') = false ∧
    (parse "DEFAULT".toList
      ((';' :: List.replicate MaxScanTokenSize 'a') ++ '\n' :: [])).err =
        some error.ErrTooLong ∧
    (∀ n src, (parse "DEFAULT".toList
      ((';' :: List.replicate MaxScanTokenSize 'a') ++ '\n' :: [])).err ≠
        some (error.errSyntax n src)) := by
  obtain ⟨h1, h2, h3⟩ := long_comment_line MaxScanTokenSize (le_refl _)
  have h := long_first_line_stops "DEFAULT".toList parser.fresh _ [] h1 h2
  refine ⟨?_, long_comment_line_recognised MaxScanTokenSize, h.1, ?_⟩
  · rw [scanLines_cons_line _ [] h1]
    rfl
  · intro n src
    unfold parse
    rw [h.1]
    intro hcon
    injection hcon with hcon
    cases hcon

/-- C15, amended: parse can return two errors: a syntax error, for a line that
matches none of the recognised patterns, and `bufio.ErrTooLong`, for a line
that does not fit the scanner's token limit of 65536 bytes.  An input all of
whose lines are valid and fit the limit parses successfully and completely:
the loop goes through every line. -/
theorem parse_error_kinds (D : Str) (p : parser) (data : Str) :
    (∀ n src, (parser.parse D p data).err = some (error.errSyntax n src) →
      ∃ l ∈ scanLines data, unrecognised l = true ∧ src = strings.TrimSpace l) ∧
    ((parser.parse D p data).err = some error.ErrTooLong →
      ∃ l ∈ scanLines data, fitsToken l = false) ∧
    ((∀ l ∈ scanLines data, fitsToken l = true ∧ unrecognised l = false) →
      (parser.parse D p data).err = none ∧
      ∃ st, parser.parse.run (parser.parse.init D p) (scanLines data) = .ok st ∧
        (parser.parse D p data).p = st.p ∧ st.lineNum = (scanLines data).length) := by
  unfold parser.parse
  obtain ⟨h1, h2⟩ := loop_err_cause (parser.parse.init D p) (scanLines data)
  refine ⟨h2, h1, fun hall => ?_⟩
  obtain ⟨st, hrun, hnum⟩ := run_ok_of_recognised (parser.parse.init D p) (scanLines data) hall
  obtain ⟨hp, herr⟩ := loop_of_run_ok _ st _ hrun
  exact ⟨herr, st, hrun, hp, by simpa [parser.parse.init] using hnum⟩

/-- Instance of the amended C15: an input of valid lines parses successfully. -/
theorem parse_error_kinds_witness :
    (parser.parse "DEFAULT".toList parser.fresh "[s]\na = 1\nt[] = 2\n; c".toList).err = none :=
  ((parse_error_kinds "DEFAULT".toList parser.fresh "[s]\na = 1\nt[] = 2\n; c".toList).2.2
    (by decide)).1

/-! ## Array lines and scalar lines -/

theorem assignArrRegex_isSome_iff (L : Str) (hnl : '\n' ∉ L) :
    (assignArrRegex L).isSome = true ↔
      ∃ p r, L = p ++ '[' :: ']' :: r ∧ p ≠ [] ∧
        (∀ c ∈ p, c ≠ '=' ∧ c ≠ '[' ∧ c ≠ ']') ∧ '=' ∈ r := by
  have hbr : (fun c : Char => c != '=' && c != '[' && c != ']') '[' = false := by decide
  constructor
  · intro h
    unfold assignArrRegex at h
    simp only [] at h
    split at h
    · next rest heq =>
      split at h
      · next c val heq2 =>
        split at h
        · next hcond =>
          refine ⟨L.takeWhile (fun c => c != '=' && c != '[' && c != ']'), rest, ?_, hcond.1,
            ?_, ?_⟩
          · rw [← heq]
            exact (List.takeWhile_append_dropWhile _ L).symm
          · intro x hx
            have := List.mem_takeWhile_imp hx
            simp only [Bool.and_eq_true, bne_iff_ne, ne_eq] at this
            exact ⟨this.1.1, this.1.2, this.2⟩
          · obtain ⟨hc, hmem⟩ := dropWhile_eq_cons heq2
            have hce : c = '=' := by simpa using hc
            exact hce ▸ hmem
        · simp at h
      · simp at h
    · simp at h
  · rintro ⟨p, r, rfl, hp, hplain, hr⟩
    have hall : ∀ x ∈ p, (fun c : Char => c != '=' && c != '[' && c != ']') x = true := by
      intro x hx
      obtain ⟨h1, h2, h3⟩ := hplain x hx
      simp [h1, h2, h3]
    unfold assignArrRegex
    simp only [dropWhile_pad p '[' _ hall hbr, takeWhile_pad p '[' _ hall hbr]
    cases hd : r.dropWhile (fun c => c != '=') with
    | nil =>
      have := (List.dropWhile_eq_nil_iff.mp hd) '=' hr
      simp at this
    | cons c val =>
      have hval : '\n' ∉ val := by
        intro hm
        have h1 : '\n' ∈ r.dropWhile (fun c => c != '=') := by
          rw [hd]; exact List.mem_cons_of_mem _ hm
        exact hnl (by simp [mem_of_mem_dropWhile h1])
      simp only []
      rw [if_pos ⟨hp, hval⟩]
      rfl

theorem classify_array_iff (raw : Str) (hne : strings.TrimSpace raw ≠ [])
    (hc1 : (strings.TrimSpace raw).head? ≠ some ';')
    (hc2 : (strings.TrimSpace raw).head? ≠ some '#') :
    classify raw = .array ↔ (assignArrRegex (strings.TrimSpace raw)).isSome = true := by
  have hcom : ¬ ((strings.TrimSpace raw).head? = some ';' ∨
      (strings.TrimSpace raw).head? = some '#') := by
    rintro (h | h)
    · exact hc1 h
    · exact hc2 h
  unfold classify
  simp only [hne, hcom, if_false]
  by_cases harr : (assignArrRegex (strings.TrimSpace raw)).isSome = true
  · simp [harr]
  · simp only [harr, if_false, Bool.false_eq_true, iff_false]
    intro h
    split at h
    · simp at h
    · split at h <;> simp at h

/-- C18 fails as stated: the line `=a=b` has an `=` preceded by at least one
character (its second `=`, after `=a`) and is not of the array form, but it is
not a scalar assignment: it begins with `=`, matches no pattern and is
reported as a syntax error. -/
theorem line_beginning_with_eq_not_scalar :
    strings.TrimSpace "=a=b".toList = "=a".toList ++ '=' :: "b".toList ∧
    "=a".toList ≠ [] ∧
    (¬ ∃ p r, strings.TrimSpace "=a=b".toList = p ++ '[' :: ']' :: r ∧ p ≠ [] ∧
      (∀ c ∈ p, c ≠ '=' ∧ c ≠ '[' ∧ c ≠ ']') ∧ '=' ∈ r) ∧
    classify "=a=b".toList ≠ .array ∧
    scalarAssignment? "=a=b".toList = none ∧
    unrecognised "=a=b".toList = true ∧
    (parse "DEFAULT".toList "=a=b".toList).err =
      some (error.errSyntax 1 "=a=b".toList) := by
  refine ⟨by decide, by decide, ?_, by decide, by decide, by decide, by decide⟩
  have hnl : '\n' ∉ strings.TrimSpace "=a=b".toList := by decide
  have hnone : ¬ (assignArrRegex (strings.TrimSpace "=a=b".toList)).isSome = true := by
    decide
  exact fun h => hnone ((assignArrRegex_isSome_iff _ hnl).mpr h)

/-- C18, amended: a trimmed, non-empty, non-comment line is classified as an
array assignment (checked first, and discarded) exactly when it has the form
`p + "[]" + r` where `p` is non-empty and contains none of `=`, `[`, `]`, and
`r` contains at least one `=`; the text after that `=` may be empty.  Every
line that contains an `=`, does not begin with `=` (its first `=` is preceded
by at least one character) and is not of this form is a scalar assignment,
even when its key ends in `[]`; a line that begins with `=` is not. -/
theorem array_and_scalar_lines (raw : Str) (hnl : '\n' ∉ raw)
    (hne : strings.TrimSpace raw ≠ [])
    (hc1 : (strings.TrimSpace raw).head? ≠ some ';')
    (hc2 : (strings.TrimSpace raw).head? ≠ some '#') :
    (classify raw = .array ↔
      ∃ p r, strings.TrimSpace raw = p ++ '[' :: ']' :: r ∧ p ≠ [] ∧
        (∀ c ∈ p, c ≠ '=' ∧ c ≠ '[' ∧ c ≠ ']') ∧ '=' ∈ r) ∧
    (∀ st, classify raw = .array →
      parser.parse.body st (dropCR raw) = .ok (parser.parse.tick st (dropCR raw))) ∧
    (∀ a b, strings.TrimSpace raw = a ++ '=' :: b → a ≠ [] → '=' ∉ a →
      classify raw ≠ .array →
      classify raw = .assign (strings.TrimSpace a) (trimWithQuotes b)) ∧
    ((strings.TrimSpace raw).head? = some '=' → scalarAssignment? raw = none) ∧
    (classify "a[] =".toList = .array ∧
      classify "a[b][] = 1".toList = .assign "a[b][]".toList "1".toList) := by
  have hL : '\n' ∉ strings.TrimSpace raw := fun h => hnl (mem_TrimSpace h)
  have hcom : ¬ ((strings.TrimSpace raw).head? = some ';' ∨
      (strings.TrimSpace raw).head? = some '#') := by
    rintro (h | h)
    · exact hc1 h
    · exact hc2 h
  refine ⟨?_, ?_, ?_, ?_, by decide, by decide⟩
  · rw [classify_array_iff raw hne hc1 hc2, assignArrRegex_isSome_iff _ hL]
  · intro st h
    exact body_discarded st raw (Or.inl h)
  · intro a b hsplit ha heq hnarr
    have harr : ¬ (assignArrRegex (strings.TrimSpace raw)).isSome = true :=
      fun h => hnarr ((classify_array_iff raw hne hc1 hc2).mpr h)
    have hb : '\n' ∉ b := fun hm => hL (by rw [hsplit]; simp [hm])
    have hreg : assignRegex (strings.TrimSpace raw) = some (a, b) := by
      rw [hsplit, assignRegex_split a b heq, if_pos ⟨ha, hb⟩]
    unfold classify
    simp only [hne, hcom, harr, if_false, hreg]
    simp
  · intro hhead
    have hreg : assignRegex (strings.TrimSpace raw) = none :=
      (assignRegex_eq_none_iff _ hL).mpr (Or.inr hhead)
    have harr := assignArrRegex_none_of_assignRegex_none _ hL hreg
    unfold scalarAssignment? classify
    simp only [hne, hcom, if_false, harr, hreg, Option.isSome_none, Bool.false_eq_true]
    cases sectionRegex (strings.TrimSpace raw) <;> rfl

/-- Instance of the amended C18: ` tags[] x = 1 ` is of the array form. -/
theorem array_and_scalar_lines_witness :
    classify " tags[] x = 1 ".toList = .array ↔
      ∃ p r, strings.TrimSpace " tags[] x = 1 ".toList = p ++ '[' :: ']' :: r ∧ p ≠ [] ∧
        (∀ c ∈ p, c ≠ '=' ∧ c ≠ '[' ∧ c ≠ ']') ∧ '=' ∈ r :=
  (array_and_scalar_lines " tags[] x = 1 ".toList (by decide) (by decide) (by decide)
    (by decide)).1

/-! ## The keys and values that are stored -/

theorem TrimSpace_head_not_space (x : Str) (c : Char)
    (h : (strings.TrimSpace x).head? = some c) : unicode.IsSpace c = false := by
  cases hd : x.dropWhile unicode.IsSpace with
  | nil =>
    rw [TrimSpace_of_dropWhile_nil x hd] at h
    simp at h
  | cons d t =>
    rw [TrimSpace_of_dropWhile_cons x d t hd] at h
    simp only [List.head?_cons, Option.some.injEq] at h
    subst h
    exact (dropWhile_eq_cons hd).1

theorem TrimSpace_last_not_space (x : Str) (c : Char)
    (h : (strings.TrimSpace x).getLast? = some c) : unicode.IsSpace c = false := by
  unfold strings.TrimSpace at h
  rw [List.getLast?_reverse] at h
  cases hd : ((x.dropWhile unicode.IsSpace).reverse.dropWhile unicode.IsSpace) with
  | nil => rw [hd] at h; simp at h
  | cons d t =>
    rw [hd] at h
    simp only [List.head?_cons, Option.some.injEq] at h
    subst h
    exact (dropWhile_eq_cons hd).1

theorem TrimSpace_of_head_not_space (c : Char) (t : Str) (hc : unicode.IsSpace c = false) :
    ∃ t', strings.TrimSpace (c :: t) = c :: t' := by
  have hd : (c :: t).dropWhile unicode.IsSpace = c :: t := by
    simp [List.dropWhile_cons, hc]
  exact ⟨_, TrimSpace_of_dropWhile_cons (c :: t) c t hd⟩

theorem mem_trimWithQuotes {c : Char} {x : Str} (h : c ∈ trimWithQuotes x) : c ∈ x := by
  unfold trimWithQuotes at h
  simp only [] at h
  cases hr : quotesRegex (strings.TrimSpace x) with
  | none =>
    rw [hr] at h
    exact mem_TrimSpace h
  | some g =>
    obtain ⟨g1, g2, g3⟩ := g
    rw [hr] at h
    simp only [] at h
    obtain ⟨heq, _, _, _⟩ := quotesRegex_some hr
    by_cases h13 : g1 = g3
    · simp only [h13, if_true] at h
      exact mem_TrimSpace (by rw [heq]; simp [h])
    · simp only [h13, if_false] at h
      exact mem_TrimSpace h

theorem assignRegex_some_inv (L k₀ v₀ : Str) (h : assignRegex L = some (k₀, v₀)) :
    L = k₀ ++ '=' :: v₀ ∧ k₀ ≠ [] ∧ '=' ∉ k₀ ∧ '\n' ∉ v₀ := by
  unfold assignRegex at h
  split at h
  · next c val heq =>
    split at h
    · next hcond =>
      simp only [Option.some.injEq, Prod.mk.injEq] at h
      obtain ⟨rfl, rfl⟩ := h
      have hc : c = '=' := by simpa using (dropWhile_eq_cons heq).1
      subst hc
      refine ⟨?_, hcond.1, ?_, hcond.2⟩
      · rw [← heq]
        exact (List.takeWhile_append_dropWhile _ L).symm
      · intro hm
        have := List.mem_takeWhile_imp hm
        simp at this
    · simp at h
  · simp at h

theorem classify_assign_clean (raw k v : Str) (hnl : '\n' ∉ raw)
    (h : classify raw = .assign k v) : cleanKey k ∧ '\n' ∉ v := by
  obtain ⟨k₀, v₀, hreg, hk, hv⟩ := classify_assign_inv raw k v h
  obtain ⟨hL, hk₀, heq, hnlv⟩ := assignRegex_some_inv _ k₀ v₀ hreg
  have hcom : (strings.TrimSpace raw).head? ≠ some ';' ∧
      (strings.TrimSpace raw).head? ≠ some '#' := by
    unfold classify at h
    simp only [] at h
    split at h
    · simp at h
    · split at h
      · simp at h
      · next hc =>
        constructor
        · exact fun e => hc (Or.inl e)
        · exact fun e => hc (Or.inr e)
  cases hk₀c : k₀ with
  | nil => exact absurd hk₀c hk₀
  | cons c t =>
    have hhead : (strings.TrimSpace raw).head? = some c := by
      rw [hL, hk₀c]; rfl
    have hsp : unicode.IsSpace c = false := TrimSpace_head_not_space raw c hhead
    obtain ⟨t', ht'⟩ := TrimSpace_of_head_not_space c t hsp
    have hkc : k = c :: t' := by rw [hk, hk₀c, ht']
    have hsub : ∀ x ∈ k, x ∈ k₀ := by
      intro x hx
      rw [hk] at hx
      exact mem_TrimSpace hx
    refine ⟨⟨?_, ?_, ?_, ?_, ?_, ?_, ?_⟩, ?_⟩
    · rw [hkc]; simp
    · exact fun hm => heq (hsub _ hm)
    · intro d hd
      rw [hk] at hd
      exact TrimSpace_head_not_space _ d hd
    · intro d hd
      rw [hk] at hd
      exact TrimSpace_last_not_space _ d hd
    · rw [hkc, List.head?_cons, ← hhead]
      exact hcom.1
    · rw [hkc, List.head?_cons, ← hhead]
      exact hcom.2
    · intro hm
      have h1 : '\n' ∈ strings.TrimSpace raw := by
        rw [hL]; simp [hsub _ hm]
      exact hnl (mem_TrimSpace h1)
    · intro hm
      rw [hv] at hm
      exact hnlv (mem_trimWithQuotes hm)

theorem body_clean (st st₁ : LoopState) (raw : Str) (hic : st.p.IgnoreCase = false)
    (hwf : st.p.WF) (hcl : st.p.Clean) (hnl : '\n' ∉ raw)
    (hb : parser.parse.body st (dropCR raw) = .ok st₁) : st₁.p.Clean := by
  rw [body_eq_classify, classify_dropCR] at hb
  cases hc : classify raw with
  | skipped => simp only [hc, Except.ok.injEq] at hb; subst hb; exact hcl
  | array => simp only [hc, Except.ok.injEq] at hb; subst hb; exact hcl
  | header name => simp only [hc, Except.ok.injEq] at hb; subst hb; exact hcl
  | invalid src => simp [hc] at hb
  | assign key val =>
    simp only [hc, Except.ok.injEq] at hb
    subst hb
    intro s k v hv
    simp only [parser.parse.tick] at hv
    rw [value?_store st.p st.«section» key val s k hic hwf] at hv
    by_cases hcond : s = st.«section» ∧ k = key
    · rw [if_pos hcond] at hv
      obtain ⟨_, rfl⟩ := hcond
      have := classify_assign_clean raw k val hnl hc
      simp only [Option.some.injEq] at hv
      rw [← hv]
      exact this
    · rw [if_neg hcond] at hv
      exact hcl s k v hv

theorem loop_clean (st : LoopState) (ls : List Str) (hic : st.p.IgnoreCase = false)
    (hwf : st.p.WF) (hcl : st.p.Clean) (hnl : ∀ l ∈ ls, '\n' ∉ l) :
    (parser.parse.loop st ls).p.Clean := by
  induction ls generalizing st with
  | nil => simpa [parser.parse.loop] using hcl
  | cons raw rest ih =>
    simp only [parser.parse.loop]
    by_cases hlen : MaxScanTokenSize ≤ byteLen raw
    · simpa [hlen] using hcl
    · simp only [hlen, if_false]
      cases hb : parser.parse.body st (dropCR raw) with
      | ok st₁ =>
        obtain ⟨hic₁, hwf₁, _⟩ := body_keeps st st₁ _ hic hwf hb
        exact ih st₁ hic₁ hwf₁
          (body_clean st st₁ raw hic hwf hcl (hnl raw (List.mem_cons_self _ _)) hb)
          (fun l hl => hnl l (List.mem_cons_of_mem _ hl))
      | error e => simpa using hcl

/-- C19: with IgnoreCase off, for every input (whether parse succeeds, stops
at a syntax error or stops at an over-long line), every key stored in the
Document is non-empty, contains no `=`, has no leading or trailing whitespace
and does not begin with `;` or `#`; and no stored key or value contains a line
break (`\n`). -/
theorem stored_keys_are_clean (D data s k v : Str)
    (h : (parse D data).p.value? s k = some v) :
    k ≠ [] ∧ '=' ∉ k ∧
    (∀ c, k.head? = some c → unicode.IsSpace c = false) ∧
    (∀ c, k.getLast? = some c → unicode.IsSpace c = false) ∧
    k.head? ≠ some ';' ∧ k.head? ≠ some '#' ∧ '\n' ∉ k ∧ '\n' ∉ v := by
  have hcl : (parse D data).p.Clean := by
    unfold parse parser.parse
    refine loop_clean _ _ rfl fresh_WF ?_ (scanLines_no_newline data)
    intro s k v hv
    simp [parser.parse.init, parser.fresh, parser.value?, parser.section?, Map.get?] at hv
  obtain ⟨⟨h1, h2, h3, h4, h5, h6, h7⟩, h8⟩ := hcl s k v h
  exact ⟨h1, h2, h3, h4, h5, h6, h7, h8⟩

/-- Instance of C19 on an input that stops at a syntax error after one
assignment. -/
theorem stored_keys_are_clean_witness :
    (parse "DEFAULT".toList "  my key  =  'v = w'  \noops".toList).err =
      some (error.errSyntax 2 "oops".toList) ∧
    ("my key".toList ≠ [] ∧ '=' ∉ "my key".toList ∧
    (∀ c, "my key".toList.head? = some c → unicode.IsSpace c = false) ∧
    (∀ c, "my key".toList.getLast? = some c → unicode.IsSpace c = false) ∧
    "my key".toList.head? ≠ some ';' ∧ "my key".toList.head? ≠ some '#' ∧
    '\n' ∉ "my key".toList ∧ '\n' ∉ "v = w".toList) :=
  ⟨by decide,
   stored_keys_are_clean "DEFAULT".toList "  my key  =  'v = w'  \noops".toList
    "DEFAULT".toList "my key".toList "v = w".toList (by decide)⟩

/-! ## Line endings and indentation -/

theorem TrimSpace_append_spaces (l ws : Str) (h : ∀ c ∈ ws, unicode.IsSpace c = true) :
    strings.TrimSpace (l ++ ws) = strings.TrimSpace l := by
  induction ws using List.reverseRecOn with
  | nil => simp
  | append_singleton ws c ih =>
    rw [← List.append_assoc, TrimSpace_concat_space _ c (h c (by simp))]
    exact ih (fun x hx => h x (by simp [hx]))

theorem TrimSpace_spaces_append (ws l : Str) (h : ∀ c ∈ ws, unicode.IsSpace c = true) :
    strings.TrimSpace (ws ++ l) = strings.TrimSpace l := by
  have hd : ws.dropWhile unicode.IsSpace = [] := List.dropWhile_eq_nil_iff.mpr h
  unfold strings.TrimSpace
  rw [List.dropWhile_append, hd]
  simp

theorem TrimSpace_padded (l l' : Str) (h : padded l l') :
    strings.TrimSpace l' = strings.TrimSpace l := by
  obtain ⟨ws₁, ws₂, h₁, h₂, rfl⟩ := h
  have hs : ∀ ws : Str, (∀ c ∈ ws, c = ' ' ∨ c = '\t') →
      ∀ c ∈ ws, unicode.IsSpace c = true := by
    intro ws hws c hc
    rcases hws c hc with rfl | rfl <;> decide
  rw [TrimSpace_append_spaces _ ws₂ (hs ws₂ h₂), TrimSpace_spaces_append ws₁ l (hs ws₁ h₁)]

theorem classify_congr (a b : Str) (h : strings.TrimSpace a = strings.TrimSpace b) :
    classify a = classify b := by
  unfold classify
  rw [h]

theorem loop_trim_congr (st₁ st₂ : LoopState) (ls ls' : List Str)
    (hp : st₁.p = st₂.p) (hs : st₁.«section» = st₂.«section»)
    (hn : st₁.lineNum = st₂.lineNum)
    (hrel : List.Forall₂ (fun a b => strings.TrimSpace b = strings.TrimSpace a) ls ls')
    (hfit : ∀ l ∈ ls, fitsToken l = true) (hfit' : ∀ l ∈ ls', fitsToken l = true) :
    (parser.parse.loop st₁ ls).p = (parser.parse.loop st₂ ls').p ∧
    (parser.parse.loop st₁ ls).err = (parser.parse.loop st₂ ls').err := by
  induction hrel generalizing st₁ st₂ with
  | nil => simp [parser.parse.loop, hp]
  | @cons a b l₁ l₂ hab _ ih =>
    have ha := (fitsToken_iff a).mp (hfit a (List.mem_cons_self _ _))
    have hb := (fitsToken_iff b).mp (hfit' b (List.mem_cons_self _ _))
    have hcl : classify b = classify a := classify_congr b a hab
    simp only [parser.parse.loop, ha, hb, if_false, body_eq_classify, classify_dropCR, hcl]
    have hrest := fun (x₁ x₂ : LoopState) h1 h2 h3 => ih x₁ x₂ h1 h2 h3
      (fun l hl => hfit l (List.mem_cons_of_mem _ hl))
      (fun l hl => hfit' l (List.mem_cons_of_mem _ hl))
    cases hc : classify a with
    | skipped => exact hrest _ _ hp hs (by simp [parser.parse.tick, hn])
    | array => exact hrest _ _ hp hs (by simp [parser.parse.tick, hn])
    | header name => exact hrest _ _ hp rfl (by simp [parser.parse.tick, hn])
    | assign key val =>
      exact hrest _ _ (by simp [parser.parse.tick, hp, hs]) hs (by simp [parser.parse.tick, hn])
    | invalid src => simp [hp, hn]

theorem scanLines_toCRLF (data : Str) :
    List.Forall₂ (fun l l' => l' = l ∨ l' = l ++ ['\r'])
      (scanLines data) (scanLines (toCRLF data)) := by
  induction data with
  | nil => simp [toCRLF, scanLines]
  | cons c cs ih =>
    by_cases hc : c = '\n'
    · subst hc
      have hcr : ¬ ('\r' = '\n') := by decide
      simp only [toCRLF, scanLines, if_true, hcr, if_false]
      exact List.Forall₂.cons (Or.inr rfl) ih
    · simp only [toCRLF, scanLines, hc, if_false]
      cases h1 : scanLines cs with
      | nil =>
        rw [h1] at ih
        cases h2 : scanLines (toCRLF cs) with
        | nil => exact List.Forall₂.cons (Or.inl rfl) List.Forall₂.nil
        | cons x xs => rw [h2] at ih; cases ih
      | cons l ls =>
        rw [h1] at ih
        cases h2 : scanLines (toCRLF cs) with
        | nil => rw [h2] at ih; cases ih
        | cons x xs =>
          rw [h2] at ih
          obtain ⟨hx, hrest⟩ := List.forall₂_cons.mp ih
          refine List.Forall₂.cons ?_ hrest
          rcases hx with rfl | rfl
          · exact Or.inl rfl
          · exact Or.inr rfl

theorem forall₂_TrimSpace_of_CRLF (ls ls' : List Str)
    (h : List.Forall₂ (fun l l' => l' = l ∨ l' = l ++ ['\r']) ls ls') :
    List.Forall₂ (fun a b => strings.TrimSpace b = strings.TrimSpace a) ls ls' := by
  refine List.Forall₂.imp ?_ h
  intro a b hab
  rcases hab with rfl | rfl
  · rfl
  · exact TrimSpace_concat_space a '\r' IsSpace_cr

theorem forall₂_TrimSpace_of_padded (ls ls' : List Str) (h : List.Forall₂ padded ls ls') :
    List.Forall₂ (fun a b => strings.TrimSpace b = strings.TrimSpace a) ls ls' :=
  List.Forall₂.imp (fun a b hab => TrimSpace_padded a b hab) h

theorem toCRLF_replicate_a (n : Nat) :
    toCRLF (List.replicate n 'a' ++ '\n' :: []) =
      (List.replicate n 'a' ++ ['\r']) ++ '\n' :: [] := by
  induction n with
  | zero => decide
  | succ n ih =>
    have hne : ¬ ('a' = '\n') := by decide
    rw [List.replicate_succ, List.cons_append, toCRLF]
    simp only [hne, if_false, ih, List.cons_append]

/-- A line of letters `a` that just fits the token limit no longer fits once
its LF ending is replaced by CRLF. -/
theorem crlf_exceeds_limit (D : Str) (n : Nat) (hpos : 0 < n) (hlt : n < MaxScanTokenSize)
    (hge : MaxScanTokenSize ≤ n + 1) :
    (∀ l ∈ scanLines (List.replicate n 'a' ++ '\n' :: []), fitsToken l = true) ∧
    (parse D (List.replicate n 'a' ++ '\n' :: [])).err =
      some (error.errSyntax 1 (List.replicate n 'a')) ∧
    (parse D (toCRLF (List.replicate n 'a' ++ '\n' :: []))).err =
      some error.ErrTooLong := by
  obtain ⟨m, rfl⟩ := Nat.exists_eq_succ_of_ne_zero (Nat.pos_iff_ne_zero.mp hpos)
  have hnl : '\n' ∉ List.replicate (m + 1) 'a' :=
    fun h => absurd (List.eq_of_mem_replicate h) (by decide)
  have hlines : scanLines (List.replicate (m + 1) 'a' ++ '\n' :: []) =
      [List.replicate (m + 1) 'a'] := by
    rw [scanLines_cons_line _ [] hnl]
    rfl
  have hfit : fitsToken (List.replicate (m + 1) 'a') = true := by
    unfold fitsToken
    rw [byteLen_replicate_a]
    exact decide_eq_true hlt
  have hbad : unrecognised (List.replicate (m + 1) 'a') = true := by
    unfold unrecognised
    rw [classify_replicate_a]
  refine ⟨?_, ?_, ?_⟩
  · intro l hl
    rw [hlines, List.mem_singleton] at hl
    rw [hl]
    exact hfit
  · unfold parse parser.parse
    rw [hlines, loop_unrecognised _ _ [] hfit hbad, TrimSpace_replicate_a]
    rfl
  · rw [toCRLF_replicate_a]
    have hnl' : '\n' ∉ (List.replicate (m + 1) 'a' ++ ['\r']) := by
      intro hmem
      rcases List.mem_append.mp hmem with h | h
      · exact hnl h
      · revert h; decide
    have hlong : fitsToken (List.replicate (m + 1) 'a' ++ ['\r']) = false := by
      have hcr : byteLen ['\r'] = 1 := by decide
      unfold fitsToken
      rw [byteLen_append, byteLen_replicate_a, hcr]
      exact decide_eq_false (by omega)
    exact (long_first_line_stops D parser.fresh _ [] hnl' hlong).1

/-- C20 fails as stated: the one-line input of 65535 letters `a` ended by LF
stays within the scanner's token limit and fails with an `errSyntax` for line
1; with the LF replaced by CRLF the raw line has 65536 bytes and the failure is
`bufio.ErrTooLong`. -/
theorem crlf_changes_error :
    (∀ l ∈ scanLines (List.replicate 65535 'a' ++ '\n' :: []), fitsToken l = true) ∧
    (parse "DEFAULT".toList (List.replicate 65535 'a' ++ '\n' :: [])).err =
      some (error.errSyntax 1 (List.replicate 65535 'a')) ∧
    (parse "DEFAULT".toList (toCRLF (List.replicate 65535 'a' ++ '\n' :: []))).err =
      some error.ErrTooLong :=
  crlf_exceeds_limit "DEFAULT".toList 65535 (by decide) (by decide) (by decide)

/-- C20, amended: when the lines of the input and the lines of the modified
input all stay within the scanner's token limit, replacing LF line endings by
CRLF, or adding leading or trailing spaces or tabs to any of its lines, yields
the same parser state (the same Document) and the same error: on failure, an
`errSyntax` with the same Line and the same Source. -/
theorem line_endings_and_indentation (D : Str) (p : parser) (data : Str)
    (hfit : ∀ l ∈ scanLines data, fitsToken l = true) :
    ((∀ l ∈ scanLines (toCRLF data), fitsToken l = true) →
      (parser.parse D p (toCRLF data)).p = (parser.parse D p data).p ∧
      (parser.parse D p (toCRLF data)).err = (parser.parse D p data).err) ∧
    (∀ data', List.Forall₂ padded (scanLines data) (scanLines data') →
      (∀ l ∈ scanLines data', fitsToken l = true) →
      (parser.parse D p data').p = (parser.parse D p data).p ∧
      (parser.parse D p data').err = (parser.parse D p data).err) := by
  refine ⟨?_, ?_⟩
  · intro hfit'
    have h := loop_trim_congr (parser.parse.init D p) (parser.parse.init D p) _ _ rfl rfl rfl
      (forall₂_TrimSpace_of_CRLF _ _ (scanLines_toCRLF data)) hfit hfit'
    unfold parser.parse
    exact ⟨h.1.symm, h.2.symm⟩
  · intro data' hpad hfit'
    have h := loop_trim_congr (parser.parse.init D p) (parser.parse.init D p) _ _ rfl rfl rfl
      (forall₂_TrimSpace_of_padded _ _ hpad) hfit hfit'
    unfold parser.parse
    exact ⟨h.1.symm, h.2.symm⟩

/-- Instance of the amended C20: CRLF line endings give the same syntax error
as LF line endings. -/
theorem line_endings_and_indentation_witness :
    (parser.parse "DEFAULT".toList parser.fresh (toCRLF "[s]\na = 1\noops\n".toList)).err =
      (parser.parse "DEFAULT".toList parser.fresh "[s]\na = 1\noops\n".toList).err :=
  ((line_endings_and_indentation "DEFAULT".toList parser.fresh "[s]\na = 1\noops\n".toList
    (by decide)).1 (by decide)).2

/-! ## The case-insensitivity flag -/

/-- C13, evaluation of the code: with IgnoreCase on, the input `[Foo]`,
`Bar = 1`, `[foo]`, `bar = 2` gives two sections, `Foo` holding `bar = 1` and
`foo` holding `bar = 2`; and in `[Foo]`, `a = 1`, `b = 2` the second store
replaces the section, so that the value of `a` is lost. -/
theorem ignoreCase_sections_not_merged :
    (parser.parse "DEFAULT".toList { parser.fresh with IgnoreCase := true }
        "[Foo]\nBar = 1\n[foo]\nbar = 2".toList).err = none ∧
    (parser.parse "DEFAULT".toList { parser.fresh with IgnoreCase := true }
        "[Foo]\nBar = 1\n[foo]\nbar = 2".toList).p.section? "Foo".toList =
      some [("bar".toList, "1".toList)] ∧
    (parser.parse "DEFAULT".toList { parser.fresh with IgnoreCase := true }
        "[Foo]\nBar = 1\n[foo]\nbar = 2".toList).p.section? "foo".toList =
      some [("bar".toList, "2".toList)] ∧
    (parser.parse "DEFAULT".toList { parser.fresh with IgnoreCase := true }
        "[Foo]\na = 1\nb = 2".toList).p.value? "foo".toList "a".toList = none ∧
    (parser.parse "DEFAULT".toList { parser.fresh with IgnoreCase := true }
        "[Foo]\na = 1\nb = 2".toList).p.value? "Foo".toList "a".toList = none ∧
    (parser.parse "DEFAULT".toList { parser.fresh with IgnoreCase := true }
        "[Foo]\na = 1\nb = 2".toList).p.section? "Foo".toList =
      some [("b".toList, "2".toList)] := by
  decide

/-- C14, evaluation of the code: with IgnoreCase on, the input `[Foo]`,
`Bar = 1` leaves a section under the name `Foo`, which differs from its
lower-casing `foo`, and no section under `foo`; the key is stored lower-cased. -/
theorem ignoreCase_section_name_not_lowered :
    (parser.parse "DEFAULT".toList { parser.fresh with IgnoreCase := true }
        "[Foo]\nBar = 1".toList).p.sections = [("Foo".toList, 0)] ∧
    strings.ToLower "Foo".toList = "foo".toList ∧
    "Foo".toList ≠ strings.ToLower "Foo".toList ∧
    (parser.parse "DEFAULT".toList { parser.fresh with IgnoreCase := true }
        "[Foo]\nBar = 1".toList).p.section? "foo".toList = none ∧
    (parser.parse "DEFAULT".toList { parser.fresh with IgnoreCase := true }
        "[Foo]\nBar = 1".toList).p.section? "Foo".toList =
      some [("bar".toList, "1".toList)] := by
  decide

/-! ## The entry point -/

/-- C16: `Decode` called with a target that is not a pointer, or that is a nil
pointer, returns the invalid-target error whatever the input is, also when the
input has a syntax error, and leaves the target as it was; the result does not
depend on the input, which is parsed for a non-nil pointer only. -/
theorem Decode_invalid_target {α : Type} (D : Str) (Marshal : parser → Except Str Str)
    (Unmarshal : Str → α → Option Str × α) (blob typ : Str) :
    Decode D Marshal Unmarshal blob (Target.nonPointer typ) =
      (some (DecodeError.nonPointer typ), Target.nonPointer typ) ∧
    Decode D Marshal Unmarshal blob (Target.nilPointer typ) =
      (some (DecodeError.nilPointer typ), Target.nilPointer typ) ∧
    (∀ e, (Decode D Marshal Unmarshal blob (Target.nonPointer typ)).1 ≠
        some (DecodeError.parse e) ∧
      (Decode D Marshal Unmarshal blob (Target.nilPointer typ)).1 ≠
        some (DecodeError.parse e)) ∧
    (∀ x : α, (Decode D Marshal Unmarshal "oops".toList (Target.pointer typ x)).1 =
      some (DecodeError.parse (error.errSyntax 1 "oops".toList))) ∧
    (Decode D Marshal Unmarshal "oops".toList (Target.nonPointer typ)).1 =
      some (DecodeError.nonPointer typ) := by
  refine ⟨rfl, rfl, fun e => ⟨?_, ?_⟩, fun x => ?_, rfl⟩
  · simp [Decode]
  · simp [Decode]
  · have hlines : scanLines "oops".toList = ["oops".toList] := by decide
    have htrim : strings.TrimSpace "oops".toList = "oops".toList := by decide
    have herr : (parse D "oops".toList).err = some (error.errSyntax 1 "oops".toList) := by
      unfold parse parser.parse
      rw [hlines, loop_unrecognised _ _ [] (by decide) (by decide), htrim]
      rfl
    unfold Decode
    simp only []
    rw [herr]

/-! ## The case mapping beyond ASCII -/

/-- Examples of `strings.ToLower` outside ASCII: `Ä`, `Σ` and the Kelvin sign
U+212A are mapped to `ä`, `σ` and `k`; `ß` and the digit are kept; U+0130,
U+01C5, U+1E9E and U+13A0 are mapped to U+0069, U+01C6, U+00DF and U+AB70. -/
theorem ToLower_beyond_ascii :
    strings.ToLower "ÄΣ\u212A Foo1ß".toList = "äσk foo1ß".toList ∧
    strings.ToLower "\u0130\u01C5\u1E9E\u13A0".toList =
      "\u0069\u01C6\u00DF\uAB70".toList := by
  decide

/-- With `IgnoreCase` on, the lookup of the section `Ä` is made under `ä` and
fails at every assignment: in `[Ä]`, `a = 1`, `b = 2` the section stored under
`Ä` is replaced and holds `b` only; in `[ä]`, `Ä = 1` the key is stored as
`ä`. -/
theorem ignoreCase_beyond_ascii :
    (parser.parse "DEFAULT".toList { parser.fresh with IgnoreCase := true }
        "[Ä]\na = 1\nb = 2".toList).p.section? "Ä".toList =
      some [("b".toList, "2".toList)] ∧
    (parser.parse "DEFAULT".toList { parser.fresh with IgnoreCase := true }
        "[ä]\nÄ = 1".toList).p.section? "ä".toList =
      some [("ä".toList, "1".toList)] := by
  decide

end Ini
